import Mathlib

/-!
# Distributed_Cache: a shallow embedding of the cache core

The development embeds the Go sources

* `geecache/lru/lru.go` (the bounded store with the LRU and LFU policies),
* `geecache/consistenthash/consistenthash.go` (the hash ring),
* `geecache/geecache.go` (the group orchestrator),

as Lean definitions and proves properties of them.

Modelling conventions.

* A Go `map[K]T` is an association list with at most one pair per key
  (`GoMap`).  The order in which `range` visits a map is left open by Go; every
  function that ranges over a map takes the visiting order as an argument.
* A `*list.Element` is an address (`Elem`); the element contents live in a
  heap `elems`.  `container/list` is the list of addresses, front first.
* `int` and `int64` are modelled on `Int`: byte counts and counters stay far
  below `2 ^ 63`.
* A loop that may run forever takes a schedule whose length bounds the number
  of iterations; the result is `none` when the schedule is used up while the
  loop condition still holds.
-/

/-! ## Go maps -/

namespace GoMap

/-- The map read `m[k]` with the comma-ok flag: `none` when `k` is absent. -/
def lookup {α : Type} (k : String) : List (String × α) → Option α
  | [] => none
  | (k', v) :: m => if k' = k then some v else lookup k m

/-- The map write `m[k] = v`. -/
def insert {α : Type} (k : String) (v : α) : List (String × α) → List (String × α)
  | [] => [(k, v)]
  | (k', v') :: m => if k' = k then (k, v) :: m else (k', v') :: insert k v m

/-- The builtin `delete(m, k)`. -/
def delete {α : Type} (k : String) : List (String × α) → List (String × α)
  | [] => []
  | (k', v') :: m => if k' = k then delete k m else (k', v') :: delete k m

/-- The keys of a map. -/
def keys {α : Type} (m : List (String × α)) : List String := m.map Prod.fst

end GoMap

/-! ## geecache/lru/lru.go -/

namespace lru

/-- The `EvictionPolicy` constants. -/
inductive EvictionPolicy where
  | LRU
  | LFU
deriving DecidableEq, Repr

/-- The interface `Value`: a stored value reports its length in bytes. -/
class Value (V : Type) where
  Len : V → Nat

/-- The test type `String` of lru_test.go, whose `Len` is `len(d)`. -/
instance : Value String where
  Len := String.utf8ByteSize

/-- The struct `entry`, the payload of a list element. -/
structure entry (V : Type) where
  key : String
  value : V

/-- The address of a `list.Element`. -/
abbrev Elem := Nat

/-- The struct `Cache`.  `elems` and `fresh` model the heap of list elements
(`fresh` is the next unused address); `OnEvicted` tells whether a hook is
registered and `evicted` records the calls made to it, oldest first. -/
structure Cache (V : Type) where
  maxBytes : Int
  nbytes : Int
  ll : List Elem
  cache : List (String × Elem)
  OnEvicted : Bool
  evictionType : EvictionPolicy
  freqMap : List (String × Int)
  elems : Elem → entry V
  fresh : Elem
  evicted : List (String × V)

/-- The largest `int`, `int(^uint(0) >> 1)`. -/
def maxInt : Int := 9223372036854775807

/-- The size charged for an entry: `len(key) + value.Len()`. -/
def entrySize {V : Type} [Value V] (kv : entry V) : Int :=
  (kv.key.utf8ByteSize : Int) + (Value.Len kv.value : Int)

/-- `list.MoveToFront`: nothing happens unless the element is in the list. -/
def moveToFront (l : List Elem) (e : Elem) : List Elem :=
  if e ∈ l then e :: l.erase e else l

/-- `New(maxBytes, evictionType, onEvicted)`; `onEvicted` tells whether the
hook argument is non-nil. -/
def New {V : Type} [Inhabited V] (maxBytes : Int) (evictionType : EvictionPolicy)
    (onEvicted : Bool) : Cache V :=
  { maxBytes := maxBytes
    nbytes := 0
    ll := []
    cache := []
    OnEvicted := onEvicted
    evictionType := evictionType
    freqMap := []
    elems := fun _ => ⟨"", default⟩
    fresh := 0
    evicted := [] }

/-- `updateFrequency(key)`. -/
def Cache.updateFrequency {V : Type} (c : Cache V) (key : String) : Cache V :=
  match GoMap.lookup key c.freqMap with
  | some f => { c with freqMap := GoMap.insert key (f + 1) c.freqMap }
  | none => { c with freqMap := GoMap.insert key 1 c.freqMap }

/-- `Get(key)`: the new store and the result, `none` for `(nil, false)`. -/
def Cache.Get {V : Type} (c : Cache V) (key : String) : Cache V × Option V :=
  match GoMap.lookup key c.cache with
  | some ele =>
    let c1 := c.updateFrequency key
    let c2 := { c1 with ll := moveToFront c1.ll ele }
    (c2, some (c2.elems ele).value)
  | none => (c, none)

/-- The hook call `c.OnEvicted(key, value)` guarded by `c.OnEvicted != nil`. -/
def Cache.callOnEvicted {V : Type} (c : Cache V) (key : String) (value : V) : Cache V :=
  if c.OnEvicted then { c with evicted := c.evicted ++ [(key, value)] } else c

/-- `RemoveOldest()`. -/
def Cache.RemoveOldest {V : Type} [Value V] (c : Cache V) : Cache V :=
  match c.ll.getLast? with
  | some ele =>
    let kv := c.elems ele
    let c1 := { c with
      ll := c.ll.erase ele
      cache := GoMap.delete kv.key c.cache
      nbytes := c.nbytes - entrySize kv
      freqMap := GoMap.delete kv.key c.freqMap }
    c1.callOnEvicted kv.key kv.value
  | none => c

/-- An order in which `range` may visit the frequency map: Go leaves the
order open, so any rearrangement of the pairs of the map is possible. -/
structure RangeOrder where
  visit : List (String × Int) → List (String × Int)
  perm : ∀ m, (visit m).Perm m

/-- The scan of `removeLFU`: `(leastFreqKey, minFreq)` after the `range` loop
has seen the pairs `pairs` in that order. -/
def leastFreq (pairs : List (String × Int)) : String × Int :=
  pairs.foldl (fun acc kf => if kf.2 < acc.2 then (kf.1, kf.2) else acc) ("", maxInt)

/-- `removeLFU()`, where `order` is the order in which `range c.freqMap` visits
the frequency map. -/
def Cache.removeLFU {V : Type} [Value V] (order : RangeOrder) (c : Cache V) :
    Cache V :=
  let leastFreqKey := (leastFreq (order.visit c.freqMap)).1
  if leastFreqKey ≠ "" then
    match GoMap.lookup leastFreqKey c.cache with
    | some ele =>
      let kv := c.elems ele
      let c1 := { c with
        ll := c.ll.erase ele
        cache := GoMap.delete kv.key c.cache
        freqMap := GoMap.delete kv.key c.freqMap
        nbytes := c.nbytes - entrySize kv }
      c1.callOnEvicted kv.key kv.value
    | none => c
  else c

/-- `evict()`: dispatch on the policy. -/
def Cache.evict {V : Type} [Value V] (order : RangeOrder) (c : Cache V) : Cache V :=
  match c.evictionType with
  | .LRU => c.RemoveOldest
  | .LFU => c.removeLFU order

/-- The first half of `Add`: update in place or insert at the front. -/
def Cache.addEntry {V : Type} [Value V] (c : Cache V) (key : String) (value : V) : Cache V :=
  match GoMap.lookup key c.cache with
  | some ele =>
    let kv := c.elems ele
    { c with
      ll := moveToFront c.ll ele
      nbytes := c.nbytes + ((Value.Len value : Int) - (Value.Len kv.value : Int))
      elems := Function.update c.elems ele { kv with value := value } }
  | none =>
    let ele := c.fresh
    let c1 := { c with
      ll := ele :: c.ll
      elems := Function.update c.elems ele ⟨key, value⟩
      fresh := c.fresh + 1
      cache := GoMap.insert key ele c.cache
      nbytes := c.nbytes + ((key.utf8ByteSize : Int) + (Value.Len value : Int)) }
    c1.updateFrequency key

/-- The loop condition of `Add`: `c.maxBytes != 0 && c.maxBytes < c.nbytes`. -/
def Cache.over {V : Type} (c : Cache V) : Bool :=
  c.maxBytes ≠ 0 && c.maxBytes < c.nbytes

/-- The eviction loop of `Add`.  The schedule holds one `range` order per
iteration; `none` means that the schedule ran out with the condition still
true. -/
def Cache.evictLoop {V : Type} [Value V] : List RangeOrder → Cache V →
    Option (Cache V)
  | sched, c =>
    if c.over then
      match sched with
      | [] => none
      | order :: rest => Cache.evictLoop rest (c.evict order)
    else some c

/-- `Add(key, value)` under a schedule for its eviction loop. -/
def Cache.Add {V : Type} [Value V] (sched : List RangeOrder) (c : Cache V)
    (key : String) (value : V) : Option (Cache V) :=
  Cache.evictLoop sched (c.addEntry key value)

/-- `Length()`. -/
def Cache.Length {V : Type} (c : Cache V) : Int := c.ll.length

/-- The `range` order that visits the pairs as the model stores them. -/
def RangeOrder.stored : RangeOrder := ⟨id, fun m => List.Perm.refl m⟩

/-- The `range` order that visits the pairs in the reverse of the stored order. -/
def RangeOrder.reversed : RangeOrder := ⟨List.reverse, fun m => List.reverse_perm m⟩

/-- A call of the public interface of the store. -/
inductive Op (V : Type) where
  | add (sched : List RangeOrder) (key : String) (value : V)
  | get (key : String)
  | removeOldest

/-- One call; `none` when the call does not return within its schedule. -/
def Cache.step {V : Type} [Value V] (c : Cache V) : Op V → Option (Cache V)
  | .add sched key value => c.Add sched key value
  | .get key => some (c.Get key).1
  | .removeOldest => some c.RemoveOldest

/-- A sequence of calls, each made after the previous one has returned. -/
def Cache.run {V : Type} [Value V] (c : Cache V) : List (Op V) → Option (Cache V)
  | [] => some c
  | op :: ops => (c.step op).bind (fun c1 => c1.run ops)

/-- The states a store can be in between two calls. -/
def Reachable {V : Type} [Value V] [Inhabited V] (c : Cache V) : Prop :=
  ∃ (maxBytes : Int) (evictionType : EvictionPolicy) (onEvicted : Bool) (ops : List (Op V)),
    (New maxBytes evictionType onEvicted).run ops = some c

/-- The entries that are live: the payloads of the elements of the list, most
recently used first. -/
def Cache.entries {V : Type} (c : Cache V) : List (entry V) := c.ll.map c.elems

/-- The entries the lookup map leads to. -/
def Cache.mapped {V : Type} (c : Cache V) : List (entry V) :=
  c.cache.map (fun p => c.elems p.2)

/-- The sum of `len(key) + value.Len()` over a list of entries. -/
def totalSize {V : Type} [Value V] (es : List (entry V)) : Int := (es.map entrySize).sum


/-- The representation invariant of a store: the list, the lookup map, the
frequency map, the heap of elements and the byte counter agree. -/
structure Cache.WF {V : Type} [Value V] (c : Cache V) : Prop where
  ll_nodup : c.ll.Nodup
  cache_nodup : (GoMap.keys c.cache).Nodup
  freq_nodup : (GoMap.keys c.freqMap).Nodup
  cache_ll : ∀ k e, GoMap.lookup k c.cache = some e ↔ e ∈ c.ll ∧ (c.elems e).key = k
  freq_cache : ∀ k, k ∈ GoMap.keys c.freqMap ↔ k ∈ GoMap.keys c.cache
  freq_pos : ∀ k f, GoMap.lookup k c.freqMap = some f → 1 ≤ f
  fresh_gt : ∀ e ∈ c.ll, e < c.fresh
  bytes : c.nbytes = totalSize c.entries


/-- The store update shared by `RemoveOldest` and `removeLFU` once the element
`ele` to drop is known: unlink it, delete its key from both maps, give its
bytes back and call the hook. -/
def Cache.dropElem {V : Type} [Value V] (c : Cache V) (ele : Elem) : Cache V :=
  let kv := c.elems ele
  let c1 := { c with
    ll := c.ll.erase ele
    cache := GoMap.delete kv.key c.cache
    nbytes := c.nbytes - entrySize kv
    freqMap := GoMap.delete kv.key c.freqMap }
  c1.callOnEvicted kv.key kv.value


/-- The states in which the eviction loop of `Add` calls `evict`, in order,
for as long as the schedule lasts. -/
def Cache.evictStates {V : Type} [Value V] : List RangeOrder → Cache V → List (Cache V)
  | sched, c =>
    if c.over then
      match sched with
      | [] => []
      | order :: rest => c :: Cache.evictStates rest (c.evict order)
    else []

/-- A record of touches, kept beside a store to state recency: `clock` counts
the touches made so far and `last key` is the time of the latest touch of
`key` (`0` when it was never touched). -/
structure Touches where
  clock : Nat
  last : String → Nat

/-- No touch has happened yet. -/
def Touches.start : Touches := ⟨0, fun _ => 0⟩

/-- A touch of `key`: it becomes the most recently touched key. -/
def Touches.touch (t : Touches) (key : String) : Touches :=
  ⟨t.clock + 1, Function.update t.last key (t.clock + 1)⟩

/-- The touches after a call: `Add` touches its key (fresh insertion or
in-place update), `Get` touches its key when it hits, `RemoveOldest` touches
nothing. -/
def Cache.touched {V : Type} (c : Cache V) (t : Touches) : Op V → Touches
  | .add _ key _ => t.touch key
  | .get key => if (c.Get key).2.isSome then t.touch key else t
  | .removeOldest => t

/-- A sequence of calls with the record of touches kept along. -/
def Cache.runTouched {V : Type} [Value V] (c : Cache V) (t : Touches) :
    List (Op V) → Option (Cache V × Touches)
  | [] => some (c, t)
  | op :: ops =>
    match c.step op with
    | some c1 => c1.runTouched (c.touched t op) ops
    | none => none

/-- The element `ele` holds the live entry whose latest touch is the oldest. -/
def Cache.Oldest {V : Type} (c : Cache V) (t : Touches) (ele : Elem) : Prop :=
  ele ∈ c.ll ∧ ∀ e ∈ c.ll, e ≠ ele → t.last (c.elems ele).key < t.last (c.elems e).key

/-- The recency list is ordered by the time of the latest touch, newest first,
and no entry was touched after the clock. -/
def Cache.Recent {V : Type} (c : Cache V) (t : Touches) : Prop :=
  List.Pairwise (fun a b => t.last (c.elems b).key < t.last (c.elems a).key) c.ll ∧
  ∀ e ∈ c.ll, t.last (c.elems e).key ≤ t.clock


/-- The live entries as `(key, value)` pairs, most recently used first. -/
def Cache.view {V : Type} (c : Cache V) : List (String × V) :=
  c.ll.map (fun e => ((c.elems e).key, (c.elems e).value))

/-- The sum of `len(key) + value.Len()` over a list of `(key, value)` pairs. -/
def viewSize {V : Type} [Value V] (v : List (String × V)) : Int :=
  (v.map (fun p => (p.1.utf8ByteSize : Int) + (Value.Len p.2 : Int))).sum


/-- The `(key, value)` pair held by the list element `e`. -/
def Cache.payload {V : Type} (c : Cache V) (e : Elem) : String × V :=
  ((c.elems e).key, (c.elems e).value)

/-- The entries that a step from `c` to `c'` has removed from the store: the
elements in the list of `c` that are not in the list of `c'`, each with the pair
it held in `c`. -/
def Cache.gone {V : Type} (c c' : Cache V) : List (Elem × (String × V)) :=
  (c.ll.filter (fun e => decide (e ∉ c'.ll))).map (fun e => (e, c.payload e))

/-- The entries removed by the eviction loop of `Add`, in removal order. -/
def Cache.loopGone {V : Type} [Value V] : List RangeOrder → Cache V →
    List (Elem × (String × V))
  | sched, c =>
    if c.over then
      match sched with
      | [] => []
      | order :: rest => c.gone (c.evict order) ++ Cache.loopGone rest (c.evict order)
    else []

/-- The entries removed by one call, in removal order. -/
def Cache.removedBy {V : Type} [Value V] (c : Cache V) : Op V → List (Elem × (String × V))
  | .add sched key value =>
    c.gone (c.addEntry key value) ++ Cache.loopGone sched (c.addEntry key value)
  | .get key => c.gone (c.Get key).1
  | .removeOldest => c.gone c.RemoveOldest

/-- The entries removed by a sequence of calls, in removal order. -/
def Cache.removedLog {V : Type} [Value V] (c : Cache V) :
    List (Op V) → List (Elem × (String × V))
  | [] => []
  | op :: ops =>
    c.removedBy op ++
      match c.step op with
      | some c1 => c1.removedLog ops
      | none => []

/-- The hook has been told exactly the removed entries `log`, each element
once, and no removed element is in the list. -/
def Cache.Logged {V : Type} (c : Cache V) (log : List (Elem × (String × V))) : Prop :=
  c.evicted = log.map Prod.snd ∧ (log.map Prod.fst).Nodup ∧
  ∀ x ∈ log, x.1 ∉ c.ll ∧ x.1 < c.fresh

end lru

namespace lru

/-- A sequence of calls of `Add`, each with the schedule of its loop. -/
def addOps {V : Type} (adds : List (List RangeOrder × String × V)) : List (Op V) :=
  adds.map (fun a => Op.add a.1 a.2.1 a.2.2)

/-- The value given by the last call of `Add` for the key `k` in a sequence of
calls, `none` when no call was for `k`. -/
def lastAdded {V : Type} : List (List RangeOrder × String × V) → String → Option V
  | [], _ => none
  | a :: rest, k =>
    match lastAdded rest k with
    | some v => some v
    | none => if a.2.1 = k then some a.2.2 else none

end lru

/-! ## geecache/consistenthash/consistenthash.go -/

namespace consistenthash

/-- The type `Hash`, `func(data []byte) uint32`.  A hash is any function to the
naturals; its result is reduced modulo `2 ^ 32` where it is used. -/
abbrev Hash := String → Nat

/-- One step of the bitwise CRC-32 (IEEE polynomial, reflected). -/
def crcShift (crc : Nat) : Nat :=
  if crc % 2 = 1 then (crc / 2) ^^^ 3988292384 else crc / 2

/-- The CRC-32 register after one more byte. -/
def crcByte (crc : Nat) (b : UInt8) : Nat :=
  crcShift (crcShift (crcShift (crcShift (crcShift (crcShift (crcShift (crcShift
    (crc ^^^ b.toNat))))))))

/-- The library function `crc32.ChecksumIEEE`, the default hash. -/
def ChecksumIEEE (data : String) : Nat :=
  (data.toUTF8.data.toList.foldl crcByte 4294967295) ^^^ 4294967295

/-- The struct `Map`.  `hashMap` is a Go map that is only read and written at
single keys, so it is modelled by the function that a read computes: the stored
node name, or the empty string where nothing is stored. -/
structure Map where
  hash : Hash
  replicas : Int
  keys : List Int
  hashMap : Int → String

/-- `New(replicas, fn)`; `fn = none` is the nil hash. -/
def New (replicas : Int) (fn : Option Hash) : Map :=
  { replicas := replicas
    hash := match fn with
      | some f => f
      | none => ChecksumIEEE
    keys := []
    hashMap := fun _ => "" }

/-- The conversion `int(m.hash(data))` of a `uint32` hash. -/
def Map.hashOf (m : Map) (data : String) : Int := ((m.hash data % 4294967296 : Nat) : Int)

/-- The body of the inner loop of `Add` for the replica index `i` of `key`. -/
def Map.addPoint (key : String) (m : Map) (i : Nat) : Map :=
  let hash := m.hashOf (toString i ++ key)
  { m with keys := m.keys ++ [hash], hashMap := Function.update m.hashMap hash key }

/-- The inner loop of `Add`: `for i := 0; i < m.replicas; i++`. -/
def Map.addKey (m : Map) (key : String) : Map :=
  (List.range m.replicas.toNat).foldl (Map.addPoint key) m

/-- The library function `sort.Ints`. -/
def sortInts (l : List Int) : List Int := l.insertionSort (fun a b => a ≤ b)

/-- `Add(keys...)`. -/
def Map.Add (m : Map) (keys : List String) : Map :=
  let m1 := keys.foldl Map.addKey m
  { m1 with keys := sortInts m1.keys }

/-- The loop of the library function `sort.Search` on the interval `[i, j)`.
The interval shrinks at every iteration, so `fuel ≥ j - i` iterations are never
used up. -/
def searchLoop (f : Nat → Bool) : Nat → Nat → Nat → Nat
  | 0, i, _ => i
  | fuel + 1, i, j =>
    if i < j then
      let h := (i + j) / 2
      if !f h then searchLoop f fuel (h + 1) j else searchLoop f fuel i h
    else i

/-- The library function `sort.Search(n, f)`. -/
def Search (n : Nat) (f : Nat → Bool) : Nat := searchLoop f n 0 n

/-- `Get(key)`. -/
def Map.Get (m : Map) (key : String) : String :=
  if m.keys.length = 0 then ""
  else
    let hash := m.hashOf key
    let idx := Search m.keys.length (fun i => decide (m.keys.getD i 0 ≥ hash))
    m.hashMap (m.keys.getD (idx % m.keys.length) 0)

/-- The smallest element of a list of hashes, found by a linear scan. -/
def least : List Int → Option Int
  | [] => none
  | x :: xs =>
    match least xs with
    | none => some x
    | some y => some (if x ≤ y then x else y)

/-- The reference lookup, a linear scan: the owner recorded for the smallest
virtual point that is at least `hash(key)`; when there is none, the owner
recorded for the smallest virtual point of the ring; the empty string on a ring
without points. -/
def Map.lookupRef (m : Map) (key : String) : String :=
  match least (m.keys.filter (fun p => decide (m.hashOf key ≤ p))) with
  | some p => m.hashMap p
  | none =>
    match least m.keys with
    | some p => m.hashMap p
    | none => ""

/-- A ring as it is after `New` and a sequence of calls of `Add`. -/
def ring (replicas : Int) (fn : Option Hash) (adds : List (List String)) : Map :=
  adds.foldl Map.Add (New replicas fn)


/-- A sample hash: the number that a string of decimal digits denotes. -/
def digits (s : String) : Nat := s.data.foldl (fun n c => 10 * n + (c.toNat - 48)) 0

end consistenthash

namespace consistenthash

/-- The virtual point of the replica `i` of the node `name` under the hash
`hash`: `int(hash([]byte(strconv.Itoa(i) + name)))`. -/
def pointOf (hash : Hash) (i : Nat) (name : String) : Int :=
  ((hash (toString i ++ name) % 4294967296 : Nat) : Int)

/-- No two virtual points of distinct nodes among `names` hash to the same
value. -/
def NoCollision (hash : Hash) (replicas : Int) (names : List String) : Prop :=
  ∀ n1 ∈ names, ∀ n2 ∈ names, ∀ i, i < replicas.toNat → ∀ j, j < replicas.toNat →
    pointOf hash i n1 = pointOf hash j n2 → n1 = n2

/-- The ring holds the virtual points of the nodes `names` and no others, and
the owner recorded for a point is a node that has this point. -/
def Map.Holds (m : Map) (names : List String) : Prop :=
  (∀ p ∈ m.keys, ∃ name ∈ names, ∃ i, i < m.replicas.toNat ∧
    p = pointOf m.hash i name ∧ m.hashMap p = name) ∧
  ∀ name ∈ names, ∀ i, i < m.replicas.toNat → pointOf m.hash i name ∈ m.keys

end consistenthash

/-! ## geecache/geecache.go

The group is embedded for calls made one after the other.  Calls made to the
collaborators of a group (the upstream getter, the peer picker and the peers)
are recorded in the field `calls` of the group, and a collaborator may answer
according to the calls made before. -/

namespace geecache

/-- A byte slice. -/
abbrev Bytes := List UInt8

/-- A Go `error`, given by its message; `none` of `Option Error` is the nil
error. -/
abbrev Error := String

/-- A call made by a group to one of its collaborators. -/
inductive Call where
  | getter (key : String)
  | pickPeer (key : String)
  | peerGet (group : String) (key : String)
deriving DecidableEq, Repr

/-- Modelled from the spec: byteview.go is not among the sources.  A `ByteView`
is an immutable snapshot of bytes that exposes its length (spec, section 3). -/
structure ByteView where
  b : Bytes
deriving DecidableEq, Repr

/-- The method `Len` of `ByteView`, which makes it a `Value` of the store. -/
instance : lru.Value ByteView where
  Len := fun v => v.b.length

instance : Inhabited ByteView := ⟨⟨[]⟩⟩

/-- Modelled from the spec: `cloneBytes` of byteview.go is not among the
sources.  A `ByteView` is built by copying the source bytes (spec, section 3);
on immutable lists the copy is the list itself. -/
def cloneBytes (b : Bytes) : Bytes := b

/-- The interface `Getter`: `Get(key) ([]byte, error)`, which may answer
according to the calls made so far. -/
structure Getter where
  Get : List Call → String → Except Error Bytes

/-- Modelled from the spec: peers.go is not among the sources.  The interface
`PeerGetter` (spec, section 6, PeerFetcher): a fetch with the request
`(group, key)` that yields the bytes of the response or an error. -/
structure PeerGetter where
  Get : List Call → String → String → Except Error Bytes

/-- Modelled from the spec: peers.go is not among the sources.  The interface
`PeerPicker` (spec, section 6, PeerSelector): `PickPeer(key)` yields the peer
that owns `key`, or `none` for `ok = false`. -/
structure PeerPicker where
  PickPeer : List Call → String → Option PeerGetter

/-- Modelled from the spec: cache.go is not among the sources.  The local
store of a group is a CacheStore bounded by the capacity given to `NewGroup`
(spec, section 3, CacheGroup); its `get` and `add` are `Get` and `Add` of the
store (spec, section 4.4).  The eviction policy that cache.go passes to
`lru.New` is not visible, so it is whatever policy the store `lru` carries. -/
structure cache where
  cacheBytes : Int
  lru : lru.Cache ByteView

/-- Modelled from the spec: the method `get` of cache.go, `Get` of the store. -/
def cache.get (c : cache) (key : String) : cache × Option ByteView :=
  ({ c with lru := (c.lru.Get key).1 }, (c.lru.Get key).2)

/-- Modelled from the spec: the method `add` of cache.go, `Add` of the store;
`none` when the eviction loop of the store does not end within `sched`. -/
def cache.add (sched : List lru.RangeOrder) (c : cache) (key : String) (value : ByteView) :
    Option cache :=
  (c.lru.Add sched key value).map (fun s => { c with lru := s })

end geecache

namespace singleflight

/-- Modelled from the spec: the package singleflight is not among the sources.
Between two calls made one after the other no call is pending, so the group of
pending calls carries no state. -/
structure Group where
deriving DecidableEq, Repr

/-- Modelled from the spec: `Do(key, fn)` when no call is pending for `key`
(spec, section 4.3): the pending call is created, `fn` is run by the caller,
the pending call is removed and the result of `fn` is returned as it is. -/
def Group.Do {α : Type} (_g : Group) (_key : String) (fn : Unit → α) : α := fn ()

end singleflight

namespace geecache

/-- The struct `Group`; `calls` records the calls made to the collaborators,
oldest first. -/
structure Group where
  name : String
  getter : Getter
  mainCache : cache
  peers : Option PeerPicker
  loader : singleflight.Group
  calls : List Call

/-- What a call of `Get` or `load` yields: the group afterwards and the pair
`(ByteView, error)`. -/
abbrev Outcome := Group × (ByteView × Option Error)

/-- `populateCache(key, value)`. -/
def Group.populateCache (sched : List lru.RangeOrder) (g : Group) (key : String)
    (value : ByteView) : Option Group :=
  (g.mainCache.add sched key value).map (fun c => { g with mainCache := c })

/-- `getLocally(key)`. -/
def Group.getLocally (sched : List lru.RangeOrder) (g : Group) (key : String) :
    Option Outcome :=
  let g1 := { g with calls := g.calls ++ [Call.getter key] }
  match g.getter.Get g.calls key with
  | .error err => some (g1, (⟨[]⟩, some err))
  | .ok bytes =>
    let value : ByteView := ⟨cloneBytes bytes⟩
    (g1.populateCache sched key value).map (fun g2 => (g2, (value, none)))

/-- `getFromPeer(peer, key)`. -/
def Group.getFromPeer (g : Group) (peer : PeerGetter) (key : String) : Outcome :=
  let g1 := { g with calls := g.calls ++ [Call.peerGet g.name key] }
  match peer.Get g.calls g.name key with
  | .error err => (g1, (⟨[]⟩, some err))
  | .ok v => (g1, (⟨v⟩, none))

/-- The function literal that `load` hands to `Do`.  Besides its own results
`(interface{}, error)` it yields the named result `value` of `load`, which it
assigns when it asks a peer. -/
def Group.loadFn (sched : List lru.RangeOrder) (g : Group) (key : String) (value : ByteView) :
    Option (Outcome × ByteView) :=
  match g.peers with
  | some peers =>
    let g1 := { g with calls := g.calls ++ [Call.pickPeer key] }
    match peers.PickPeer g.calls key with
    | some peer =>
      match g1.getFromPeer peer key with
      | (g2, (value1, none)) => some ((g2, (value1, none)), value1)
      | (g2, (value1, some _)) => (g2.getLocally sched key).map (fun r => (r, value1))
    | none => (g1.getLocally sched key).map (fun r => (r, value))
  | none => (g.getLocally sched key).map (fun r => (r, value))

/-- `load(key)`: when `Do` reports an error, the named results `(value, err)`
are returned. -/
def Group.load (sched : List lru.RangeOrder) (g : Group) (key : String) : Option Outcome :=
  match g.loader.Do key (fun _ => g.loadFn sched key ⟨[]⟩) with
  | some ((g1, (viewi, none)), _) => some (g1, (viewi, none))
  | some ((g1, (_, some err)), value) => some (g1, (value, some err))
  | none => none

/-- `Get(key)`; `none` when the call does not return because the eviction loop
of the store does not end within `sched`. -/
def Group.Get (sched : List lru.RangeOrder) (g : Group) (key : String) : Option Outcome :=
  if key = "" then some (g, (⟨[]⟩, some "key is required"))
  else
    match g.mainCache.get key with
    | (c, some v) => some ({ g with mainCache := c }, (v, none))
    | (c, none) => ({ g with mainCache := c } : Group).load sched key

/-- `NewGroup(name, cacheBytes, getter)` on the registry `groups`: the new
registry and the group, or the panic for a nil getter.  `policy` is the
eviction policy of the local store. -/
def NewGroup (groups : List (String × Group)) (policy : lru.EvictionPolicy) (name : String)
    (cacheBytes : Int) (getter : Option Getter) :
    Except String (List (String × Group) × Group) :=
  match getter with
  | none => .error "nil Getter"
  | some getter =>
    let g : Group :=
      { name := name
        getter := getter
        mainCache := { cacheBytes := cacheBytes, lru := lru.New cacheBytes policy false }
        peers := none
        loader := {}
        calls := [] }
    .ok (GoMap.insert name g groups, g)

/-- `GetGroup(name)`; `none` is the nil group. -/
def GetGroup (groups : List (String × Group)) (name : String) : Option Group :=
  GoMap.lookup name groups

/-- `RegisiterPeers(peers)`: the group with the picker attached, or the
panic.  The argument is an interface value, `none` when it is nil. -/
def Group.RegisiterPeers (g : Group) (peers : Option PeerPicker) : Except String Group :=
  match g.peers with
  | some _ => .error "RegisterPeerPicker called more than once"
  | none => .ok { g with peers := peers }

/-- The group after a call of `RegisiterPeers`, whether it returned or panicked:
the panic is raised before the group is written. -/
def Group.afterRegisiterPeers (g : Group) (peers : Option PeerPicker) : Group :=
  match g.RegisiterPeers peers with
  | .ok g1 => g1
  | .error _ => g

/-- A call made on a group. -/
inductive GroupOp where
  | get (sched : List lru.RangeOrder) (key : String)
  | registerPeers (peers : Option PeerPicker)

/-- One call on a group that returns normally. -/
def Group.step (g : Group) : GroupOp → Option Group
  | .get sched key => (g.Get sched key).map Prod.fst
  | .registerPeers peers =>
    match g.RegisiterPeers peers with
    | .ok g1 => some g1
    | .error _ => none

/-- A sequence of calls of `Get`, each with the schedule of its loop. -/
def getOps (gets : List (List lru.RangeOrder × String)) : List GroupOp :=
  gets.map (fun a => GroupOp.get a.1 a.2)

/-- A sequence of calls on a group, each of which returns normally. -/
def Group.run (g : Group) : List GroupOp → Option Group
  | [] => some g
  | op :: ops => (g.step op).bind (fun g1 => g1.run ops)

/-- The groups that `NewGroup` and later calls can produce. -/
def GroupReachable (g : Group) : Prop :=
  ∃ (groups : List (String × Group)) (policy : lru.EvictionPolicy) (name : String)
    (cacheBytes : Int) (getter : Getter) (groups1 : List (String × Group)) (g0 : Group)
    (ops : List GroupOp),
    NewGroup groups policy name cacheBytes (some getter) = .ok (groups1, g0) ∧
    g0.run ops = some g


/-- The group after further calls to its collaborators have been recorded. -/
def Group.withCalls (g : Group) (cs : List Call) : Group :=
  { g with calls := g.calls ++ cs }

/-- The answer of the peers to `load(key)`: `none` when no picker is
registered or the picker picks no peer, otherwise the answer of the picked peer
to the request `(g.name, key)`. -/
def Group.peerAnswer (g : Group) (key : String) : Option (Except Error Bytes) :=
  match g.peers with
  | none => none
  | some peers =>
    match peers.PickPeer g.calls key with
    | none => none
    | some peer => some (peer.Get (g.calls ++ [Call.pickPeer key]) g.name key)

/-- The calls that `load(key)` makes to the picker and the picked peer. -/
def Group.peerCalls (g : Group) (key : String) : List Call :=
  match g.peers with
  | none => []
  | some peers =>
    match peers.PickPeer g.calls key with
    | none => [Call.pickPeer key]
    | some _ => [Call.pickPeer key, Call.peerGet g.name key]


/-- A sample getter: it knows the key `Tom` only. -/
def sampleGetter : Getter :=
  ⟨fun _ key => if key = "Tom" then .ok [54, 51, 48] else .error "not exist"⟩

/-- A sample peer whose fetch always fails. -/
def failingPeer : PeerGetter := ⟨fun _ _ _ => .error "peer down"⟩

/-- A sample picker that picks the failing peer for every key. -/
def samplePicker : PeerPicker := ⟨fun _ _ => some failingPeer⟩

/-- The group that `NewGroup` makes for the sample getter under the name
`scores`. -/
def sampleGroup (policy : lru.EvictionPolicy) (cacheBytes : Int) : Group :=
  { name := "scores"
    getter := sampleGetter
    mainCache := { cacheBytes := cacheBytes, lru := lru.New cacheBytes policy false }
    peers := none
    loader := {}
    calls := [] }


/-- The invariant of a group: its store is well formed and bounded by the
capacity of the group. -/
def Group.Sound (g : Group) : Prop :=
  g.mainCache.lru.WF ∧ g.mainCache.lru.maxBytes = g.mainCache.cacheBytes

end geecache

/-! ## Facts about Go maps -/

namespace GoMap

theorem lookup_insert_self {α : Type} (k : String) (v : α) (m : List (String × α)) :
    lookup k (insert k v m) = some v := by
  induction m with
  | nil => simp [insert, lookup]
  | cons p m ih =>
    obtain ⟨k', v'⟩ := p
    by_cases h : k' = k
    · simp [insert, lookup, h]
    · simp [insert, lookup, h, ih]

theorem lookup_insert_ne {α : Type} {k x : String} (v : α) (m : List (String × α))
    (hx : x ≠ k) : lookup x (insert k v m) = lookup x m := by
  induction m with
  | nil => simp [insert, lookup, Ne.symm hx]
  | cons p m ih =>
    obtain ⟨k', v'⟩ := p
    by_cases h : k' = k
    · subst h
      simp [insert, lookup, Ne.symm hx]
    · by_cases h2 : k' = x
      · subst h2
        simp [insert, lookup, h]
      · simp [insert, lookup, h, h2, ih]

theorem lookup_delete_self {α : Type} (k : String) (m : List (String × α)) :
    lookup k (delete k m) = none := by
  induction m with
  | nil => simp [delete, lookup]
  | cons p m ih =>
    obtain ⟨k', v'⟩ := p
    by_cases h : k' = k
    · simp [delete, h, ih]
    · simp [delete, lookup, h, ih]

theorem lookup_delete_ne {α : Type} {k x : String} (m : List (String × α))
    (hx : x ≠ k) : lookup x (delete k m) = lookup x m := by
  induction m with
  | nil => simp [delete, lookup]
  | cons p m ih =>
    obtain ⟨k', v'⟩ := p
    by_cases h : k' = k
    · subst h
      simp [delete, lookup, Ne.symm hx, ih]
    · by_cases h2 : k' = x
      · subst h2
        simp [delete, lookup, h]
      · simp [delete, lookup, h, h2, ih]

theorem lookup_eq_none_iff {α : Type} (k : String) (m : List (String × α)) :
    lookup k m = none ↔ k ∉ keys m := by
  induction m with
  | nil => simp [lookup, keys]
  | cons p m ih =>
    obtain ⟨k', v'⟩ := p
    by_cases h : k' = k
    · simp [lookup, keys, h]
    · have h' : ¬ k = k' := fun e => h e.symm
      simpa [lookup, keys, h, h'] using ih

theorem mem_keys_iff {α : Type} (k : String) (m : List (String × α)) :
    k ∈ keys m ↔ ∃ v, lookup k m = some v := by
  by_cases h : k ∈ keys m
  · simp only [h, true_iff]
    cases hl : lookup k m with
    | none => exact absurd h ((lookup_eq_none_iff k m).1 hl)
    | some v => exact ⟨v, rfl⟩
  · simp only [h, false_iff]
    rintro ⟨v, hv⟩
    rw [(lookup_eq_none_iff k m).2 h] at hv
    cases hv

theorem mem_keys_insert {α : Type} (k x : String) (v : α) (m : List (String × α)) :
    x ∈ keys (insert k v m) ↔ x = k ∨ x ∈ keys m := by
  rw [mem_keys_iff, mem_keys_iff]
  by_cases hx : x = k
  · subst hx
    simp [lookup_insert_self]
  · simp [lookup_insert_ne v m hx, hx]

theorem mem_keys_delete {α : Type} (k x : String) (m : List (String × α)) :
    x ∈ keys (delete k m) ↔ x ≠ k ∧ x ∈ keys m := by
  rw [mem_keys_iff, mem_keys_iff]
  by_cases hx : x = k
  · subst hx
    simp [lookup_delete_self]
  · simp [lookup_delete_ne m hx, hx]

theorem nodup_keys_insert {α : Type} (k : String) (v : α) (m : List (String × α))
    (h : (keys m).Nodup) : (keys (insert k v m)).Nodup := by
  induction m with
  | nil => simp [insert, keys]
  | cons p m ih =>
    obtain ⟨k', v'⟩ := p
    have hk : k' ∉ keys m ∧ (keys m).Nodup := by simpa [keys] using h
    by_cases e : k' = k
    · subst e
      simpa [insert, keys] using h
    · have h1 : k' ∉ keys (insert k v m) := by
        rw [mem_keys_insert]
        rintro (h1 | h1)
        · exact e h1
        · exact hk.1 h1
      have h2 := ih hk.2
      simp only [insert, e, if_false]
      simp only [keys, List.map_cons, List.nodup_cons]
      exact ⟨h1, h2⟩

theorem nodup_keys_delete {α : Type} (k : String) (m : List (String × α))
    (h : (keys m).Nodup) : (keys (delete k m)).Nodup := by
  induction m with
  | nil => simp [delete, keys]
  | cons p m ih =>
    obtain ⟨k', v'⟩ := p
    have hk : k' ∉ keys m ∧ (keys m).Nodup := by simpa [keys] using h
    by_cases e : k' = k
    · simpa [delete, e] using ih hk.2
    · have h1 : k' ∉ keys (delete k m) := by
        rw [mem_keys_delete]
        exact fun h1 => hk.1 h1.2
      simp only [delete, e, if_false]
      simp only [keys, List.map_cons, List.nodup_cons]
      exact ⟨h1, ih hk.2⟩

theorem lookup_of_mem {α : Type} {k : String} {v : α} {m : List (String × α)}
    (h : (keys m).Nodup) (hm : (k, v) ∈ m) : lookup k m = some v := by
  induction m with
  | nil => cases hm
  | cons p m ih =>
    obtain ⟨k', v'⟩ := p
    have hk : k' ∉ keys m ∧ (keys m).Nodup := by simpa [keys] using h
    rcases List.mem_cons.1 hm with e | e
    · cases e
      simp [lookup]
    · have : k' ≠ k := by
        rintro rfl
        exact hk.1 (List.mem_map.2 ⟨(k', v), e, rfl⟩)
      simp [lookup, this, ih hk.2 e]

theorem mem_of_lookup {α : Type} {k : String} {v : α} {m : List (String × α)}
    (h : lookup k m = some v) : (k, v) ∈ m := by
  induction m with
  | nil => simp [lookup] at h
  | cons p m ih =>
    obtain ⟨k', v'⟩ := p
    by_cases e : k' = k
    · simp [lookup, e] at h
      simp [e, h]
    · simp [lookup, e] at h
      exact List.mem_cons_of_mem _ (ih h)

end GoMap

/-! ## The representation invariant of the store -/

namespace lru

theorem New_WF {V : Type} [Value V] [Inhabited V] (maxBytes : Int) (p : EvictionPolicy) (h : Bool) :
    (New maxBytes p h : Cache V).WF := by
  constructor <;> simp [New, GoMap.keys, GoMap.lookup, Cache.entries, totalSize]

theorem moveToFront_perm (l : List Elem) (e : Elem) : (moveToFront l e).Perm l := by
  unfold moveToFront
  split
  · exact (List.perm_cons_erase ‹e ∈ l›).symm
  · exact List.Perm.refl l

theorem totalSize_perm {V : Type} [Value V] {l1 l2 : List Elem} (f : Elem → entry V) (h : l1.Perm l2) :
    totalSize (l1.map f) = totalSize (l2.map f) := by
  unfold totalSize
  exact ((h.map f).map entrySize).sum_eq

theorem totalSize_erase {V : Type} [Value V] {l : List Elem} (f : Elem → entry V) {e : Elem} (h : e ∈ l) :
    totalSize ((l.erase e).map f) = totalSize (l.map f) - entrySize (f e) := by
  have hp := totalSize_perm f (List.perm_cons_erase h)
  rw [hp]
  simp [totalSize]

theorem map_update_of_not_mem {V : Type} {l : List Elem} (f : Elem → entry V) {e : Elem} (x : entry V)
    (h : e ∉ l) : l.map (Function.update f e x) = l.map f := by
  apply List.map_congr_left
  intro a ha
  have : a ≠ e := fun h' => h (h' ▸ ha)
  simp [Function.update, this]

theorem updateFrequency_WF {V : Type} [Value V] {c : Cache V} (h : c.WF) {key : String}
    (hk : key ∈ GoMap.keys c.cache) : (c.updateFrequency key).WF := by
  unfold Cache.updateFrequency
  have keyset : ∀ (f : Int) (k : String),
      k ∈ GoMap.keys (GoMap.insert key f c.freqMap) ↔ k ∈ GoMap.keys c.cache := by
    intro f k
    rw [GoMap.mem_keys_insert, h.freq_cache]
    constructor
    · rintro (rfl | h1)
      · exact hk
      · exact h1
    · exact fun h1 => Or.inr h1
  have pos : ∀ (f : Int), 1 ≤ f → ∀ k g,
      GoMap.lookup k (GoMap.insert key f c.freqMap) = some g → 1 ≤ g := by
    intro f hf k g hg
    by_cases e : k = key
    · subst e
      rw [GoMap.lookup_insert_self] at hg
      cases hg
      exact hf
    · rw [GoMap.lookup_insert_ne _ _ e] at hg
      exact h.freq_pos k g hg
  cases hl : GoMap.lookup key c.freqMap with
  | none =>
    exact ⟨h.ll_nodup, h.cache_nodup, GoMap.nodup_keys_insert _ _ _ h.freq_nodup, h.cache_ll,
      keyset 1, pos 1 (le_refl 1), h.fresh_gt, h.bytes⟩
  | some f =>
    have hf := h.freq_pos key f hl
    exact ⟨h.ll_nodup, h.cache_nodup, GoMap.nodup_keys_insert _ _ _ h.freq_nodup, h.cache_ll,
      keyset (f + 1), pos (f + 1) (by omega), h.fresh_gt, h.bytes⟩


theorem RemoveOldest_eq {V : Type} [Value V] (c : Cache V) :
    c.RemoveOldest = match c.ll.getLast? with
      | some ele => c.dropElem ele
      | none => c := rfl

theorem removeLFU_eq {V : Type} [Value V] (order : RangeOrder) (c : Cache V) :
    c.removeLFU order =
      if (leastFreq (order.visit c.freqMap)).1 ≠ "" then
        match GoMap.lookup (leastFreq (order.visit c.freqMap)).1 c.cache with
        | some ele => c.dropElem ele
        | none => c
      else c := rfl

theorem totalSize_update {V : Type} [Value V] {l : List Elem} (f : Elem → entry V) {e : Elem}
    (x : entry V) (h : e ∈ l) (hn : l.Nodup) :
    totalSize (l.map (Function.update f e x)) = totalSize (l.map f) - entrySize (f e) + entrySize x := by
  have hp := List.perm_cons_erase h
  rw [totalSize_perm _ hp, totalSize_perm f hp]
  have hne : e ∉ l.erase e := fun h' => (List.Nodup.mem_erase_iff hn).1 h' |>.1 rfl
  simp only [List.map_cons, map_update_of_not_mem f x hne, Function.update_same]
  simp only [totalSize, List.map_cons, List.sum_cons]
  ring

theorem WF_of_perm {V : Type} [Value V] {c : Cache V} (h : c.WF) {l : List Elem}
    (hp : l.Perm c.ll) : ({ c with ll := l } : Cache V).WF := by
  refine ⟨hp.nodup_iff.2 h.ll_nodup, h.cache_nodup, h.freq_nodup, ?_, h.freq_cache, h.freq_pos,
    ?_, ?_⟩
  · intro k e
    rw [h.cache_ll k e]
    simp only [hp.mem_iff]
  · intro e he
    exact h.fresh_gt e (hp.mem_iff.1 he)
  · show c.nbytes = totalSize (l.map c.elems)
    rw [totalSize_perm c.elems hp]
    exact h.bytes

theorem mem_keys_cache {V : Type} [Value V] {c : Cache V} (h : c.WF) (k : String) :
    k ∈ GoMap.keys c.cache ↔ ∃ e ∈ c.ll, (c.elems e).key = k := by
  rw [GoMap.mem_keys_iff]
  constructor
  · rintro ⟨e, he⟩
    exact ⟨e, (h.cache_ll k e).1 he⟩
  · rintro ⟨e, he⟩
    exact ⟨e, (h.cache_ll k e).2 he⟩

theorem Get_WF {V : Type} [Value V] {c : Cache V} (h : c.WF) (key : String) :
    (c.Get key).1.WF := by
  unfold Cache.Get
  cases hl : GoMap.lookup key c.cache with
  | none => exact h
  | some ele =>
    have hk : key ∈ GoMap.keys c.cache := (GoMap.mem_keys_iff _ _).2 ⟨ele, hl⟩
    have h1 := updateFrequency_WF h hk
    exact WF_of_perm h1 (moveToFront_perm _ _)

theorem callOnEvicted_WF {V : Type} [Value V] {c : Cache V} (h : c.WF) (k : String) (v : V) :
    (c.callOnEvicted k v).WF := by
  unfold Cache.callOnEvicted
  split
  · exact ⟨h.ll_nodup, h.cache_nodup, h.freq_nodup, h.cache_ll, h.freq_cache, h.freq_pos,
      h.fresh_gt, h.bytes⟩
  · exact h

theorem dropElem_WF {V : Type} [Value V] {c : Cache V} (h : c.WF) {ele : Elem}
    (he : ele ∈ c.ll) : (c.dropElem ele).WF := by
  unfold Cache.dropElem
  apply callOnEvicted_WF
  have hkey : GoMap.lookup (c.elems ele).key c.cache = some ele := (h.cache_ll _ _).2 ⟨he, rfl⟩
  refine ⟨h.ll_nodup.erase ele, GoMap.nodup_keys_delete _ _ h.cache_nodup,
    GoMap.nodup_keys_delete _ _ h.freq_nodup, ?_, ?_, ?_, ?_, ?_⟩
  · intro k e
    show GoMap.lookup k (GoMap.delete (c.elems ele).key c.cache) = some e ↔
      e ∈ c.ll.erase ele ∧ (c.elems e).key = k
    rw [List.Nodup.mem_erase_iff h.ll_nodup]
    by_cases hk : k = (c.elems ele).key
    · subst hk
      rw [GoMap.lookup_delete_self]
      constructor
      · intro h'; cases h'
      · rintro ⟨⟨hne, hin⟩, hkk⟩
        have := (h.cache_ll _ _).2 ⟨hin, hkk⟩
        rw [hkey] at this
        exact absurd (Option.some.inj this).symm hne
    · rw [GoMap.lookup_delete_ne _ hk, h.cache_ll k e]
      constructor
      · rintro ⟨hin, hkk⟩
        refine ⟨⟨?_, hin⟩, hkk⟩
        rintro rfl
        exact hk hkk.symm
      · rintro ⟨⟨_, hin⟩, hkk⟩
        exact ⟨hin, hkk⟩
  · intro k
    show k ∈ GoMap.keys (GoMap.delete (c.elems ele).key c.freqMap) ↔
      k ∈ GoMap.keys (GoMap.delete (c.elems ele).key c.cache)
    rw [GoMap.mem_keys_delete, GoMap.mem_keys_delete, h.freq_cache]
  · intro k f hf
    have hf' : GoMap.lookup k (GoMap.delete (c.elems ele).key c.freqMap) = some f := hf
    by_cases hk : k = (c.elems ele).key
    · subst hk
      rw [GoMap.lookup_delete_self] at hf'
      cases hf'
    · rw [GoMap.lookup_delete_ne _ hk] at hf'
      exact h.freq_pos k f hf'
  · intro e he'
    exact h.fresh_gt e (List.mem_of_mem_erase he')
  · show c.nbytes - entrySize (c.elems ele) = totalSize ((c.ll.erase ele).map c.elems)
    rw [totalSize_erase c.elems he, h.bytes]
    rfl

theorem RemoveOldest_WF {V : Type} [Value V] {c : Cache V} (h : c.WF) : c.RemoveOldest.WF := by
  rw [RemoveOldest_eq]
  cases hl : c.ll.getLast? with
  | none => exact h
  | some ele => exact dropElem_WF h (List.mem_of_getLast?_eq_some hl)

theorem removeLFU_WF {V : Type} [Value V] {c : Cache V} (h : c.WF) (order : RangeOrder) :
    (c.removeLFU order).WF := by
  rw [removeLFU_eq]
  split
  · cases hl : GoMap.lookup (leastFreq (order.visit c.freqMap)).1 c.cache with
    | none => exact h
    | some ele => exact dropElem_WF h ((h.cache_ll _ _).1 hl).1
  · exact h

theorem evict_WF {V : Type} [Value V] {c : Cache V} (h : c.WF) (order : RangeOrder) :
    (c.evict order).WF := by
  unfold Cache.evict
  split
  · exact RemoveOldest_WF h
  · exact removeLFU_WF h order


theorem updateFrequency_eq {V : Type} (c : Cache V) (key : String) :
    ∃ f : Int, c.updateFrequency key = { c with freqMap := GoMap.insert key f c.freqMap } ∧
      ((∀ k g, GoMap.lookup k c.freqMap = some g → 1 ≤ g) → 1 ≤ f) := by
  unfold Cache.updateFrequency
  cases hl : GoMap.lookup key c.freqMap with
  | none => exact ⟨1, rfl, fun _ => le_refl 1⟩
  | some f =>
    refine ⟨f + 1, rfl, fun hp => ?_⟩
    have := hp key f hl
    omega

theorem addEntry_WF {V : Type} [Value V] {c : Cache V} (h : c.WF) (key : String) (value : V) :
    (c.addEntry key value).WF := by
  unfold Cache.addEntry
  cases hl : GoMap.lookup key c.cache with
  | some ele =>
    have hin := (h.cache_ll _ _).1 hl
    have hkeys : ∀ e, (Function.update c.elems ele
        { c.elems ele with value := value } e).key = (c.elems e).key := by
      intro e
      by_cases he : e = ele
      · subst he; simp
      · simp [Function.update, he]
    refine ⟨(moveToFront_perm _ _).nodup_iff.2 h.ll_nodup, h.cache_nodup, h.freq_nodup, ?_,
      h.freq_cache, h.freq_pos, ?_, ?_⟩
    · intro k e
      show GoMap.lookup k c.cache = some e ↔ e ∈ moveToFront c.ll ele ∧ _ = k
      rw [hkeys e, h.cache_ll k e, (moveToFront_perm c.ll ele).mem_iff]
    · intro e he
      exact h.fresh_gt e ((moveToFront_perm c.ll ele).mem_iff.1 he)
    · show c.nbytes + ((Value.Len value : Int) - (Value.Len (c.elems ele).value : Int)) =
        totalSize ((moveToFront c.ll ele).map (Function.update c.elems ele
          { c.elems ele with value := value }))
      rw [totalSize_perm _ (moveToFront_perm c.ll ele), totalSize_update _ _ hin.1 h.ll_nodup,
        h.bytes]
      simp only [Cache.entries, entrySize]
      ring
  | none =>
    have hfresh : c.fresh ∉ c.ll := fun hm => lt_irrefl _ (h.fresh_gt _ hm)
    obtain ⟨f, hf, hpos⟩ := updateFrequency_eq ({ c with
      ll := c.fresh :: c.ll
      elems := Function.update c.elems c.fresh ⟨key, value⟩
      fresh := c.fresh + 1
      cache := GoMap.insert key c.fresh c.cache
      nbytes := c.nbytes + ((key.utf8ByteSize : Int) + (Value.Len value : Int)) } : Cache V) key
    simp only at hf ⊢
    rw [hf]
    have hpos' := hpos h.freq_pos
    refine ⟨List.nodup_cons.2 ⟨hfresh, h.ll_nodup⟩, GoMap.nodup_keys_insert _ _ _ h.cache_nodup,
      GoMap.nodup_keys_insert _ _ _ h.freq_nodup, ?_, ?_, ?_, ?_, ?_⟩
    · intro k e
      show GoMap.lookup k (GoMap.insert key c.fresh c.cache) = some e ↔
        e ∈ c.fresh :: c.ll ∧ (Function.update c.elems c.fresh ⟨key, value⟩ e).key = k
      by_cases he : e = c.fresh
      · subst he
        simp only [Function.update_same, List.mem_cons, true_or, true_and]
        by_cases hk : k = key
        · subst hk
          simp [GoMap.lookup_insert_self]
        · rw [GoMap.lookup_insert_ne _ _ hk, h.cache_ll]
          constructor
          · intro h'; exact absurd h'.1 hfresh
          · intro h'; exact absurd h'.symm hk
      · simp only [List.mem_cons, he, false_or, Function.update_noteq he]
        by_cases hk : k = key
        · subst hk
          rw [GoMap.lookup_insert_self]
          constructor
          · intro h'; exact absurd (Option.some.inj h').symm he
          · intro h'
            rw [(h.cache_ll _ _).2 h'] at hl
            cases hl
        · rw [GoMap.lookup_insert_ne _ _ hk, h.cache_ll]
    · intro k
      show k ∈ GoMap.keys (GoMap.insert key f c.freqMap) ↔
        k ∈ GoMap.keys (GoMap.insert key c.fresh c.cache)
      rw [GoMap.mem_keys_insert, GoMap.mem_keys_insert, h.freq_cache]
    · intro k g hg
      have hg' : GoMap.lookup k (GoMap.insert key f c.freqMap) = some g := hg
      by_cases hk : k = key
      · subst hk
        rw [GoMap.lookup_insert_self] at hg'
        cases hg'
        exact hpos'
      · rw [GoMap.lookup_insert_ne _ _ hk] at hg'
        exact h.freq_pos k g hg'
    · intro e he
      show e < c.fresh + 1
      rcases List.mem_cons.1 he with rfl | he'
      · exact Nat.lt_succ_self _
      · exact Nat.lt_succ_of_lt (h.fresh_gt e he')
    · show c.nbytes + ((key.utf8ByteSize : Int) + (Value.Len value : Int)) =
        totalSize ((c.fresh :: c.ll).map (Function.update c.elems c.fresh ⟨key, value⟩))
      rw [List.map_cons, map_update_of_not_mem _ _ hfresh, Function.update_same, h.bytes]
      simp only [Cache.entries, totalSize, List.map_cons, List.sum_cons, entrySize]
      ring

theorem evictLoop_WF {V : Type} [Value V] (sched : List RangeOrder) :
    ∀ {c c' : Cache V}, c.WF → Cache.evictLoop sched c = some c' → c'.WF := by
  induction sched with
  | nil =>
    intro c c' h hr
    unfold Cache.evictLoop at hr
    split at hr
    · cases hr
    · cases hr; exact h
  | cons o rest ih =>
    intro c c' h hr
    unfold Cache.evictLoop at hr
    split at hr
    · exact ih (evict_WF h o) hr
    · cases hr; exact h

theorem Add_WF {V : Type} [Value V] {sched : List RangeOrder} {c c' : Cache V} {key : String}
    {value : V} (h : c.WF) (hr : c.Add sched key value = some c') : c'.WF :=
  evictLoop_WF sched (addEntry_WF h key value) hr

theorem step_WF {V : Type} [Value V] {c c' : Cache V} (h : c.WF) (op : Op V)
    (hr : c.step op = some c') : c'.WF := by
  cases op with
  | add sched key value => exact Add_WF h hr
  | get key =>
    simp only [Cache.step, Option.some.injEq] at hr
    subst hr
    exact Get_WF h key
  | removeOldest =>
    simp only [Cache.step, Option.some.injEq] at hr
    subst hr
    exact RemoveOldest_WF h

theorem run_WF {V : Type} [Value V] (ops : List (Op V)) :
    ∀ {c c' : Cache V}, c.WF → c.run ops = some c' → c'.WF := by
  induction ops with
  | nil =>
    intro c c' h hr
    simp only [Cache.run, Option.some.injEq] at hr
    subst hr
    exact h
  | cons op ops ih =>
    intro c c' h hr
    simp only [Cache.run] at hr
    cases hs : c.step op with
    | none => rw [hs] at hr; cases hr
    | some c1 =>
      rw [hs] at hr
      exact ih (step_WF h op hs) hr

theorem Reachable.wf {V : Type} [Value V] [Inhabited V] {c : Cache V} (h : Reachable c) :
    c.WF := by
  obtain ⟨m, p, hook, ops, hr⟩ := h
  exact run_WF ops (New_WF m p hook) hr

end lru

/-! ## The configuration of a store never changes -/

namespace lru

theorem callOnEvicted_config {V : Type} (c : Cache V) (k : String) (v : V) :
    (c.callOnEvicted k v).maxBytes = c.maxBytes ∧
    (c.callOnEvicted k v).evictionType = c.evictionType ∧
    (c.callOnEvicted k v).OnEvicted = c.OnEvicted := by
  unfold Cache.callOnEvicted
  split <;> exact ⟨rfl, rfl, rfl⟩

theorem dropElem_config {V : Type} [Value V] (c : Cache V) (ele : Elem) :
    (c.dropElem ele).maxBytes = c.maxBytes ∧ (c.dropElem ele).evictionType = c.evictionType ∧
    (c.dropElem ele).OnEvicted = c.OnEvicted := by
  unfold Cache.dropElem
  exact callOnEvicted_config _ _ _

theorem evict_config {V : Type} [Value V] (c : Cache V) (order : RangeOrder) :
    (c.evict order).maxBytes = c.maxBytes ∧ (c.evict order).evictionType = c.evictionType ∧
    (c.evict order).OnEvicted = c.OnEvicted := by
  unfold Cache.evict
  split
  · rw [RemoveOldest_eq]
    split
    · exact dropElem_config _ _
    · exact ⟨rfl, rfl, rfl⟩
  · rw [removeLFU_eq]
    split
    · split
      · exact dropElem_config _ _
      · exact ⟨rfl, rfl, rfl⟩
    · exact ⟨rfl, rfl, rfl⟩

theorem updateFrequency_config {V : Type} (c : Cache V) (key : String) :
    (c.updateFrequency key).maxBytes = c.maxBytes ∧
    (c.updateFrequency key).evictionType = c.evictionType ∧
    (c.updateFrequency key).OnEvicted = c.OnEvicted := by
  unfold Cache.updateFrequency
  split <;> exact ⟨rfl, rfl, rfl⟩

theorem addEntry_config {V : Type} [Value V] (c : Cache V) (key : String) (value : V) :
    (c.addEntry key value).maxBytes = c.maxBytes ∧
    (c.addEntry key value).evictionType = c.evictionType ∧
    (c.addEntry key value).OnEvicted = c.OnEvicted := by
  unfold Cache.addEntry
  split
  · exact ⟨rfl, rfl, rfl⟩
  · exact updateFrequency_config _ _

theorem Get_config {V : Type} (c : Cache V) (key : String) :
    (c.Get key).1.maxBytes = c.maxBytes ∧ (c.Get key).1.evictionType = c.evictionType ∧
    (c.Get key).1.OnEvicted = c.OnEvicted := by
  unfold Cache.Get
  split
  · exact updateFrequency_config _ _
  · exact ⟨rfl, rfl, rfl⟩

theorem evictLoop_config {V : Type} [Value V] (sched : List RangeOrder) :
    ∀ {c c' : Cache V}, Cache.evictLoop sched c = some c' →
      c'.maxBytes = c.maxBytes ∧ c'.evictionType = c.evictionType ∧
      c'.OnEvicted = c.OnEvicted := by
  induction sched with
  | nil =>
    intro c c' hr
    unfold Cache.evictLoop at hr
    split at hr
    · cases hr
    · cases hr; exact ⟨rfl, rfl, rfl⟩
  | cons o rest ih =>
    intro c c' hr
    unfold Cache.evictLoop at hr
    split at hr
    · obtain ⟨h1, h2, h3⟩ := ih hr
      obtain ⟨g1, g2, g3⟩ := evict_config c o
      exact ⟨h1.trans g1, h2.trans g2, h3.trans g3⟩
    · cases hr; exact ⟨rfl, rfl, rfl⟩

theorem evictLoop_not_over {V : Type} [Value V] (sched : List RangeOrder) :
    ∀ {c c' : Cache V}, Cache.evictLoop sched c = some c' → c'.over = false := by
  induction sched with
  | nil =>
    intro c c' hr
    unfold Cache.evictLoop at hr
    split at hr
    · cases hr
    · cases hr; simpa using ‹¬ c.over = true›
  | cons o rest ih =>
    intro c c' hr
    unfold Cache.evictLoop at hr
    split at hr
    · exact ih hr
    · cases hr; simpa using ‹¬ c.over = true›

theorem Add_config {V : Type} [Value V] {sched : List RangeOrder} {c c' : Cache V}
    {key : String} {value : V} (hr : c.Add sched key value = some c') :
    c'.maxBytes = c.maxBytes ∧ c'.evictionType = c.evictionType ∧
    c'.OnEvicted = c.OnEvicted := by
  obtain ⟨h1, h2, h3⟩ := evictLoop_config sched hr
  obtain ⟨g1, g2, g3⟩ := addEntry_config c key value
  exact ⟨h1.trans g1, h2.trans g2, h3.trans g3⟩

theorem step_config {V : Type} [Value V] {c c' : Cache V} (op : Op V)
    (hr : c.step op = some c') :
    c'.maxBytes = c.maxBytes ∧ c'.evictionType = c.evictionType ∧
    c'.OnEvicted = c.OnEvicted := by
  cases op with
  | add sched key value => exact Add_config hr
  | get key =>
    simp only [Cache.step, Option.some.injEq] at hr
    subst hr
    exact Get_config c key
  | removeOldest =>
    simp only [Cache.step, Option.some.injEq] at hr
    subst hr
    rw [RemoveOldest_eq]
    split
    · exact dropElem_config _ _
    · exact ⟨rfl, rfl, rfl⟩

theorem run_config {V : Type} [Value V] (ops : List (Op V)) :
    ∀ {c c' : Cache V}, c.run ops = some c' →
      c'.maxBytes = c.maxBytes ∧ c'.evictionType = c.evictionType ∧
      c'.OnEvicted = c.OnEvicted := by
  induction ops with
  | nil =>
    intro c c' hr
    simp only [Cache.run, Option.some.injEq] at hr
    subst hr
    exact ⟨rfl, rfl, rfl⟩
  | cons op ops ih =>
    intro c c' hr
    simp only [Cache.run] at hr
    cases hs : c.step op with
    | none => rw [hs] at hr; cases hr
    | some c1 =>
      rw [hs] at hr
      obtain ⟨h1, h2, h3⟩ := ih hr
      obtain ⟨g1, g2, g3⟩ := step_config op hs
      exact ⟨h1.trans g1, h2.trans g2, h3.trans g3⟩

theorem run_append {V : Type} [Value V] (ops1 ops2 : List (Op V)) (c : Cache V) :
    c.run (ops1 ++ ops2) = (c.run ops1).bind (fun c1 => c1.run ops2) := by
  induction ops1 generalizing c with
  | nil => simp [Cache.run]
  | cons op ops ih =>
    simp only [List.cons_append, Cache.run]
    cases c.step op with
    | none => rfl
    | some c1 => simpa using ih c1

theorem mapped_perm {V : Type} [Value V] {c : Cache V} (h : c.WF) :
    (c.cache.map Prod.snd).Perm c.ll := by
  have hnd : c.cache.Nodup := List.Nodup.of_map _ h.cache_nodup
  have hnd2 : (c.cache.map Prod.snd).Nodup := by
    refine List.Nodup.map_on ?_ hnd
    rintro ⟨k1, e1⟩ h1 ⟨k2, e2⟩ h2 he
    simp only at he
    subst he
    have a1 := ((h.cache_ll _ _).1 (GoMap.lookup_of_mem h.cache_nodup h1)).2
    have a2 := ((h.cache_ll _ _).1 (GoMap.lookup_of_mem h.cache_nodup h2)).2
    rw [← a1, ← a2]
  refine (List.perm_ext_iff_of_nodup hnd2 h.ll_nodup).2 ?_
  intro e
  constructor
  · intro he
    obtain ⟨⟨k, e'⟩, hm, rfl⟩ := List.mem_map.1 he
    exact ((h.cache_ll _ _).1 (GoMap.lookup_of_mem h.cache_nodup hm)).1
  · intro he
    have := GoMap.mem_of_lookup ((h.cache_ll _ e).2 ⟨he, rfl⟩)
    exact List.mem_map.2 ⟨_, this, rfl⟩

theorem mapped_eq {V : Type} (c : Cache V) : c.mapped = (c.cache.map Prod.snd).map c.elems := by
  simp [Cache.mapped, List.map_map, Function.comp_def]

/-- C2: in every state reachable from `New` by calls of `Add`, `Get` and
`RemoveOldest`, under either policy and any `maxBytes`, `nbytes` is the sum of
`len(key) + value.Len()` over the live entries, counted along the recency list
and, equally, along the lookup map. -/
theorem C2_nbytes_eq_sum_of_live_sizes {V : Type} [Value V] [Inhabited V] (c : Cache V)
    (h : Reachable c) :
    c.nbytes = totalSize c.entries ∧ c.nbytes = totalSize c.mapped := by
  have hw := h.wf
  refine ⟨hw.bytes, ?_⟩
  rw [mapped_eq, totalSize_perm c.elems (mapped_perm hw)]
  exact hw.bytes


theorem C2_nbytes_eq_sum_of_live_sizes_witness :
    ∃ c : Cache String,
      (New 12 EvictionPolicy.LFU true).run
        [Op.add [] "key1" "123456", Op.add [] "key1" "12", Op.get "key1",
          Op.add [RangeOrder.stored] "k2" "123456", Op.removeOldest] = some c ∧
      c.nbytes = totalSize c.entries ∧ c.nbytes = totalSize c.mapped := by
  have h : ((New 12 EvictionPolicy.LFU true : Cache String).run
      [Op.add [] "key1" "123456", Op.add [] "key1" "12", Op.get "key1",
        Op.add [RangeOrder.stored] "k2" "123456", Op.removeOldest]).isSome = true := by decide
  obtain ⟨c, hc⟩ := Option.isSome_iff_exists.1 h
  exact ⟨c, hc, C2_nbytes_eq_sum_of_live_sizes c ⟨12, EvictionPolicy.LFU, true, _, hc⟩⟩

end lru

/-! ## Recency order -/

namespace lru

theorem key_inj {V : Type} [Value V] {c : Cache V} (h : c.WF) {a b : Elem} (ha : a ∈ c.ll)
    (hb : b ∈ c.ll) (hk : (c.elems a).key = (c.elems b).key) : a = b := by
  have h1 := (h.cache_ll _ a).2 ⟨ha, rfl⟩
  have h2 := (h.cache_ll _ b).2 ⟨hb, hk.symm⟩
  rw [h1] at h2
  exact Option.some.inj h2

theorem Recent_new {V : Type} [Inhabited V] (maxBytes : Int) (p : EvictionPolicy) (h : Bool)
    (t : Touches) : (New maxBytes p h : Cache V).Recent t := by
  simp [Cache.Recent, New]

/-- Touching the key of a live element and moving that element to the front
keeps the recency order. -/
theorem Recent_touch_front {V : Type} [Value V] {c : Cache V} {t : Touches} (h : c.WF)
    (hr : c.Recent t) {ele : Elem} (he : ele ∈ c.ll) :
    List.Pairwise (fun a b => (t.touch (c.elems ele).key).last (c.elems b).key <
        (t.touch (c.elems ele).key).last (c.elems a).key) (moveToFront c.ll ele) ∧
    ∀ e ∈ moveToFront c.ll ele,
      (t.touch (c.elems ele).key).last (c.elems e).key ≤ (t.touch (c.elems ele).key).clock := by
  have hother : ∀ e ∈ c.ll, e ≠ ele →
      (t.touch (c.elems ele).key).last (c.elems e).key = t.last (c.elems e).key := by
    intro e hin hne
    have : (c.elems e).key ≠ (c.elems ele).key := fun hk => hne (key_inj h hin he hk)
    simp [Touches.touch, Function.update, this]
  have hself : (t.touch (c.elems ele).key).last (c.elems ele).key = t.clock + 1 := by
    simp [Touches.touch]
  have hmv : moveToFront c.ll ele = ele :: c.ll.erase ele := by simp [moveToFront, he]
  rw [hmv]
  constructor
  · rw [List.pairwise_cons]
    constructor
    · intro b hb
      have hb' := (List.Nodup.mem_erase_iff h.ll_nodup).1 hb
      rw [hself, hother b hb'.2 hb'.1]
      exact Nat.lt_succ_of_le (hr.2 b hb'.2)
    · refine (hr.1.sublist (List.erase_sublist ele c.ll)).imp_of_mem ?_
      intro a b ha hb hab
      have ha' := (List.Nodup.mem_erase_iff h.ll_nodup).1 ha
      have hb' := (List.Nodup.mem_erase_iff h.ll_nodup).1 hb
      rw [hother a ha'.2 ha'.1, hother b hb'.2 hb'.1]
      exact hab
  · intro e hin
    rcases List.mem_cons.1 hin with rfl | hin'
    · rw [hself]; exact le_refl _
    · have hb' := (List.Nodup.mem_erase_iff h.ll_nodup).1 hin'
      rw [hother e hb'.2 hb'.1]
      exact Nat.le_succ_of_le (hr.2 e hb'.2)

theorem Get_miss {V : Type} {c : Cache V} {key : String}
    (hl : GoMap.lookup key c.cache = none) : c.Get key = (c, none) := by
  unfold Cache.Get
  rw [hl]

theorem Get_hit {V : Type} {c : Cache V} {key : String} {ele : Elem}
    (hl : GoMap.lookup key c.cache = some ele) :
    c.Get key = ({ c.updateFrequency key with ll := moveToFront c.ll ele },
      some (c.elems ele).value) := by
  obtain ⟨f, hf, -⟩ := updateFrequency_eq c key
  unfold Cache.Get
  rw [hl, hf]

theorem Get_Recent {V : Type} [Value V] {c : Cache V} {t : Touches} (h : c.WF)
    (hr : c.Recent t) (key : String) : (c.Get key).1.Recent (c.touched t (Op.get key)) := by
  unfold Cache.touched
  cases hl : GoMap.lookup key c.cache with
  | none =>
    simp only [Get_miss hl]
    simpa using hr
  | some ele =>
    have hin := (h.cache_ll _ _).1 hl
    obtain ⟨f, hf, -⟩ := updateFrequency_eq c key
    simp only [Get_hit hl, Option.isSome_some, if_true, hf]
    have := Recent_touch_front h hr hin.1
    rw [hin.2] at this
    exact this

theorem addEntry_Recent {V : Type} [Value V] {c : Cache V} {t : Touches} (h : c.WF)
    (hr : c.Recent t) (key : String) (value : V) :
    (c.addEntry key value).Recent (t.touch key) := by
  unfold Cache.addEntry
  cases hl : GoMap.lookup key c.cache with
  | some ele =>
    have hin := (h.cache_ll _ _).1 hl
    have hkeys : ∀ e, (Function.update c.elems ele
        { c.elems ele with value := value } e).key = (c.elems e).key := by
      intro e
      by_cases he : e = ele
      · subst he; simp
      · simp [Function.update, he]
    have := Recent_touch_front h hr hin.1
    rw [hin.2] at this
    simp only [Cache.Recent, hkeys]
    exact this
  | none =>
    have hfresh : c.fresh ∉ c.ll := fun hm => lt_irrefl _ (h.fresh_gt _ hm)
    obtain ⟨f, hf, -⟩ := updateFrequency_eq ({ c with
      ll := c.fresh :: c.ll
      elems := Function.update c.elems c.fresh ⟨key, value⟩
      fresh := c.fresh + 1
      cache := GoMap.insert key c.fresh c.cache
      nbytes := c.nbytes + ((key.utf8ByteSize : Int) + (Value.Len value : Int)) } : Cache V) key
    simp only at hf ⊢
    rw [hf]
    have hold : ∀ e ∈ c.ll, (Function.update c.elems c.fresh ⟨key, value⟩ e) = c.elems e := by
      intro e he
      have : e ≠ c.fresh := fun h' => hfresh (h' ▸ he)
      simp [Function.update, this]
    have hne : ∀ e ∈ c.ll, (c.elems e).key ≠ key := by
      intro e he hk
      rw [(h.cache_ll _ _).2 ⟨he, hk⟩] at hl
      cases hl
    have hother : ∀ e ∈ c.ll, (t.touch key).last (c.elems e).key = t.last (c.elems e).key := by
      intro e he
      simp [Touches.touch, Function.update, hne e he]
    constructor
    · show List.Pairwise _ (c.fresh :: c.ll)
      rw [List.pairwise_cons]
      constructor
      · intro b hb
        simp only [Function.update_same, hold b hb]
        rw [hother b hb]
        simp only [Touches.touch, Function.update_same]
        exact Nat.lt_succ_of_le (hr.2 b hb)
      · refine hr.1.imp_of_mem ?_
        intro a b ha hb hab
        simp only [hold a ha, hold b hb]
        rw [hother a ha, hother b hb]
        exact hab
    · intro e he
      rcases List.mem_cons.1 he with rfl | he'
      · simp [Touches.touch]
      · simp only [hold e he']
        rw [hother e he']
        exact Nat.le_succ_of_le (hr.2 e he')

theorem callOnEvicted_fields {V : Type} (c : Cache V) (k : String) (v : V) :
    (c.callOnEvicted k v).ll = c.ll ∧ (c.callOnEvicted k v).elems = c.elems ∧
    (c.callOnEvicted k v).cache = c.cache ∧ (c.callOnEvicted k v).freqMap = c.freqMap ∧
    (c.callOnEvicted k v).nbytes = c.nbytes ∧ (c.callOnEvicted k v).fresh = c.fresh := by
  unfold Cache.callOnEvicted
  split <;> exact ⟨rfl, rfl, rfl, rfl, rfl, rfl⟩

theorem dropElem_fields {V : Type} [Value V] (c : Cache V) (ele : Elem) :
    (c.dropElem ele).ll = c.ll.erase ele ∧ (c.dropElem ele).elems = c.elems ∧
    (c.dropElem ele).cache = GoMap.delete (c.elems ele).key c.cache ∧
    (c.dropElem ele).freqMap = GoMap.delete (c.elems ele).key c.freqMap ∧
    (c.dropElem ele).nbytes = c.nbytes - entrySize (c.elems ele) ∧
    (c.dropElem ele).fresh = c.fresh := by
  unfold Cache.dropElem
  exact callOnEvicted_fields _ _ _

theorem dropElem_Recent {V : Type} [Value V] {c : Cache V} {t : Touches} (hr : c.Recent t)
    (ele : Elem) : (c.dropElem ele).Recent t := by
  obtain ⟨h1, h2, -⟩ := dropElem_fields c ele
  unfold Cache.Recent
  rw [h1, h2]
  exact ⟨hr.1.sublist (List.erase_sublist ele c.ll),
    fun e he => hr.2 e (List.mem_of_mem_erase he)⟩

theorem RemoveOldest_Recent {V : Type} [Value V] {c : Cache V} {t : Touches}
    (hr : c.Recent t) : c.RemoveOldest.Recent t := by
  rw [RemoveOldest_eq]
  split
  · exact dropElem_Recent hr _
  · exact hr

/-- Under the recency order the back of the list is the entry touched longest
ago. -/
theorem Oldest_of_getLast {V : Type} {c : Cache V} {t : Touches}
    (hr : c.Recent t) {ele : Elem} (hl : c.ll.getLast? = some ele) : c.Oldest t ele := by
  refine ⟨List.mem_of_getLast?_eq_some hl, ?_⟩
  intro e he hne
  obtain ⟨init, hinit⟩ : ∃ init, c.ll = init ++ [ele] := by
    have hne' : c.ll ≠ [] := by
      intro h0; rw [h0] at hl; cases hl
    refine ⟨c.ll.dropLast, ?_⟩
    have h1 := List.dropLast_append_getLast hne'
    have h2 : c.ll.getLast hne' = ele := by
      have := List.getLast?_eq_getLast c.ll hne'
      rw [this] at hl
      exact Option.some.inj hl
    rw [h2] at h1
    exact h1.symm
  have hp := hr.1
  rw [hinit, List.pairwise_append] at hp
  rw [hinit] at he
  rcases List.mem_append.1 he with h1 | h1
  · exact hp.2.2 e h1 ele (List.mem_singleton_self _)
  · exact absurd (List.mem_singleton.1 h1) hne


theorem evict_Recent {V : Type} [Value V] {c : Cache V} {t : Touches} (hr : c.Recent t)
    (order : RangeOrder) : (c.evict order).Recent t := by
  unfold Cache.evict
  split
  · exact RemoveOldest_Recent hr
  · rw [removeLFU_eq]
    split
    · split
      · exact dropElem_Recent hr _
      · exact hr
    · exact hr

theorem evictLoop_Recent {V : Type} [Value V] (sched : List RangeOrder) :
    ∀ {c c' : Cache V} {t : Touches}, c.Recent t → Cache.evictLoop sched c = some c' →
      c'.Recent t := by
  induction sched with
  | nil =>
    intro c c' t h hr
    unfold Cache.evictLoop at hr
    split at hr
    · cases hr
    · cases hr; exact h
  | cons o rest ih =>
    intro c c' t h hr
    unfold Cache.evictLoop at hr
    split at hr
    · exact ih (evict_Recent h o) hr
    · cases hr; exact h

theorem step_Recent {V : Type} [Value V] {c c' : Cache V} {t : Touches} (h : c.WF)
    (hr : c.Recent t) (op : Op V) (hs : c.step op = some c') : c'.Recent (c.touched t op) := by
  cases op with
  | add sched key value =>
    exact evictLoop_Recent sched (addEntry_Recent h hr key value) hs
  | get key =>
    simp only [Cache.step, Option.some.injEq] at hs
    subst hs
    exact Get_Recent h hr key
  | removeOldest =>
    simp only [Cache.step, Option.some.injEq] at hs
    subst hs
    exact RemoveOldest_Recent hr

theorem runTouched_inv {V : Type} [Value V] (ops : List (Op V)) :
    ∀ {c c' : Cache V} {t t' : Touches}, c.WF → c.Recent t →
      c.runTouched t ops = some (c', t') →
      c'.WF ∧ c'.Recent t' ∧ c'.evictionType = c.evictionType := by
  induction ops with
  | nil =>
    intro c c' t t' h hr hrun
    simp only [Cache.runTouched, Option.some.injEq, Prod.mk.injEq] at hrun
    obtain ⟨rfl, rfl⟩ := hrun
    exact ⟨h, hr, rfl⟩
  | cons op ops ih =>
    intro c c' t t' h hr hrun
    simp only [Cache.runTouched] at hrun
    cases hs : c.step op with
    | none => rw [hs] at hrun; cases hrun
    | some c1 =>
      rw [hs] at hrun
      obtain ⟨a, b, d⟩ := ih (step_WF h op hs) (step_Recent h hr op hs) hrun
      exact ⟨a, b, d.trans (step_config op hs).2.1⟩

theorem evictStates_inv {V : Type} [Value V] (sched : List RangeOrder) :
    ∀ {c : Cache V} {t : Touches}, c.WF → c.Recent t →
      ∀ s ∈ Cache.evictStates sched c,
        s.WF ∧ s.Recent t ∧ s.evictionType = c.evictionType := by
  induction sched with
  | nil =>
    intro c t h hr s hs
    unfold Cache.evictStates at hs
    split at hs <;> cases hs
  | cons o rest ih =>
    intro c t h hr s hs
    unfold Cache.evictStates at hs
    split at hs
    · rcases List.mem_cons.1 hs with rfl | hs'
      · exact ⟨h, hr, rfl⟩
      · obtain ⟨a, b, d⟩ := ih (evict_WF h o) (evict_Recent hr o) s hs'
        exact ⟨a, b, d.trans (evict_config c o).2.1⟩
    · cases hs

theorem Get_dropElem_none {V : Type} [Value V] (c : Cache V) (ele : Elem) :
    ((c.dropElem ele).Get (c.elems ele).key).2 = none := by
  have hl : GoMap.lookup (c.elems ele).key (c.dropElem ele).cache = none := by
    rw [(dropElem_fields c ele).2.2.1]
    exact GoMap.lookup_delete_self _ _
  rw [Get_miss hl]

/-- What an eviction of the recency policy does when the list is not empty. -/
theorem evict_LRU {V : Type} [Value V] {c : Cache V} (hp : c.evictionType = EvictionPolicy.LRU)
    (order : RangeOrder) {ele : Elem} (hl : c.ll.getLast? = some ele) :
    c.evict order = c.dropElem ele := by
  unfold Cache.evict
  rw [hp]
  simp only [RemoveOldest_eq, hl]

end lru

/-! ## The store seen as a list of pairs -/

namespace lru

theorem erase_of_getLast {l : List Elem} (hn : l.Nodup) {ele : Elem}
    (hl : l.getLast? = some ele) : l.erase ele = l.dropLast := by
  have hne : l ≠ [] := by
    intro h0; rw [h0] at hl; cases hl
  have h2 : l.getLast hne = ele := by
    have := List.getLast?_eq_getLast l hne
    rw [this] at hl
    exact Option.some.inj hl
  have h1 := List.dropLast_append_getLast hne
  rw [h2] at h1
  have hnd : (l.dropLast ++ [ele]).Nodup := by rw [h1]; exact hn
  have hnot : ele ∉ l.dropLast := by
    intro hm
    have := (List.nodup_append.1 hnd).2.2
    exact this hm (List.mem_singleton_self ele)
  conv_lhs => rw [← h1]
  rw [List.erase_append_right _ hnot]
  simp

theorem view_erase {V : Type} [Value V] {c : Cache V} (h : c.WF) {ele : Elem}
    (he : ele ∈ c.ll) :
    (c.ll.erase ele).map (fun e => ((c.elems e).key, (c.elems e).value)) =
      c.view.filter (fun p => p.1 ≠ (c.elems ele).key) := by
  unfold Cache.view
  rw [List.filter_map, h.ll_nodup.erase_eq_filter]
  congr 1
  apply List.filter_congr
  intro x hx
  by_cases hxe : x = ele
  · subst hxe; simp
  · have : (c.elems x).key ≠ (c.elems ele).key := fun hk => hxe (key_inj h hx he hk)
    simp [hxe, this]

theorem view_keys_ne {V : Type} [Value V] {c : Cache V} (h : c.WF) {key : String}
    (hl : GoMap.lookup key c.cache = none) : ∀ p ∈ c.view, p.1 ≠ key := by
  intro p hp hk
  obtain ⟨e, he, rfl⟩ := List.mem_map.1 hp
  rw [(h.cache_ll _ _).2 ⟨he, hk⟩] at hl
  cases hl

theorem view_addEntry {V : Type} [Value V] {c : Cache V} (h : c.WF) (key : String)
    (value : V) :
    (c.addEntry key value).view = (key, value) :: c.view.filter (fun p => p.1 ≠ key) := by
  have hupd : ∀ (l : List Elem) (a : Elem) (x : entry V), a ∉ l →
      l.map (fun e => ((Function.update c.elems a x e).key,
        (Function.update c.elems a x e).value)) =
      l.map (fun e => ((c.elems e).key, (c.elems e).value)) := by
    intro l a x hne
    apply List.map_congr_left
    intro b hb
    have : b ≠ a := fun h' => hne (h' ▸ hb)
    simp [Function.update, this]
  unfold Cache.addEntry
  cases hl : GoMap.lookup key c.cache with
  | some ele =>
    have hin := (h.cache_ll _ _).1 hl
    have hmv : moveToFront c.ll ele = ele :: c.ll.erase ele := by simp [moveToFront, hin.1]
    have hne : ele ∉ c.ll.erase ele := fun h' =>
      ((List.Nodup.mem_erase_iff h.ll_nodup).1 h').1 rfl
    have e1 : ({ c with
        ll := moveToFront c.ll ele
        nbytes := c.nbytes + ((Value.Len value : Int) - (Value.Len (c.elems ele).value : Int))
        elems := Function.update c.elems ele { c.elems ele with value := value } } :
          Cache V).view =
        (key, value) :: (c.ll.erase ele).map (fun e => ((c.elems e).key, (c.elems e).value)) := by
      simp only [Cache.view, hmv, List.map_cons, Function.update_same, hin.2]
      rw [hupd _ _ _ hne]
    simp only at e1 ⊢
    rw [e1, view_erase h hin.1, hin.2]
  | none =>
    have hfresh : c.fresh ∉ c.ll := fun hm => lt_irrefl _ (h.fresh_gt _ hm)
    obtain ⟨f, hf, -⟩ := updateFrequency_eq ({ c with
      ll := c.fresh :: c.ll
      elems := Function.update c.elems c.fresh ⟨key, value⟩
      fresh := c.fresh + 1
      cache := GoMap.insert key c.fresh c.cache
      nbytes := c.nbytes + ((key.utf8ByteSize : Int) + (Value.Len value : Int)) } : Cache V) key
    simp only at hf ⊢
    rw [hf]
    have hfil : c.view.filter (fun p => p.1 ≠ key) = c.view := by
      rw [List.filter_eq_self]
      intro p hp
      simpa using view_keys_ne h hl p hp
    rw [hfil]
    simp only [Cache.view, List.map_cons, Function.update_same]
    rw [hupd _ _ _ hfresh]

theorem lookup_view {V : Type} [Value V] {c : Cache V} (h : c.WF) (key : String) :
    GoMap.lookup key c.view = (GoMap.lookup key c.cache).map (fun e => (c.elems e).value) := by
  have hnd : (GoMap.keys c.view).Nodup := by
    unfold GoMap.keys Cache.view
    rw [List.map_map]
    refine List.Nodup.map_on ?_ h.ll_nodup
    intro a ha b hb hk
    exact key_inj h ha hb hk
  cases hl : GoMap.lookup key c.cache with
  | none =>
    rw [Option.map_none', GoMap.lookup_eq_none_iff]
    intro hm
    obtain ⟨p, hp, rfl⟩ := List.mem_map.1 hm
    exact view_keys_ne h hl p hp rfl
  | some ele =>
    have hin := (h.cache_ll _ _).1 hl
    rw [Option.map_some']
    apply GoMap.lookup_of_mem hnd
    exact List.mem_map.2 ⟨ele, hin.1, by rw [hin.2]⟩

theorem Get_result {V : Type} [Value V] {c : Cache V} (h : c.WF) (key : String) :
    (c.Get key).2 = GoMap.lookup key c.view := by
  rw [lookup_view h]
  cases hl : GoMap.lookup key c.cache with
  | none => rw [Get_miss hl]; rfl
  | some ele => rw [Get_hit hl]; rfl

theorem view_Get {V : Type} [Value V] {c : Cache V} (h : c.WF) (key : String) :
    (c.Get key).1.view = match GoMap.lookup key c.view with
      | some v => (key, v) :: c.view.filter (fun p => p.1 ≠ key)
      | none => c.view := by
  rw [lookup_view h]
  cases hl : GoMap.lookup key c.cache with
  | none => rw [Get_miss hl]; rfl
  | some ele =>
    have hin := (h.cache_ll _ _).1 hl
    have hmv : moveToFront c.ll ele = ele :: c.ll.erase ele := by simp [moveToFront, hin.1]
    obtain ⟨f, hf, -⟩ := updateFrequency_eq c key
    rw [Get_hit hl, hf]
    simp only [Cache.view, hmv, List.map_cons, Option.map_some']
    rw [view_erase h hin.1, hin.2]
    rfl

theorem view_dropElem {V : Type} [Value V] {c : Cache V} (h : c.WF) {ele : Elem}
    (he : ele ∈ c.ll) :
    (c.dropElem ele).view = c.view.filter (fun p => p.1 ≠ (c.elems ele).key) := by
  obtain ⟨h1, h2, -⟩ := dropElem_fields c ele
  rw [← view_erase h he]
  unfold Cache.view
  rw [h1, h2]

theorem view_RemoveOldest {V : Type} [Value V] {c : Cache V} (h : c.WF) :
    c.RemoveOldest.view = c.view.dropLast := by
  rw [RemoveOldest_eq]
  cases hl : c.ll.getLast? with
  | none =>
    have : c.ll = [] := by
      cases hc : c.ll with
      | nil => rfl
      | cons a l => rw [hc] at hl; simp [List.getLast?_cons] at hl
    simp [Cache.view, this]
  | some ele =>
    obtain ⟨h1, h2, -⟩ := dropElem_fields c ele
    simp only [Cache.view]
    rw [h1, h2, erase_of_getLast h.ll_nodup hl, List.map_dropLast]

theorem nbytes_eq_viewSize {V : Type} [Value V] {c : Cache V} (h : c.WF) :
    c.nbytes = viewSize c.view := by
  rw [h.bytes]
  simp [totalSize, Cache.entries, viewSize, Cache.view, List.map_map, Function.comp_def,
    entrySize]

theorem Length_eq_view {V : Type} (c : Cache V) : c.Length = (c.view.length : Int) := by
  simp [Cache.Length, Cache.view]

theorem over_iff {V : Type} (c : Cache V) :
    c.over = true ↔ c.maxBytes ≠ 0 ∧ c.maxBytes < c.nbytes := by
  simp [Cache.over]

theorem over_false_iff {V : Type} (c : Cache V) :
    c.over = false ↔ c.maxBytes = 0 ∨ c.nbytes ≤ c.maxBytes := by
  rw [← Bool.not_eq_true, over_iff]
  constructor
  · intro h
    by_cases h0 : c.maxBytes = 0
    · exact Or.inl h0
    · right
      by_contra hlt
      exact h ⟨h0, not_le.1 hlt⟩
  · rintro (h | h) ⟨h0, hlt⟩
    · exact h0 h
    · exact absurd hlt (not_lt.2 h)


theorem utf8ByteSize_pos_of_ne {s : String} (h : s ≠ "") : 0 < s.utf8ByteSize := by
  obtain ⟨l⟩ := s
  cases l with
  | nil => exact absurd rfl h
  | cons c cs =>
    simp only [String.utf8ByteSize, String.utf8ByteSize.go]
    have := Char.utf8Size_pos c
    omega

theorem evictLoop_of_not_over {V : Type} [Value V] (sched : List RangeOrder) {c : Cache V}
    (h : c.over = false) : Cache.evictLoop sched c = some c := by
  unfold Cache.evictLoop
  simp [h]

theorem evictLoop_of_over {V : Type} [Value V] (order : RangeOrder) (rest : List RangeOrder)
    {c : Cache V} (h : c.over = true) :
    Cache.evictLoop (order :: rest) c = Cache.evictLoop rest (c.evict order) := by
  rw [Cache.evictLoop]
  simp [h]



theorem evicted_updateFrequency {V : Type} (c : Cache V) (key : String) :
    (c.updateFrequency key).evicted = c.evicted := by
  obtain ⟨f, hf, -⟩ := updateFrequency_eq c key
  rw [hf]

theorem evicted_addEntry {V : Type} [Value V] (c : Cache V) (key : String) (value : V) :
    (c.addEntry key value).evicted = c.evicted := by
  unfold Cache.addEntry
  split
  · rfl
  · exact evicted_updateFrequency _ _

theorem evicted_Get {V : Type} (c : Cache V) (key : String) :
    (c.Get key).1.evicted = c.evicted := by
  unfold Cache.Get
  split
  · exact evicted_updateFrequency _ _
  · rfl

theorem evicted_dropElem {V : Type} [Value V] (c : Cache V) (ele : Elem) :
    (c.dropElem ele).evicted =
      c.evicted ++ (if c.OnEvicted then [((c.elems ele).key, (c.elems ele).value)] else []) := by
  unfold Cache.dropElem Cache.callOnEvicted
  by_cases h : c.OnEvicted = true <;> simp [h]

theorem evicted_RemoveOldest {V : Type} [Value V] (c : Cache V) :
    c.RemoveOldest.evicted =
      c.evicted ++ (if c.OnEvicted then c.view.getLast?.toList else []) := by
  rw [RemoveOldest_eq]
  unfold Cache.view
  rw [List.getLast?_map]
  cases hl : c.ll.getLast? with
  | none => by_cases h : c.OnEvicted = true <;> simp [h]
  | some ele =>
    simp only [evicted_dropElem, Option.map_some', Option.toList_some]

theorem evict_of_LRU {V : Type} [Value V] {c : Cache V}
    (hp : c.evictionType = EvictionPolicy.LRU) (order : RangeOrder) :
    c.evict order = c.RemoveOldest := by
  unfold Cache.evict
  rw [hp]

/-- The recency scenario: three distinct keys with entries of one size and room
for two of them. -/
theorem LRU_three_keys {V : Type} [Value V] [Inhabited V] (A B C : String) (vA vB vC : V)
    (onEvicted : Bool) (s1 s2 s3 : List RangeOrder) (order : RangeOrder)
    (hAB : A ≠ B) (hAC : A ≠ C) (hBC : B ≠ C)
    (h1 : entrySize ⟨A, vA⟩ = entrySize ⟨B, vB⟩) (h2 : entrySize ⟨B, vB⟩ = entrySize ⟨C, vC⟩) :
    ∃ c : Cache V, (New (2 * entrySize ⟨A, vA⟩) EvictionPolicy.LRU onEvicted).run
        [Op.add s1 A vA, Op.add s2 B vB, Op.get A, Op.add (order :: s3) C vC] = some c ∧
      c.view = [(C, vC), (A, vA)] ∧ c.WF ∧
      c.evicted = if onEvicted then [(B, vB)] else [] := by
  have hn : 1 ≤ entrySize ⟨A, vA⟩ := by
    by_cases hA : A = ""
    · have hB : B ≠ "" := fun h => hAB (hA.trans h.symm)
      have := utf8ByteSize_pos_of_ne hB
      rw [h1]
      simp only [entrySize]
      omega
    · have := utf8ByteSize_pos_of_ne hA
      simp only [entrySize]
      omega
  simp only [entrySize] at h1 h2 hn
  have hBA : B ≠ A := fun h => hAB h.symm
  have hCA : C ≠ A := fun h => hAC h.symm
  have hCB : C ≠ B := fun h => hBC h.symm
  -- the store after `New`
  have w0 : (New (2 * entrySize ⟨A, vA⟩) EvictionPolicy.LRU onEvicted : Cache V).WF :=
    New_WF _ _ _
  generalize hc0 : (New (2 * entrySize ⟨A, vA⟩) EvictionPolicy.LRU onEvicted : Cache V) = c0
    at w0 ⊢
  have v0 : c0.view = [] := by rw [← hc0]; rfl
  have m0 : c0.maxBytes = 2 * entrySize ⟨A, vA⟩ := by rw [← hc0]; rfl
  have p0 : c0.evictionType = EvictionPolicy.LRU := by rw [← hc0]; rfl
  have k0 : c0.OnEvicted = onEvicted := by rw [← hc0]; rfl
  have e0 : c0.evicted = [] := by rw [← hc0]; rfl
  simp only [entrySize] at m0
  -- `Add(A)`
  have w1 := addEntry_WF w0 A vA
  have v1 : (c0.addEntry A vA).view = [(A, vA)] := by rw [view_addEntry w0, v0]; rfl
  have m1 := (addEntry_config c0 A vA).1.trans m0
  have o1 : (c0.addEntry A vA).over = false := by
    rw [over_false_iff, nbytes_eq_viewSize w1, v1, m1]
    simp only [viewSize, List.map_cons, List.map_nil, List.sum_cons, List.sum_nil]
    right; omega
  have a1 : c0.Add s1 A vA = some (c0.addEntry A vA) := evictLoop_of_not_over s1 o1
  have e1 := (evicted_addEntry c0 A vA).trans e0
  have p1 := (addEntry_config c0 A vA).2.1.trans p0
  have k1 := (addEntry_config c0 A vA).2.2.trans k0
  set c1 := c0.addEntry A vA with hc1
  -- `Add(B)`
  have w2 := addEntry_WF w1 B vB
  have v2 : (c1.addEntry B vB).view = [(B, vB), (A, vA)] := by
    rw [view_addEntry w1, v1]; simp [hAB]
  have m2 := (addEntry_config c1 B vB).1.trans m1
  have o2 : (c1.addEntry B vB).over = false := by
    rw [over_false_iff, nbytes_eq_viewSize w2, v2, m2]
    simp only [viewSize, List.map_cons, List.map_nil, List.sum_cons, List.sum_nil]
    right; omega
  have a2 : c1.Add s2 B vB = some (c1.addEntry B vB) := evictLoop_of_not_over s2 o2
  have e2 := (evicted_addEntry c1 B vB).trans e1
  have p2 := (addEntry_config c1 B vB).2.1.trans p1
  have k2 := (addEntry_config c1 B vB).2.2.trans k1
  set c2 := c1.addEntry B vB with hc2
  -- `Get(A)`
  have w3 := Get_WF w2 A
  have v3 : (c2.Get A).1.view = [(A, vA), (B, vB)] := by
    rw [view_Get w2, v2]; simp [GoMap.lookup, hBA]
  have m3 := (Get_config c2 A).1.trans m2
  have e3 := (evicted_Get c2 A).trans e2
  have p3 := (Get_config c2 A).2.1.trans p2
  have k3 := (Get_config c2 A).2.2.trans k2
  set c3 := (c2.Get A).1 with hc3
  -- `Add(C)`: one eviction
  have w4 := addEntry_WF w3 C vC
  have v4 : (c3.addEntry C vC).view = [(C, vC), (A, vA), (B, vB)] := by
    rw [view_addEntry w3, v3]; simp [hAC, hBC]
  have m4 := (addEntry_config c3 C vC).1.trans m3
  have o4 : (c3.addEntry C vC).over = true := by
    rw [over_iff, nbytes_eq_viewSize w4, v4, m4]
    simp only [viewSize, List.map_cons, List.map_nil, List.sum_cons, List.sum_nil]
    constructor <;> omega
  have e4 := (evicted_addEntry c3 C vC).trans e3
  have p4 := (addEntry_config c3 C vC).2.1.trans p3
  have k4 := (addEntry_config c3 C vC).2.2.trans k3
  have a4 : c3.Add (order :: s3) C vC =
      Cache.evictLoop s3 ((c3.addEntry C vC).RemoveOldest) := by
    unfold Cache.Add
    rw [evictLoop_of_over order s3 o4, evict_of_LRU p4]
  set c4 := c3.addEntry C vC with hc4
  have w5 := RemoveOldest_WF w4
  have v5 : c4.RemoveOldest.view = [(C, vC), (A, vA)] := by
    rw [view_RemoveOldest w4, v4]; rfl
  have m5 : c4.RemoveOldest.maxBytes = _ :=
    (evict_of_LRU p4 order ▸ (evict_config c4 order).1).trans m4
  have o5 : c4.RemoveOldest.over = false := by
    rw [over_false_iff, nbytes_eq_viewSize w5, v5, m5]
    simp only [viewSize, List.map_cons, List.map_nil, List.sum_cons, List.sum_nil]
    right; omega
  have e5 : c4.RemoveOldest.evicted = if onEvicted then [(B, vB)] else [] := by
    rw [evicted_RemoveOldest, e4, k4, v4]
    by_cases hk : onEvicted = true <;> simp [hk]
  rw [evictLoop_of_not_over s3 o5] at a4
  refine ⟨c4.RemoveOldest, ?_, v5, w5, e5⟩
  simp only [Cache.run, Cache.step, a1, a2, a4, Option.some_bind, Option.bind_some]


theorem runTouched_fst {V : Type} [Value V] (ops : List (Op V)) :
    ∀ (c : Cache V) (t : Touches), (c.runTouched t ops).map Prod.fst = c.run ops := by
  induction ops with
  | nil => intro c t; rfl
  | cons op ops ih =>
    intro c t
    simp only [Cache.runTouched, Cache.run]
    cases c.step op with
    | none => rfl
    | some c1 => simpa using ih c1 _

/-- C3: under the recency policy every eviction, whether made by a call of
`RemoveOldest` or by an iteration of the loop of `Add`, removes the live entry
whose latest touch (its `Add`, in-place update or `Get` hit) is older than that
of every other live entry.  In particular, for distinct keys `A`, `B`, `C` with
entries of one size and `maxBytes` twice that size, `Add(A)`, `Add(B)`, `Get(A)`,
`Add(C)` returns, evicts `B` and leaves exactly `A` and `C` retrievable. -/
theorem C3_LRU_evicts_least_recently_touched {V : Type} [Value V] [Inhabited V] :
    (∀ (maxBytes : Int) (onEvicted : Bool) (ops : List (Op V)) (c : Cache V) (t : Touches),
      (New maxBytes EvictionPolicy.LRU onEvicted).runTouched Touches.start ops = some (c, t) →
      (∀ ele, c.ll.getLast? = some ele →
        c.Oldest t ele ∧ c.RemoveOldest.ll = c.ll.erase ele ∧
        (c.RemoveOldest.Get (c.elems ele).key).2 = none) ∧
      (∀ (sched : List RangeOrder) (key : String) (value : V),
        ∀ s ∈ Cache.evictStates sched (c.addEntry key value),
        ∀ (order : RangeOrder) (ele : Elem), s.ll.getLast? = some ele →
          s.Oldest (t.touch key) ele ∧ (s.evict order).ll = s.ll.erase ele ∧
          ((s.evict order).Get (s.elems ele).key).2 = none)) ∧
    (∀ (A B C : String) (vA vB vC : V) (onEvicted : Bool) (s1 s2 s3 : List RangeOrder)
      (order : RangeOrder),
      A ≠ B → A ≠ C → B ≠ C →
      entrySize ⟨A, vA⟩ = entrySize ⟨B, vB⟩ → entrySize ⟨B, vB⟩ = entrySize ⟨C, vC⟩ →
      ∃ c : Cache V, (New (2 * entrySize ⟨A, vA⟩) EvictionPolicy.LRU onEvicted).run
          [Op.add s1 A vA, Op.add s2 B vB, Op.get A, Op.add (order :: s3) C vC] = some c ∧
        (c.Get A).2 = some vA ∧ (c.Get B).2 = none ∧ (c.Get C).2 = some vC ∧
        (∀ k, (c.Get k).2.isSome = true ↔ k = A ∨ k = C) ∧ c.Length = 2 ∧
        c.evicted = if onEvicted then [(B, vB)] else []) := by
  constructor
  · intro maxBytes onEvicted ops c t hrun
    obtain ⟨hw, hr, hp⟩ := runTouched_inv ops (New_WF maxBytes EvictionPolicy.LRU onEvicted)
      (Recent_new maxBytes EvictionPolicy.LRU onEvicted Touches.start) hrun
    have hp' : c.evictionType = EvictionPolicy.LRU := hp
    constructor
    · intro ele hl
      have hd : c.RemoveOldest = c.dropElem ele := by simp only [RemoveOldest_eq, hl]
      refine ⟨Oldest_of_getLast hr hl, ?_, ?_⟩
      · rw [hd]; exact (dropElem_fields c ele).1
      · rw [hd]; exact Get_dropElem_none c ele
    · intro sched key value s hs order ele hl
      obtain ⟨sw, sr, sp⟩ := evictStates_inv sched (addEntry_WF hw key value)
        (addEntry_Recent hw hr key value) s hs
      have sp' : s.evictionType = EvictionPolicy.LRU :=
        sp.trans ((addEntry_config c key value).2.1.trans hp')
      have hd := evict_LRU sp' order hl
      refine ⟨Oldest_of_getLast sr hl, ?_, ?_⟩
      · rw [hd]; exact (dropElem_fields s ele).1
      · rw [hd]; exact Get_dropElem_none s ele
  · intro A B C vA vB vC onEvicted s1 s2 s3 order hAB hAC hBC h1 h2
    obtain ⟨c, hrun, hv, hw, he⟩ :=
      LRU_three_keys A B C vA vB vC onEvicted s1 s2 s3 order hAB hAC hBC h1 h2
    have hCA : C ≠ A := fun h => hAC h.symm
    have hCB : C ≠ B := fun h => hBC h.symm
    refine ⟨c, hrun, ?_, ?_, ?_, ?_, ?_, he⟩
    · rw [Get_result hw, hv]; simp [GoMap.lookup, hCA]
    · rw [Get_result hw, hv]; simp [GoMap.lookup, hCB, hAB]
    · rw [Get_result hw, hv]; simp [GoMap.lookup]
    · intro k
      rw [Get_result hw, hv]
      by_cases hkC : C = k
      · simp [GoMap.lookup, hkC]
      · by_cases hkA : A = k
        · simp [GoMap.lookup, hkC, hkA]
        · have e1 : ¬ k = A := fun h => hkA h.symm
          have e2 : ¬ k = C := fun h => hkC h.symm
          simp [GoMap.lookup, hkC, hkA, e1, e2]
    · rw [Length_eq_view, hv]; rfl

theorem C3_LRU_evicts_least_recently_touched_witness :
    (∃ (c : Cache String) (t : Touches),
      (New 4 EvictionPolicy.LRU true).runTouched Touches.start
        [Op.add [] "A" "1", Op.add [] "B" "2", Op.get "A"] = some (c, t) ∧
      c.ll.getLast? = some 1 ∧ (c.elems 1).key = "B" ∧ c.Oldest t 1 ∧
      c.RemoveOldest.ll = c.ll.erase 1 ∧ (c.RemoveOldest.Get (c.elems 1).key).2 = none) ∧
    (∃ c : Cache String,
      (New (2 * entrySize (⟨"A", "1"⟩ : entry String)) EvictionPolicy.LRU true).run
        [Op.add [] "A" "1", Op.add [] "B" "2", Op.get "A",
          Op.add (RangeOrder.stored :: []) "C" "3"] = some c ∧
      (c.Get "A").2 = some "1" ∧ (c.Get "B").2 = none ∧ (c.Get "C").2 = some "3" ∧
      (∀ k, (c.Get k).2.isSome = true ↔ k = "A" ∨ k = "C") ∧ c.Length = 2 ∧
      c.evicted = if true then [("B", "2")] else []) := by
  constructor
  · have h : ((New 4 EvictionPolicy.LRU true : Cache String).runTouched Touches.start
        [Op.add [] "A" "1", Op.add [] "B" "2", Op.get "A"]).map
          (fun p => (p.1.ll.getLast?, (p.1.elems 1).key)) = some (some 1, "B") := by decide
    cases hrun : (New 4 EvictionPolicy.LRU true : Cache String).runTouched Touches.start
        [Op.add [] "A" "1", Op.add [] "B" "2", Op.get "A"] with
    | none => rw [hrun] at h; cases h
    | some p =>
      obtain ⟨c, t⟩ := p
      rw [hrun] at h
      simp only [Option.map_some', Option.some.injEq, Prod.mk.injEq] at h
      have := ((C3_LRU_evicts_least_recently_touched (V := String)).1 4 true _ c t hrun).1 1 h.1
      exact ⟨c, t, rfl, h.1, h.2, this⟩
  · exact (C3_LRU_evicts_least_recently_touched (V := String)).2 "A" "B" "C" "1" "2" "3" true
      [] [] [] RangeOrder.stored (by decide) (by decide) (by decide) (by decide) (by decide)

end lru

/-! ## The eviction loop under the recency policy -/

namespace lru

/-- Under the recency policy with a capacity that is not negative the eviction
loop ends within as many iterations as there are entries. -/
theorem evictLoop_LRU_returns {V : Type} [Value V] (sched : List RangeOrder) :
    ∀ (c : Cache V), c.WF → c.evictionType = EvictionPolicy.LRU → 0 ≤ c.maxBytes →
      c.view.length ≤ sched.length → ∃ c' : Cache V, Cache.evictLoop sched c = some c' := by
  induction sched with
  | nil =>
    intro c hw _ hm hlen
    have hv : c.view = [] := List.length_eq_zero.1 (Nat.le_zero.1 hlen)
    have ho : c.over = false := by
      rw [over_false_iff, nbytes_eq_viewSize hw, hv]
      exact Or.inr hm
    exact ⟨c, evictLoop_of_not_over _ ho⟩
  | cons o s ih =>
    intro c hw hp hm hlen
    cases ho : c.over with
    | false => exact ⟨c, evictLoop_of_not_over _ ho⟩
    | true =>
      rw [evictLoop_of_over o s ho, evict_of_LRU hp]
      have hcfg := evict_config c o
      rw [evict_of_LRU hp] at hcfg
      apply ih c.RemoveOldest (RemoveOldest_WF hw) (hcfg.2.1.trans hp) (by rw [hcfg.1]; exact hm)
      rw [view_RemoveOldest hw, List.length_dropLast]
      simp only [List.length_cons] at hlen
      omega

theorem Add_LRU_returns {V : Type} [Value V] (sched : List RangeOrder) (c : Cache V)
    (key : String) (value : V) (hw : c.WF) (hp : c.evictionType = EvictionPolicy.LRU)
    (hm : 0 ≤ c.maxBytes) (hlen : c.view.length + 1 ≤ sched.length) :
    ∃ c' : Cache V, c.Add sched key value = some c' := by
  have hcfg := addEntry_config c key value
  apply evictLoop_LRU_returns sched _ (addEntry_WF hw key value) (hcfg.2.1.trans hp)
    (by rw [hcfg.1]; exact hm)
  rw [view_addEntry hw, List.length_cons]
  have := List.length_filter_le (fun p : String × V => decide (p.1 ≠ key)) c.view
  omega

end lru

/-! ## The eviction hook -/

namespace lru

theorem gone_of_subset {V : Type} {c c' : Cache V} (h : ∀ e ∈ c.ll, e ∈ c'.ll) :
    c.gone c' = [] := by
  unfold Cache.gone
  rw [List.map_eq_nil_iff, List.filter_eq_nil_iff]
  intro e he
  simpa using h e he

theorem gone_dropElem {V : Type} [Value V] {c : Cache V} (h : c.WF) {ele : Elem}
    (he : ele ∈ c.ll) : c.gone (c.dropElem ele) = [(ele, c.payload ele)] := by
  unfold Cache.gone
  rw [(dropElem_fields c ele).1]
  have : c.ll.filter (fun e => decide (e ∉ c.ll.erase ele)) = [ele] := by
    have hnd := h.ll_nodup
    have hfil : c.ll.filter (fun e => decide (e ∉ c.ll.erase ele)) =
        c.ll.filter (fun e => e == ele) := by
      apply List.filter_congr
      intro x hx
      by_cases hxe : x = ele
      · subst hxe
        have : x ∉ c.ll.erase x := fun h' => ((List.Nodup.mem_erase_iff hnd).1 h').1 rfl
        simp [this]
      · have : x ∈ c.ll.erase ele := (List.Nodup.mem_erase_iff hnd).2 ⟨hxe, hx⟩
        simp [this, hxe]
    rw [hfil]
    have hc : c.ll.count ele = 1 := List.count_eq_one_of_mem hnd he
    rw [List.filter_beq, hc]
    rfl
  rw [this]
  rfl

/-- A step that removes nothing, tells the hook nothing and only adds fresh
elements keeps the log. -/
theorem Logged_keep {V : Type} {c c' : Cache V} {log : List (Elem × (String × V))}
    (hl : c.Logged log) (hev : c'.evicted = c.evicted) (hfresh : c.fresh ≤ c'.fresh)
    (hnew : ∀ e ∈ c'.ll, e ∈ c.ll ∨ c.fresh ≤ e) : c'.Logged log := by
  obtain ⟨h1, h2, h3⟩ := hl
  refine ⟨hev.trans h1, h2, ?_⟩
  intro x hx
  obtain ⟨a, b⟩ := h3 x hx
  refine ⟨?_, lt_of_lt_of_le b hfresh⟩
  intro hm
  rcases hnew _ hm with h' | h'
  · exact a h'
  · exact absurd b (not_lt.2 h')

theorem Logged_dropElem {V : Type} [Value V] {c : Cache V}
    {log : List (Elem × (String × V))} (h : c.WF) (hk : c.OnEvicted = true)
    (hl : c.Logged log) {ele : Elem} (he : ele ∈ c.ll) :
    (c.dropElem ele).Logged (log ++ [(ele, c.payload ele)]) := by
  obtain ⟨h1, h2, h3⟩ := hl
  obtain ⟨f1, -, -, -, -, f6⟩ := dropElem_fields c ele
  refine ⟨?_, ?_, ?_⟩
  · rw [evicted_dropElem, h1, hk]
    simp [Cache.payload]
  · rw [List.map_append, List.nodup_append]
    refine ⟨h2, by simp, ?_⟩
    intro a ha hb
    simp only [List.map_cons, List.map_nil, List.mem_singleton] at hb
    subst hb
    obtain ⟨x, hx, rfl⟩ := List.mem_map.1 ha
    exact (h3 x hx).1 he
  · intro x hx
    rw [f1, f6]
    rcases List.mem_append.1 hx with hx' | hx'
    · exact ⟨fun hm => (h3 x hx').1 (List.mem_of_mem_erase hm), (h3 x hx').2⟩
    · simp only [List.mem_singleton] at hx'
      subst hx'
      exact ⟨fun hm => ((List.Nodup.mem_erase_iff h.ll_nodup).1 hm).1 rfl, h.fresh_gt _ he⟩

theorem Logged_evict {V : Type} [Value V] {c : Cache V} {log : List (Elem × (String × V))}
    (h : c.WF) (hk : c.OnEvicted = true) (hl : c.Logged log) (order : RangeOrder) :
    (c.evict order).Logged (log ++ c.gone (c.evict order)) := by
  have keep : c.Logged (log ++ c.gone c) := by
    rw [gone_of_subset (fun e he => he), List.append_nil]; exact hl
  unfold Cache.evict
  split
  · rw [RemoveOldest_eq]
    cases hlast : c.ll.getLast? with
    | none => exact keep
    | some ele =>
      have he := List.mem_of_getLast?_eq_some hlast
      simp only [gone_dropElem h he]
      exact Logged_dropElem h hk hl he
  · rw [removeLFU_eq]
    split
    · cases hlook : GoMap.lookup (leastFreq (order.visit c.freqMap)).1 c.cache with
      | none => exact keep
      | some ele =>
        have he := ((h.cache_ll _ _).1 hlook).1
        simp only [gone_dropElem h he]
        exact Logged_dropElem h hk hl he
    · exact keep

theorem Logged_evictLoop {V : Type} [Value V] (sched : List RangeOrder) :
    ∀ {c c' : Cache V} {log : List (Elem × (String × V))}, c.WF → c.OnEvicted = true →
      c.Logged log → Cache.evictLoop sched c = some c' →
      c'.Logged (log ++ Cache.loopGone sched c) := by
  induction sched with
  | nil =>
    intro c c' log h hk hl hr
    unfold Cache.evictLoop at hr
    unfold Cache.loopGone
    split at hr
    · cases hr
    · cases hr
      simp [*]
  | cons o rest ih =>
    intro c c' log h hk hl hr
    unfold Cache.evictLoop at hr
    unfold Cache.loopGone
    split at hr
    · rename_i hov
      simp only [hov, if_true]
      rw [← List.append_assoc]
      exact ih (evict_WF h o) ((evict_config c o).2.2.trans hk) (Logged_evict h hk hl o) hr
    · cases hr
      simp [*]

theorem ll_addEntry {V : Type} [Value V] (c : Cache V) (key : String) (value : V) :
    (c.addEntry key value).ll.Perm c.ll ∧ (c.addEntry key value).fresh = c.fresh ∨
    (c.addEntry key value).ll = c.fresh :: c.ll ∧ (c.addEntry key value).fresh = c.fresh + 1 := by
  unfold Cache.addEntry
  cases hl : GoMap.lookup key c.cache with
  | some ele => exact Or.inl ⟨moveToFront_perm _ _, rfl⟩
  | none =>
    right
    obtain ⟨f, hf, -⟩ := updateFrequency_eq ({ c with
      ll := c.fresh :: c.ll
      elems := Function.update c.elems c.fresh ⟨key, value⟩
      fresh := c.fresh + 1
      cache := GoMap.insert key c.fresh c.cache
      nbytes := c.nbytes + ((key.utf8ByteSize : Int) + (Value.Len value : Int)) } : Cache V) key
    simp only at hf ⊢
    rw [hf]
    exact ⟨rfl, rfl⟩

theorem ll_Get {V : Type} (c : Cache V) (key : String) :
    (c.Get key).1.ll.Perm c.ll ∧ (c.Get key).1.fresh = c.fresh := by
  cases hl : GoMap.lookup key c.cache with
  | none => rw [Get_miss hl]; exact ⟨List.Perm.refl _, rfl⟩
  | some ele =>
    obtain ⟨f, hf, -⟩ := updateFrequency_eq c key
    rw [Get_hit hl, hf]
    exact ⟨moveToFront_perm _ _, rfl⟩

theorem Logged_addEntry {V : Type} [Value V] {c : Cache V}
    {log : List (Elem × (String × V))} (hl : c.Logged log) (key : String) (value : V) :
    (c.addEntry key value).Logged (log ++ c.gone (c.addEntry key value)) := by
  rcases ll_addEntry c key value with ⟨hp, hf⟩ | ⟨hp, hf⟩
  · rw [gone_of_subset (fun e he => hp.mem_iff.2 he), List.append_nil]
    exact Logged_keep hl (evicted_addEntry c key value) (le_of_eq hf.symm)
      (fun e he => Or.inl (hp.mem_iff.1 he))
  · rw [gone_of_subset (fun e he => by rw [hp]; exact List.mem_cons_of_mem _ he),
      List.append_nil]
    refine Logged_keep hl (evicted_addEntry c key value) (by rw [hf]; exact Nat.le_succ _) ?_
    intro e he
    rw [hp] at he
    rcases List.mem_cons.1 he with rfl | he'
    · exact Or.inr (le_refl _)
    · exact Or.inl he'

theorem Logged_step {V : Type} [Value V] {c c' : Cache V} {log : List (Elem × (String × V))}
    (h : c.WF) (hk : c.OnEvicted = true) (hl : c.Logged log) (op : Op V)
    (hs : c.step op = some c') : c'.Logged (log ++ c.removedBy op) := by
  cases op with
  | add sched key value =>
    simp only [Cache.removedBy]
    rw [← List.append_assoc]
    exact Logged_evictLoop sched (addEntry_WF h key value)
      ((addEntry_config c key value).2.2.trans hk) (Logged_addEntry hl key value) hs
  | get key =>
    simp only [Cache.step, Option.some.injEq] at hs
    subst hs
    simp only [Cache.removedBy]
    obtain ⟨hp, hf⟩ := ll_Get c key
    rw [gone_of_subset (fun e he => hp.mem_iff.2 he), List.append_nil]
    exact Logged_keep hl (evicted_Get c key) (le_of_eq hf.symm)
      (fun e he => Or.inl (hp.mem_iff.1 he))
  | removeOldest =>
    simp only [Cache.step, Option.some.injEq] at hs
    subst hs
    simp only [Cache.removedBy]
    rw [RemoveOldest_eq]
    cases hlast : c.ll.getLast? with
    | none =>
      simp only
      rw [gone_of_subset (fun e he => he), List.append_nil]; exact hl
    | some ele =>
      have he := List.mem_of_getLast?_eq_some hlast
      simp only [gone_dropElem h he]
      exact Logged_dropElem h hk hl he

theorem Logged_run {V : Type} [Value V] (ops : List (Op V)) :
    ∀ {c c' : Cache V} {log : List (Elem × (String × V))}, c.WF → c.OnEvicted = true →
      c.Logged log → c.run ops = some c' → c'.Logged (log ++ c.removedLog ops) := by
  induction ops with
  | nil =>
    intro c c' log h hk hl hr
    simp only [Cache.run, Option.some.injEq] at hr
    subst hr
    simpa [Cache.removedLog] using hl
  | cons op ops ih =>
    intro c c' log h hk hl hr
    simp only [Cache.run] at hr
    cases hs : c.step op with
    | none => rw [hs] at hr; cases hr
    | some c1 =>
      rw [hs] at hr
      simp only [Option.some_bind] at hr
      simp only [Cache.removedLog, hs]
      rw [← List.append_assoc]
      exact ih (step_WF h op hs) ((step_config op hs).2.2.trans hk) (Logged_step h hk hl op hs) hr

/-- C4: with a hook registered, after any sequence of calls the pairs passed to
the hook are exactly the entries removed from the store, in removal order: each
removed list element is reported once, with the key and value it held when it
was removed, and no reported element is live.  With the recency policy and
`maxBytes = 10`, adding `key1 = 123456`, `k2 = k2`, `k3 = k3`, `k4 = k4` makes
the hook see the keys `key1`, `k2` in that order. -/
theorem C4_hook_sees_exactly_the_removed_entries :
    (∀ (V : Type) [Value V] [Inhabited V] (maxBytes : Int) (evictionType : EvictionPolicy)
      (ops : List (Op V)) (c : Cache V),
      (New maxBytes evictionType true).run ops = some c →
      c.evicted = ((New maxBytes evictionType true : Cache V).removedLog ops).map Prod.snd ∧
      (((New maxBytes evictionType true : Cache V).removedLog ops).map Prod.fst).Nodup ∧
      ∀ x ∈ (New maxBytes evictionType true : Cache V).removedLog ops, x.1 ∉ c.ll) ∧
    ((New 10 EvictionPolicy.LRU true : Cache String).run
        [Op.add [RangeOrder.stored] "key1" "123456", Op.add [RangeOrder.stored] "k2" "k2",
         Op.add [RangeOrder.stored] "k3" "k3", Op.add [RangeOrder.stored] "k4" "k4"]).map
      (fun c => c.evicted.map Prod.fst) = some ["key1", "k2"] := by
  constructor
  · intro V _ _ maxBytes evictionType ops c hrun
    have h0 : (New maxBytes evictionType true : Cache V).Logged [] := by
      simp [Cache.Logged, New]
    have := Logged_run ops (New_WF maxBytes evictionType true) rfl h0 hrun
    rw [List.nil_append] at this
    exact ⟨this.1, this.2.1, fun x hx => (this.2.2 x hx).1⟩
  · decide


theorem C4_hook_sees_exactly_the_removed_entries_witness :
    ∃ c : Cache String,
      (New 12 EvictionPolicy.LFU true).run
        [Op.add [RangeOrder.stored] "key1" "1234", Op.add [RangeOrder.stored] "k2" "k2",
         Op.get "key1", Op.add [RangeOrder.stored] "k3" "k3",
         Op.add [RangeOrder.stored] "key1" "12345678"] = some c ∧
      (New 12 EvictionPolicy.LFU true : Cache String).removedLog
        [Op.add [RangeOrder.stored] "key1" "1234", Op.add [RangeOrder.stored] "k2" "k2",
         Op.get "key1", Op.add [RangeOrder.stored] "k3" "k3",
         Op.add [RangeOrder.stored] "key1" "12345678"] = [(1, ("k2", "k2")), (2, ("k3", "k3"))] ∧
      c.evicted = ((New 12 EvictionPolicy.LFU true : Cache String).removedLog
        [Op.add [RangeOrder.stored] "key1" "1234", Op.add [RangeOrder.stored] "k2" "k2",
         Op.get "key1", Op.add [RangeOrder.stored] "k3" "k3",
         Op.add [RangeOrder.stored] "key1" "12345678"]).map Prod.snd := by
  have h : ((New 12 EvictionPolicy.LFU true : Cache String).run
      [Op.add [RangeOrder.stored] "key1" "1234", Op.add [RangeOrder.stored] "k2" "k2",
       Op.get "key1", Op.add [RangeOrder.stored] "k3" "k3",
       Op.add [RangeOrder.stored] "key1" "12345678"]).isSome = true := by decide
  obtain ⟨c, hc⟩ := Option.isSome_iff_exists.1 h
  exact ⟨c, hc, by decide,
    (C4_hook_sees_exactly_the_removed_entries.1 String 12 EvictionPolicy.LFU _ c hc).1⟩

end lru

/-! ## Calls of `Add` that never return -/

namespace lru

theorem evictLoop_stuck {V : Type} [Value V] {c : Cache V} (hov : c.over = true)
    (hstuck : ∀ order, c.evict order = c) :
    ∀ sched, Cache.evictLoop sched c = none := by
  intro sched
  induction sched with
  | nil =>
    unfold Cache.evictLoop
    simp [hov]
  | cons o rest ih =>
    rw [evictLoop_of_over o rest hov, hstuck o]
    exact ih

/-- C7 (failing inputs): `Add` does not return, whatever the number of loop
iterations allowed, (1) under the frequency policy with `maxBytes = 1` when the
empty key is added with a two-byte value, because `removeLFU` treats the empty
key as "no key found" and removes nothing, and (2) under the recency policy with
a negative `maxBytes`, because the loop condition stays true on the empty
store. -/
theorem C7_Add_does_not_return :
    (∀ (sched : List RangeOrder) (onEvicted : Bool),
      (New 1 EvictionPolicy.LFU onEvicted : Cache String).Add sched "" "ab" = none) ∧
    (∀ (sched : List RangeOrder) (onEvicted : Bool),
      (New (-1) EvictionPolicy.LRU onEvicted : Cache String).Add sched "a" "b" = none) := by
  constructor
  · intro sched onEvicted
    unfold Cache.Add
    apply evictLoop_stuck
    · cases onEvicted <;> decide
    · intro order
      have hf : ((New 1 EvictionPolicy.LFU onEvicted : Cache String).addEntry "" "ab").freqMap =
          [("", 1)] := by cases onEvicted <;> rfl
      have hp : ((New 1 EvictionPolicy.LFU onEvicted : Cache String).addEntry "" "ab").evictionType =
          EvictionPolicy.LFU := by cases onEvicted <;> rfl
      have hv : order.visit [("", 1)] = [("", 1)] := List.perm_singleton.1 (order.perm _)
      unfold Cache.evict
      rw [hp]
      simp only [removeLFU_eq, hf, hv]
      have hl : (leastFreq [("", 1)]).1 = "" := by decide
      simp [hl]
  · intro sched onEvicted
    unfold Cache.Add
    have hov : ((New (-1) EvictionPolicy.LRU onEvicted : Cache String).addEntry "a" "b").over =
        true := by cases onEvicted <;> decide
    have hp : ((New (-1) EvictionPolicy.LRU onEvicted : Cache String).addEntry "a" "b").evictionType =
        EvictionPolicy.LRU := by cases onEvicted <;> rfl
    cases sched with
    | nil =>
      unfold Cache.evictLoop
      simp [hov]
    | cons o rest =>
      rw [evictLoop_of_over o rest hov, evict_of_LRU hp]
      apply evictLoop_stuck
      · cases onEvicted <;> decide
      · intro order
        have hp2 : ((New (-1) EvictionPolicy.LRU onEvicted : Cache String).addEntry "a"
            "b").RemoveOldest.evictionType = EvictionPolicy.LRU := by
          cases onEvicted <;> rfl
        have hl : ((New (-1) EvictionPolicy.LRU onEvicted : Cache String).addEntry "a"
            "b").RemoveOldest.ll = [] := by cases onEvicted <;> rfl
        rw [evict_of_LRU hp2, RemoveOldest_eq, hl]
        rfl

end lru

/-! ## The hash ring -/

namespace consistenthash

theorem searchLoop_spec (f : Nat → Bool) (n : Nat)
    (mono : ∀ a b, a ≤ b → b < n → f a = true → f b = true) :
    ∀ fuel i j, i ≤ j → j ≤ n → j - i ≤ fuel →
      (∀ k, k < i → f k = false) → (∀ k, j ≤ k → k < n → f k = true) →
      searchLoop f fuel i j ≤ n ∧ (∀ k, k < searchLoop f fuel i j → f k = false) ∧
      (∀ k, searchLoop f fuel i j ≤ k → k < n → f k = true) := by
  intro fuel
  induction fuel with
  | zero =>
    intro i j hij hjn hfuel hlo hhi
    have e : i = j := by omega
    subst e
    exact ⟨hjn, hlo, hhi⟩
  | succ fuel ih =>
    intro i j hij hjn hfuel hlo hhi
    unfold searchLoop
    by_cases hlt : i < j
    · simp only [hlt, if_true]
      have h1 : i ≤ (i + j) / 2 := by omega
      have h2 : (i + j) / 2 < j := by omega
      cases hf : f ((i + j) / 2) with
      | false =>
        simp only [Bool.not_false, if_true]
        apply ih ((i + j) / 2 + 1) j (by omega) hjn (by omega) _ hhi
        intro k hk
        cases hfk : f k with
        | false => rfl
        | true =>
          have := mono k ((i + j) / 2) (by omega) (by omega) hfk
          rw [hf] at this
          cases this
      | true =>
        simp only [Bool.not_true, Bool.false_eq_true, if_false]
        apply ih i ((i + j) / 2) h1 (by omega) (by omega) hlo
        intro k hk hkn
        exact mono _ k hk hkn hf
    · simp only [hlt, if_false]
      have e : i = j := by omega
      subst e
      exact ⟨hjn, hlo, hhi⟩

theorem Search_spec (f : Nat → Bool) (n : Nat)
    (mono : ∀ a b, a ≤ b → b < n → f a = true → f b = true) :
    Search n f ≤ n ∧ (∀ k, k < Search n f → f k = false) ∧
    (∀ k, Search n f ≤ k → k < n → f k = true) := by
  unfold Search
  apply searchLoop_spec f n mono n 0 n (Nat.zero_le _) (le_refl _) (by omega)
  · intro k hk; exact absurd hk (Nat.not_lt_zero _)
  · intro k h1 h2; exact absurd h2 (not_lt.2 h1)

theorem least_eq_none {l : List Int} : least l = none ↔ l = [] := by
  cases l with
  | nil => simp [least]
  | cons x xs =>
    simp only [least]
    cases least xs <;> simp

theorem least_spec {l : List Int} {p : Int} (h : least l = some p) :
    p ∈ l ∧ ∀ q ∈ l, p ≤ q := by
  induction l generalizing p with
  | nil => simp [least] at h
  | cons x xs ih =>
    simp only [least] at h
    cases hx : least xs with
    | none =>
      rw [hx] at h
      simp only [Option.some.injEq] at h
      subst h
      have : xs = [] := least_eq_none.1 hx
      subst this
      simp
    | some y =>
      rw [hx] at h
      simp only [Option.some.injEq] at h
      obtain ⟨hy1, hy2⟩ := ih hx
      by_cases hxy : x ≤ y
      · simp only [hxy, if_true] at h
        subst h
        refine ⟨List.mem_cons_self _ _, ?_⟩
        intro q hq
        rcases List.mem_cons.1 hq with rfl | hq'
        · exact le_refl _
        · exact le_trans hxy (hy2 q hq')
      · simp only [hxy, if_false] at h
        subst h
        refine ⟨List.mem_cons_of_mem _ hy1, ?_⟩
        intro q hq
        rcases List.mem_cons.1 hq with rfl | hq'
        · omega
        · exact hy2 q hq'

theorem least_of_min {l : List Int} {p : Int} (hp : p ∈ l) (hmin : ∀ q ∈ l, p ≤ q) :
    least l = some p := by
  cases h : least l with
  | none =>
    rw [least_eq_none.1 h] at hp
    cases hp
  | some r =>
    obtain ⟨hr1, hr2⟩ := least_spec h
    have := hmin r hr1
    have := hr2 p hp
    congr 1
    omega


theorem sorted_getD {l : List Int} (hs : l.Sorted (fun a b => a ≤ b)) {a b : Nat} (hab : a ≤ b)
    (hb : b < l.length) : l.getD a 0 ≤ l.getD b 0 := by
  have ha : a < l.length := lt_of_le_of_lt hab hb
  rw [List.getD_eq_getElem _ _ ha, List.getD_eq_getElem _ _ hb]
  have := hs.rel_get_of_le (a := ⟨a, ha⟩) (b := ⟨b, hb⟩) hab
  simpa using this

/-- On a sorted, non-empty list the index found by `sort.Search`, reduced modulo
the length, points at the smallest element that is at least `h`, or at the
smallest element of the list when no element is at least `h`. -/
theorem getD_Search {l : List Int} (hs : l.Sorted (fun a b => a ≤ b)) (hne : l ≠ []) (h : Int) :
    (match least (l.filter (fun p => decide (h ≤ p))) with
      | some p => some p
      | none => least l) =
    some (l.getD (Search l.length (fun i => decide (l.getD i 0 ≥ h)) % l.length) 0) := by
  have hpos : 0 < l.length := List.length_pos.2 hne
  have mono : ∀ a b, a ≤ b → b < l.length →
      (fun i => decide (l.getD i 0 ≥ h)) a = true → (fun i => decide (l.getD i 0 ≥ h)) b = true := by
    intro a b hab hb ha
    simp only [ge_iff_le, decide_eq_true_eq] at ha ⊢
    exact le_trans ha (sorted_getD hs hab hb)
  obtain ⟨hr1, hr2, hr3⟩ := Search_spec _ l.length mono
  generalize Search l.length (fun i => decide (l.getD i 0 ≥ h)) = r at hr1 hr2 hr3
  simp only [ge_iff_le, decide_eq_false_iff_not, not_le, decide_eq_true_eq] at hr2 hr3
  by_cases hr : r < l.length
  · rw [Nat.mod_eq_of_lt hr]
    have hmem : l.getD r 0 ∈ l := by
      rw [List.getD_eq_getElem _ _ hr]
      exact List.getElem_mem _
    have hl : least (l.filter (fun p => decide (h ≤ p))) = some (l.getD r 0) := by
      apply least_of_min
      · rw [List.mem_filter]
        exact ⟨hmem, by simpa using hr3 r (le_refl _) hr⟩
      · intro q hq
        rw [List.mem_filter] at hq
        obtain ⟨k, hk, rfl⟩ := List.getElem_of_mem hq.1
        have hq2 : h ≤ l[k] := by simpa using hq.2
        have hrk : r ≤ k := by
          by_contra hlt
          have := hr2 k (not_le.1 hlt)
          rw [List.getD_eq_getElem _ _ hk] at this
          omega
        have := sorted_getD hs hrk hk
        rwa [List.getD_eq_getElem _ 0 hk] at this
    rw [hl]
  · have hrn : r = l.length := le_antisymm hr1 (not_lt.1 hr)
    subst hrn
    rw [Nat.mod_self]
    have hfil : l.filter (fun p => decide (h ≤ p)) = [] := by
      rw [List.filter_eq_nil_iff]
      intro q hq
      obtain ⟨k, hk, rfl⟩ := List.getElem_of_mem hq
      have := hr2 k hk
      rw [List.getD_eq_getElem _ _ hk] at this
      simpa using this
    rw [hfil]
    simp only [least]
    apply least_of_min
    · rw [List.getD_eq_getElem _ _ hpos]
      exact List.getElem_mem _
    · intro q hq
      obtain ⟨k, hk, rfl⟩ := List.getElem_of_mem hq
      have := sorted_getD hs (Nat.zero_le k) hk
      rwa [List.getD_eq_getElem _ 0 hk] at this

theorem Add_sorted (m : Map) (keys : List String) :
    (m.Add keys).keys.Sorted (fun a b => a ≤ b) := by
  unfold Map.Add sortInts
  exact List.sorted_insertionSort _ _

theorem foldl_Add_sorted (adds : List (List String)) :
    ∀ m : Map, m.keys.Sorted (fun a b => a ≤ b) →
      (adds.foldl Map.Add m).keys.Sorted (fun a b => a ≤ b) := by
  induction adds with
  | nil => intro m h; exact h
  | cons a rest ih => intro m _; exact ih _ (Add_sorted m a)

theorem ring_sorted (replicas : Int) (fn : Option Hash) (adds : List (List String)) :
    (ring replicas fn adds).keys.Sorted (fun a b => a ≤ b) := by
  unfold ring
  apply foldl_Add_sorted
  simp [New]

theorem Get_eq_lookupRef_of_sorted (m : Map) (hs : m.keys.Sorted (fun a b => a ≤ b))
    (key : String) : m.Get key = m.lookupRef key := by
  unfold Map.Get Map.lookupRef
  by_cases hne : m.keys = []
  · simp [hne, least]
  · have hlen : ¬ m.keys.length = 0 := fun h => hne (List.length_eq_zero.1 h)
    simp only [hlen, if_false]
    have := getD_Search hs hne (m.hashOf key)
    cases hl : least (m.keys.filter (fun p => decide (m.hashOf key ≤ p))) with
    | some p =>
      rw [hl] at this
      simp only [Option.some.injEq] at this
      rw [← this]
    | none =>
      rw [hl] at this
      simp only at this
      rw [this]

/-- C5: on every ring made by `New` and any sequence of calls of `Add`, `Get`
returns the empty string when the ring has no virtual point; otherwise it
returns the owner recorded for the smallest virtual point that is at least
`hash(key)`, and when there is none, the owner recorded for the smallest virtual
point of the ring.  So the binary search with `idx % len(keys)` agrees with the
linear reference lookup `lookupRef`. -/
theorem C5_Get_agrees_with_linear_lookup (replicas : Int) (fn : Option Hash)
    (adds : List (List String)) (key : String) :
    (ring replicas fn adds).Get key = (ring replicas fn adds).lookupRef key ∧
    ((ring replicas fn adds).keys = [] → (ring replicas fn adds).Get key = "") ∧
    (∀ p ∈ (ring replicas fn adds).keys, (ring replicas fn adds).hashOf key ≤ p →
      (∀ q ∈ (ring replicas fn adds).keys, (ring replicas fn adds).hashOf key ≤ q → p ≤ q) →
      (ring replicas fn adds).Get key = (ring replicas fn adds).hashMap p) ∧
    (∀ p ∈ (ring replicas fn adds).keys,
      (∀ q ∈ (ring replicas fn adds).keys, q < (ring replicas fn adds).hashOf key) →
      (∀ q ∈ (ring replicas fn adds).keys, p ≤ q) →
      (ring replicas fn adds).Get key = (ring replicas fn adds).hashMap p) := by
  have hs := ring_sorted replicas fn adds
  generalize ring replicas fn adds = m at hs
  have heq := Get_eq_lookupRef_of_sorted m hs key
  refine ⟨heq, ?_, ?_, ?_⟩
  · intro h0
    simp [Map.Get, h0]
  · intro p hp hge hmin
    rw [heq]
    unfold Map.lookupRef
    have : least (m.keys.filter (fun p => decide (m.hashOf key ≤ p))) = some p := by
      apply least_of_min
      · rw [List.mem_filter]; exact ⟨hp, by simpa using hge⟩
      · intro q hq
        rw [List.mem_filter] at hq
        exact hmin q hq.1 (by simpa using hq.2)
    rw [this]
  · intro p hp hall hmin
    rw [heq]
    unfold Map.lookupRef
    have h1 : m.keys.filter (fun p => decide (m.hashOf key ≤ p)) = [] := by
      rw [List.filter_eq_nil_iff]
      intro q hq
      have := hall q hq
      simpa using this
    rw [h1, least_of_min hp hmin]
    simp [least]


theorem C5_Get_agrees_with_linear_lookup_witness :
    (ring 3 (some digits) [["6", "4", "2"], ["8"]]).Get "27" =
      (ring 3 (some digits) [["6", "4", "2"], ["8"]]).lookupRef "27" ∧
    (ring 3 (some digits) [["6", "4", "2"], ["8"]]).Get "27" = "8" ∧
    (ring 3 (some digits) [["6", "4", "2"], ["8"]]).Get "29" = "2" :=
  ⟨(C5_Get_agrees_with_linear_lookup 3 (some digits) [["6", "4", "2"], ["8"]] "27").1,
    by decide, by decide⟩

end consistenthash

/-! ## The group -/

namespace lru

theorem Get_snd_eq_none {V : Type} {c : Cache V} {key : String} (h : (c.Get key).2 = none) :
    GoMap.lookup key c.cache = none := by
  cases hl : GoMap.lookup key c.cache with
  | none => rfl
  | some ele =>
    rw [Get_hit hl] at h
    cases h

end lru

namespace geecache

theorem withCalls_nil (g : Group) : g.withCalls [] = g := by
  simp [Group.withCalls]

theorem Get_of_hit (sched : List lru.RangeOrder) (g : Group) {key : String} {v : ByteView}
    (hk : key ≠ "") (hhit : (g.mainCache.lru.Get key).2 = some v) :
    g.Get sched key =
      some ({ g with mainCache := { g.mainCache with lru := (g.mainCache.lru.Get key).1 } },
        (v, none)) := by
  simp [Group.Get, hk, cache.get, hhit]

theorem Get_of_miss (sched : List lru.RangeOrder) (g : Group) {key : String}
    (hk : key ≠ "") (hmiss : (g.mainCache.lru.Get key).2 = none) :
    g.Get sched key = g.load sched key := by
  have h1 : g.mainCache.lru.Get key = (g.mainCache.lru, none) :=
    lru.Get_miss (lru.Get_snd_eq_none hmiss)
  simp [Group.Get, hk, cache.get, h1]

theorem getLocally_error (sched : List lru.RangeOrder) (g : Group) {key : String} {e : Error}
    (h : g.getter.Get g.calls key = .error e) :
    g.getLocally sched key = some (g.withCalls [Call.getter key], (⟨[]⟩, some e)) := by
  simp [Group.getLocally, h, Group.withCalls]

theorem getLocally_ok (sched : List lru.RangeOrder) (g : Group) {key : String} {bytes : Bytes}
    (h : g.getter.Get g.calls key = .ok bytes) :
    g.getLocally sched key =
      (g.mainCache.lru.Add sched key ⟨bytes⟩).map (fun s =>
        ({ g.withCalls [Call.getter key] with
            mainCache := { g.mainCache with lru := s } }, (⟨bytes⟩, none))) := by
  simp only [Group.getLocally, h, Group.populateCache, cache.add, cloneBytes, Group.withCalls]
  cases g.mainCache.lru.Add sched key ⟨bytes⟩ <;> rfl

/-- When no peer serves the key, `load` is `getLocally` after the calls to the
picker and the peer. -/
theorem load_of_no_peer (sched : List lru.RangeOrder) (g : Group) {key : String}
    (h : g.peerAnswer key = none ∨ ∃ pe, g.peerAnswer key = some (.error pe)) :
    g.load sched key = (g.withCalls (g.peerCalls key)).getLocally sched key := by
  have hfin : ∀ (g' : Group),
      (match (g'.getLocally sched key).map (fun r => (r, (⟨[]⟩ : ByteView))) with
        | some ((g1, (viewi, none)), _) => some (g1, (viewi, none))
        | some ((g1, (_, some err)), value) => some (g1, (value, some err))
        | none => none) = g'.getLocally sched key := by
    intro g'
    unfold Group.getLocally
    cases g'.getter.Get g'.calls key with
    | error e => rfl
    | ok bytes =>
      simp only []
      cases (Group.populateCache sched _ key _) <;> rfl
  obtain ⟨name, getter, mainCache, peers, loader, calls⟩ := g
  unfold Group.load singleflight.Group.Do Group.loadFn
  unfold Group.peerAnswer at h
  unfold Group.peerCalls
  cases peers with
  | none =>
    simp only [withCalls_nil]
    exact hfin _
  | some peers =>
    simp only at h ⊢
    cases hpick : peers.PickPeer calls key with
    | none =>
      simp only [Group.withCalls]
      exact hfin _
    | some peer =>
      rw [hpick] at h
      simp only [reduceCtorEq, Option.some.injEq, false_or] at h
      obtain ⟨pe, hpe⟩ := h
      simp only [Group.getFromPeer, hpe, Group.withCalls, List.append_assoc, List.singleton_append]
      exact hfin _


/-- C8: `Get("")` returns the error `key is required` with an empty `ByteView`
and leaves the group as it was: the store with its recency order, frequency
counters and byte counter is untouched, and no call is made to the getter, the
picker or a peer. -/
theorem C8_Get_empty_key_fails_without_effect (sched : List lru.RangeOrder) (g : Group) :
    g.Get sched "" = some (g, (⟨[]⟩, some "key is required")) := by
  simp [Group.Get]

/-- C9: for a non-empty key that misses the local store, when no peer serves
the key (no picker, no peer picked, or the picked peer fails) and the getter
returns the error `e`, `Get` returns `e` with an empty `ByteView`; the only
change of the group is the record of the calls made, with one call of the
getter, so the local store is unchanged and the key still misses it. -/
theorem C9_getter_error_is_returned_and_not_cached (sched : List lru.RangeOrder) (g : Group)
    (key : String) (e : Error) (hk : key ≠ "")
    (hmiss : (g.mainCache.lru.Get key).2 = none)
    (hpeer : g.peerAnswer key = none ∨ ∃ pe, g.peerAnswer key = some (.error pe))
    (hget : g.getter.Get (g.calls ++ g.peerCalls key) key = .error e) :
    g.Get sched key =
      some (g.withCalls (g.peerCalls key ++ [Call.getter key]), (⟨[]⟩, some e)) ∧
    (g.withCalls (g.peerCalls key ++ [Call.getter key])).mainCache = g.mainCache ∧
    ((g.withCalls (g.peerCalls key ++ [Call.getter key])).mainCache.lru.Get key).2 = none := by
  refine ⟨?_, rfl, hmiss⟩
  rw [Get_of_miss sched g hk hmiss, load_of_no_peer sched g hpeer]
  have h2 : (g.withCalls (g.peerCalls key)).getter.Get (g.withCalls (g.peerCalls key)).calls key =
      .error e := hget
  rw [getLocally_error sched _ h2]
  simp [Group.withCalls]

theorem C9_getter_error_is_returned_and_not_cached_witness :
    (sampleGroup lru.EvictionPolicy.LRU 64).Get [] "Jack" =
      some ((sampleGroup lru.EvictionPolicy.LRU 64).withCalls
        ((sampleGroup lru.EvictionPolicy.LRU 64).peerCalls "Jack" ++ [Call.getter "Jack"]),
        (⟨[]⟩, some "not exist")) :=
  (C9_getter_error_is_returned_and_not_cached [] (sampleGroup lru.EvictionPolicy.LRU 64) "Jack"
    "not exist" (by decide) (by decide) (Or.inl (by rfl)) (by rfl)).1

end geecache

namespace lru

/-- Under the recency policy the eviction loop ends, within as many iterations
as there are entries behind the front one, before it reaches a front entry that
fits the capacity on its own. -/
theorem evictLoop_LRU_keeps_front {V : Type} [Value V] (sched : List RangeOrder) :
    ∀ (c : Cache V) (p : String × V) (rest : List (String × V)), c.WF →
      c.evictionType = EvictionPolicy.LRU → c.view = p :: rest →
      viewSize [p] ≤ c.maxBytes → rest.length ≤ sched.length →
      ∃ (c' : Cache V) (rest' : List (String × V)),
        Cache.evictLoop sched c = some c' ∧ c'.WF ∧ c'.view = p :: rest' := by
  induction sched with
  | nil =>
    intro c p rest hw hp hv hfit hlen
    have hr : rest = [] := List.length_eq_zero.1 (Nat.le_zero.1 hlen)
    subst hr
    have ho : c.over = false := by
      rw [over_false_iff, nbytes_eq_viewSize hw, hv]
      exact Or.inr hfit
    exact ⟨c, [], evictLoop_of_not_over _ ho, hw, hv⟩
  | cons o s ih =>
    intro c p rest hw hp hv hfit hlen
    cases ho : c.over with
    | false => exact ⟨c, rest, evictLoop_of_not_over _ ho, hw, hv⟩
    | true =>
      rw [evictLoop_of_over o s ho, evict_of_LRU hp]
      have hne : rest ≠ [] := by
        rintro rfl
        rw [over_iff, nbytes_eq_viewSize hw, hv] at ho
        exact absurd ho.2 (not_lt.2 hfit)
      have hv' : c.RemoveOldest.view = p :: rest.dropLast := by
        rw [view_RemoveOldest hw, hv]
        cases rest with
        | nil => exact absurd rfl hne
        | cons a r => rfl
      have hcfg := evict_config c o
      rw [evict_of_LRU hp] at hcfg
      have hlen' : rest.dropLast.length ≤ s.length := by
        rw [List.length_dropLast]
        simp only [List.length_cons] at hlen
        omega
      exact ih c.RemoveOldest p rest.dropLast (RemoveOldest_WF hw) (hcfg.2.1.trans hp) hv'
        (by rw [hcfg.1]; exact hfit) hlen'

/-- A key that misses the store is kept by `Add` when the store is unbounded,
when the new entry fits beside the others, or when the store evicts by recency
and the entry fits on its own. -/
theorem Add_keeps_new_key {V : Type} [Value V] (sched : List RangeOrder) (c : Cache V)
    (key : String) (value : V) (hw : c.WF) (hmiss : (c.Get key).2 = none)
    (hfit : c.maxBytes = 0 ∨ c.nbytes + entrySize ⟨key, value⟩ ≤ c.maxBytes ∨
      (c.evictionType = EvictionPolicy.LRU ∧ entrySize ⟨key, value⟩ ≤ c.maxBytes))
    (hlen : c.Length ≤ (sched.length : Int)) :
    ∃ c' : Cache V, c.Add sched key value = some c' ∧ c'.WF ∧
      (c'.Get key).2 = some value := by
  have hl := Get_snd_eq_none hmiss
  have hw1 := addEntry_WF hw key value
  have hv1 : (c.addEntry key value).view = (key, value) :: c.view := by
    rw [view_addEntry hw]
    congr 1
    rw [List.filter_eq_self]
    intro p hp
    simpa using view_keys_ne hw hl p hp
  have hcfg := addEntry_config c key value
  have hfin : ∀ c' : Cache V, c'.WF → (∃ rest, c'.view = (key, value) :: rest) →
      (c'.Get key).2 = some value := by
    intro c' hw' ⟨rest, hv'⟩
    rw [Get_result hw', hv']
    simp [GoMap.lookup]
  have hnb : (c.addEntry key value).nbytes = c.nbytes + entrySize ⟨key, value⟩ := by
    rw [nbytes_eq_viewSize hw1, hv1, nbytes_eq_viewSize hw]
    simp only [viewSize, List.map_cons, List.sum_cons, entrySize]
    ring
  have direct : (c.addEntry key value).over = false →
      ∃ c' : Cache V, c.Add sched key value = some c' ∧ c'.WF ∧ (c'.Get key).2 = some value := by
    intro ho
    exact ⟨_, evictLoop_of_not_over sched ho, hw1, hfin _ hw1 ⟨_, hv1⟩⟩
  rcases hfit with h0 | hsum | ⟨hp, hone⟩
  · apply direct
    rw [over_false_iff, hcfg.1]
    exact Or.inl h0
  · apply direct
    rw [over_false_iff, hcfg.1, hnb]
    exact Or.inr hsum
  · have hlen' : c.view.length ≤ sched.length := by
      rw [Length_eq_view] at hlen
      exact_mod_cast hlen
    obtain ⟨c', rest', h1, h2, h3⟩ := evictLoop_LRU_keeps_front sched (c.addEntry key value)
      (key, value) c.view hw1 (hcfg.2.1.trans hp) hv1
      (by rw [hcfg.1]; simpa [viewSize, entrySize] using hone) hlen'
    exact ⟨c', h1, h2, hfin c' h2 ⟨rest', h3⟩⟩

end lru

namespace geecache

theorem load_of_peer_ok (sched : List lru.RangeOrder) (g : Group) {key : String} {v : Bytes}
    (h : g.peerAnswer key = some (.ok v)) :
    g.load sched key =
      some (g.withCalls [Call.pickPeer key, Call.peerGet g.name key], (⟨v⟩, none)) := by
  obtain ⟨name, getter, mainCache, peers, loader, calls⟩ := g
  unfold Group.load singleflight.Group.Do Group.loadFn
  unfold Group.peerAnswer at h
  cases peers with
  | none => simp at h
  | some peers =>
    simp only at h ⊢
    cases hpick : peers.PickPeer calls key with
    | none => rw [hpick] at h; simp at h
    | some peer =>
      rw [hpick] at h
      simp only [Option.some.injEq] at h
      simp only [Group.getFromPeer, h, Group.withCalls, List.append_assoc, List.singleton_append]

/-- What a call of `Get` that returns does to the store of the group. -/
theorem Get_mainCache {sched : List lru.RangeOrder} {g g' : Group} {key : String}
    {r : ByteView × Option Error} (h : g.Get sched key = some (g', r)) :
    g'.mainCache.cacheBytes = g.mainCache.cacheBytes ∧
    (g'.mainCache.lru = g.mainCache.lru ∨ g'.mainCache.lru = (g.mainCache.lru.Get key).1 ∨
      ∃ v, g.mainCache.lru.Add sched key v = some g'.mainCache.lru) := by
  by_cases hk : key = ""
  · subst hk
    simp only [Group.Get, if_true] at h
    cases h
    exact ⟨rfl, Or.inl rfl⟩
  · cases hget : (g.mainCache.lru.Get key).2 with
    | some v =>
      rw [Get_of_hit sched g hk hget] at h
      cases h
      exact ⟨rfl, Or.inr (Or.inl rfl)⟩
    | none =>
      rw [Get_of_miss sched g hk hget] at h
      have hlocal : ∀ cs, (g.withCalls cs).getLocally sched key = some (g', r) →
          g'.mainCache.cacheBytes = g.mainCache.cacheBytes ∧
          (g'.mainCache.lru = g.mainCache.lru ∨ g'.mainCache.lru = (g.mainCache.lru.Get key).1 ∨
            ∃ v, g.mainCache.lru.Add sched key v = some g'.mainCache.lru) := by
        intro cs hloc
        cases hg : (g.withCalls cs).getter.Get (g.withCalls cs).calls key with
        | error e =>
          rw [getLocally_error sched _ hg] at hloc
          cases hloc
          exact ⟨rfl, Or.inl rfl⟩
        | ok bytes =>
          rw [getLocally_ok sched _ hg] at hloc
          have hmc : (g.withCalls cs).mainCache = g.mainCache := rfl
          rw [hmc] at hloc
          cases hadd : g.mainCache.lru.Add sched key ⟨bytes⟩ with
          | none => rw [hadd] at hloc; cases hloc
          | some s =>
            rw [hadd] at hloc
            cases hloc
            exact ⟨rfl, Or.inr (Or.inr ⟨⟨bytes⟩, hadd⟩)⟩
      cases hans : g.peerAnswer key with
      | none =>
        rw [load_of_no_peer sched g (Or.inl hans)] at h
        exact hlocal _ h
      | some a =>
        cases a with
        | error pe =>
          rw [load_of_no_peer sched g (Or.inr ⟨pe, hans⟩)] at h
          exact hlocal _ h
        | ok v =>
          rw [load_of_peer_ok sched g hans] at h
          cases h
          exact ⟨rfl, Or.inl rfl⟩


theorem Sound_Get {sched : List lru.RangeOrder} {g g' : Group} {key : String}
    {r : ByteView × Option Error} (hs : g.Sound) (h : g.Get sched key = some (g', r)) :
    g'.Sound := by
  obtain ⟨hc, hcase⟩ := Get_mainCache h
  unfold Group.Sound
  rw [hc]
  rcases hcase with h1 | h1 | ⟨v, h1⟩
  · rw [h1]; exact hs
  · rw [h1]; exact ⟨lru.Get_WF hs.1 key, (lru.Get_config _ key).1.trans hs.2⟩
  · exact ⟨lru.Add_WF hs.1 h1, (lru.Add_config h1).1.trans hs.2⟩

theorem Sound_step {g g' : Group} (hs : g.Sound) (op : GroupOp) (h : g.step op = some g') :
    g'.Sound := by
  cases op with
  | get sched key =>
    simp only [Group.step] at h
    cases hg : g.Get sched key with
    | none => rw [hg] at h; cases h
    | some p =>
      obtain ⟨g1, r⟩ := p
      rw [hg] at h
      simp only [Option.map_some', Option.some.injEq] at h
      subst h
      exact Sound_Get hs hg
  | registerPeers peers =>
    simp only [Group.step, Group.RegisiterPeers] at h
    cases hp : g.peers with
    | some p => rw [hp] at h; cases h
    | none =>
      rw [hp] at h
      simp only [Option.some.injEq] at h
      subst h
      exact hs

theorem Sound_run (ops : List GroupOp) :
    ∀ {g g' : Group}, g.Sound → g.run ops = some g' → g'.Sound := by
  induction ops with
  | nil =>
    intro g g' hs h
    simp only [Group.run, Option.some.injEq] at h
    subst h
    exact hs
  | cons op ops ih =>
    intro g g' hs h
    simp only [Group.run] at h
    cases hst : g.step op with
    | none => rw [hst] at h; cases h
    | some g1 =>
      rw [hst] at h
      exact ih (Sound_step hs op hst) h

theorem GroupReachable.sound {g : Group} (h : GroupReachable g) : g.Sound := by
  obtain ⟨groups, policy, name, cacheBytes, getter, groups1, g0, ops, hnew, hrun⟩ := h
  simp only [NewGroup, Except.ok.injEq, Prod.mk.injEq] at hnew
  obtain ⟨-, rfl⟩ := hnew
  exact Sound_run ops ⟨lru.New_WF _ _ _, rfl⟩ hrun

end geecache

/-! ## Agreement of the list, the lookup map and the frequency map -/

namespace lru

theorem keys_ll_nodup {V : Type} [Value V] {c : Cache V} (h : c.WF) :
    (c.ll.map (fun e => (c.elems e).key)).Nodup := by
  refine List.Nodup.map_on ?_ h.ll_nodup
  intro a ha b hb hk
  exact key_inj h ha hb hk

theorem keys_cache_perm {V : Type} [Value V] {c : Cache V} (h : c.WF) :
    (GoMap.keys c.cache).Perm (c.ll.map (fun e => (c.elems e).key)) := by
  refine (List.perm_ext_iff_of_nodup h.cache_nodup (keys_ll_nodup h)).2 ?_
  intro k
  rw [mem_keys_cache h, List.mem_map]

theorem keys_freq_perm {V : Type} [Value V] {c : Cache V} (h : c.WF) :
    (GoMap.keys c.freqMap).Perm (GoMap.keys c.cache) :=
  (List.perm_ext_iff_of_nodup h.freq_nodup h.cache_nodup).2 h.freq_cache

/-- C18: in every state reachable from `New` by calls of `Add`, `Get` and
`RemoveOldest` under either policy, the three structures agree.  The recency
list holds every element once and every live key once; the lookup map holds
every key once, its keys are the keys of the list, and it maps a key to an
element exactly when that element is in the list and carries the key; the
frequency map holds every key once, has the keys of the lookup map, and every
counter is at least 1; `Length()` is the number of keys of either map. -/
theorem C18_list_and_maps_agree {V : Type} [Value V] [Inhabited V] (c : Cache V)
    (h : Reachable c) :
    c.ll.Nodup ∧ (c.ll.map (fun e => (c.elems e).key)).Nodup ∧
    (GoMap.keys c.cache).Nodup ∧
    (GoMap.keys c.cache).Perm (c.ll.map (fun e => (c.elems e).key)) ∧
    (∀ k e, GoMap.lookup k c.cache = some e ↔ e ∈ c.ll ∧ (c.elems e).key = k) ∧
    (GoMap.keys c.freqMap).Nodup ∧ (GoMap.keys c.freqMap).Perm (GoMap.keys c.cache) ∧
    (∀ k f, GoMap.lookup k c.freqMap = some f → 1 ≤ f) ∧
    c.Length = ((GoMap.keys c.cache).length : Int) ∧
    c.Length = ((GoMap.keys c.freqMap).length : Int) := by
  have hw := h.wf
  have h1 := keys_cache_perm hw
  have h2 := keys_freq_perm hw
  refine ⟨hw.ll_nodup, keys_ll_nodup hw, hw.cache_nodup, h1, hw.cache_ll, hw.freq_nodup, h2,
    hw.freq_pos, ?_, ?_⟩
  · rw [h1.length_eq, List.length_map]; rfl
  · rw [h2.length_eq, h1.length_eq, List.length_map]; rfl

theorem C18_list_and_maps_agree_witness :
    ∃ c : Cache String,
      (New 12 EvictionPolicy.LFU true).run
        [Op.add [] "key1" "123456", Op.add [] "key1" "12", Op.get "key1",
          Op.add [RangeOrder.stored] "k2" "123456", Op.add [RangeOrder.stored] "k3" "1",
          Op.removeOldest] = some c ∧
      (GoMap.keys c.freqMap).Perm (GoMap.keys c.cache) ∧
      c.Length = ((GoMap.keys c.cache).length : Int) := by
  have h : ((New 12 EvictionPolicy.LFU true : Cache String).run
      [Op.add [] "key1" "123456", Op.add [] "key1" "12", Op.get "key1",
        Op.add [RangeOrder.stored] "k2" "123456", Op.add [RangeOrder.stored] "k3" "1",
        Op.removeOldest]).isSome = true := by decide
  obtain ⟨c, hc⟩ := Option.isSome_iff_exists.1 h
  have := C18_list_and_maps_agree c ⟨12, EvictionPolicy.LFU, true, _, hc⟩
  exact ⟨c, hc, this.2.2.2.2.2.2.1, this.2.2.2.2.2.2.2.2.1⟩

end lru

/-! ## The unbounded store -/

namespace GoMap

theorem filter_ne_eq_delete {α : Type} (key : String) (m : List (String × α)) :
    m.filter (fun p => decide (p.1 ≠ key)) = delete key m := by
  induction m with
  | nil => rfl
  | cons p m ih =>
    obtain ⟨k', v'⟩ := p
    by_cases h1 : k' = key
    · rw [List.filter_cons_of_neg (by simp [h1]), ih]
      simp [delete, h1]
    · rw [List.filter_cons_of_pos (by simp [h1]), ih]
      simp [delete, h1]

theorem lookup_filter_ne {α : Type} {k key : String} (m : List (String × α)) (h : k ≠ key) :
    lookup k (m.filter (fun p => decide (p.1 ≠ key))) = lookup k m := by
  rw [filter_ne_eq_delete, lookup_delete_ne m h]

theorem lookup_filter_self {α : Type} (key : String) (m : List (String × α)) :
    lookup key (m.filter (fun p => decide (p.1 ≠ key))) = none := by
  rw [lookup_eq_none_iff]
  intro hm
  obtain ⟨p, hp, rfl⟩ := List.mem_map.1 hm
  simpa using (List.mem_filter.1 hp).2

end GoMap

namespace lru

theorem Get_addEntry {V : Type} [Value V] {c : Cache V} (h : c.WF) (key : String) (value : V)
    (k : String) :
    ((c.addEntry key value).Get k).2 = if key = k then some value else (c.Get k).2 := by
  rw [Get_result (addEntry_WF h key value), view_addEntry h, Get_result h]
  by_cases hk : key = k
  · subst hk
    simp [GoMap.lookup]
  · have hk' : k ≠ key := fun e => hk e.symm
    simp only [GoMap.lookup, hk, if_false]
    exact GoMap.lookup_filter_ne _ hk'

theorem gone_addEntry {V : Type} [Value V] (c : Cache V) (key : String) (value : V) :
    c.gone (c.addEntry key value) = [] := by
  rcases ll_addEntry c key value with ⟨hp, -⟩ | ⟨hp, -⟩
  · exact gone_of_subset (fun e he => hp.mem_iff.2 he)
  · exact gone_of_subset (fun e he => by rw [hp]; exact List.mem_cons_of_mem _ he)

theorem loopGone_of_not_over {V : Type} [Value V] (sched : List RangeOrder) {c : Cache V}
    (h : c.over = false) : Cache.loopGone sched c = [] := by
  unfold Cache.loopGone
  simp [h]

theorem over_of_unbounded {V : Type} {c : Cache V} (h : c.maxBytes = 0) : c.over = false :=
  (over_false_iff c).2 (Or.inl h)

/-- On an unbounded store a sequence of calls of `Add` returns, removes nothing
and leaves every key with the value last added for it. -/
theorem unbounded_adds {V : Type} [Value V] (adds : List (List RangeOrder × String × V)) :
    ∀ (c : Cache V), c.WF → c.maxBytes = 0 →
      ∃ c' : Cache V, c.run (addOps adds) = some c' ∧ c'.WF ∧
        c.removedLog (addOps adds) = [] ∧
        ∀ k, (c'.Get k).2 = match lastAdded adds k with
          | some v => some v
          | none => (c.Get k).2 := by
  induction adds with
  | nil =>
    intro c hw _
    exact ⟨c, rfl, hw, rfl, fun k => rfl⟩
  | cons a rest ih =>
    intro c hw hm
    obtain ⟨sched, key, value⟩ := a
    have hm1 : (c.addEntry key value).maxBytes = 0 := (addEntry_config c key value).1.trans hm
    have ho := over_of_unbounded hm1
    have hadd : c.Add sched key value = some (c.addEntry key value) :=
      evictLoop_of_not_over sched ho
    obtain ⟨c', hrun, hw', hlog, hget⟩ := ih (c.addEntry key value) (addEntry_WF hw key value) hm1
    refine ⟨c', ?_, hw', ?_, ?_⟩
    · simp only [addOps, List.map_cons, Cache.run, Cache.step, hadd, Option.some_bind]
      exact hrun
    · simp only [addOps, List.map_cons, Cache.removedLog, Cache.removedBy, Cache.step, hadd,
        gone_addEntry, loopGone_of_not_over sched ho, List.nil_append]
      exact hlog
    · intro k
      rw [hget k]
      simp only [lastAdded]
      cases lastAdded rest k with
      | some v => rfl
      | none =>
        simp only
        rw [Get_addEntry hw]
        by_cases hk : key = k <;> simp [hk]

/-- C12: on an unbounded store (`maxBytes = 0`, either policy) every sequence of
calls of `Add` returns and removes nothing; afterwards `Get(k)` returns the
value of the last `Add` for `k` when there was one and misses otherwise.  After
`Add("key1", "1234")` and `Add("key2", "1234")`, `Get("key1")` returns `1234`
and `Get("key2")` hits. -/
theorem C12_unbounded_store_keeps_every_key :
    (∀ (V : Type) [Value V] [Inhabited V] (evictionType : EvictionPolicy) (onEvicted : Bool)
      (adds : List (List RangeOrder × String × V)),
      ∃ c : Cache V, (New 0 evictionType onEvicted).run (addOps adds) = some c ∧
        (New 0 evictionType onEvicted : Cache V).removedLog (addOps adds) = [] ∧
        ∀ k, (c.Get k).2 = lastAdded adds k) ∧
    ((New 0 EvictionPolicy.LRU false : Cache String).run
        (addOps [([], "key1", "1234"), ([], "key2", "1234")])).map
      (fun c => ((c.Get "key1").2, ((c.Get "key1").1.Get "key2").2.isSome)) =
      some (some "1234", true) := by
  constructor
  · intro V _ _ evictionType onEvicted adds
    obtain ⟨c, hrun, -, hlog, hget⟩ := unbounded_adds adds
      (New 0 evictionType onEvicted : Cache V) (New_WF 0 evictionType onEvicted) rfl
    refine ⟨c, hrun, hlog, ?_⟩
    intro k
    rw [hget k]
    cases lastAdded adds k with
    | some v => rfl
    | none => rfl
  · decide

end lru

/-! ## An entry larger than the capacity -/

namespace lru

theorem viewSize_nonneg {V : Type} [Value V] (v : List (String × V)) : 0 ≤ viewSize v := by
  unfold viewSize
  apply List.sum_nonneg
  intro x hx
  obtain ⟨p, -, rfl⟩ := List.mem_map.1 hx
  positivity

theorem viewSize_cons {V : Type} [Value V] (p : String × V) (v : List (String × V)) :
    viewSize (p :: v) = viewSize [p] + viewSize v := by
  simp [viewSize]

/-- Under the recency policy, when the front entry alone exceeds a positive
capacity, the eviction loop can only end on the empty store. -/
theorem evictLoop_LRU_empties {V : Type} [Value V] (p : String × V) (sched : List RangeOrder) :
    ∀ (c c' : Cache V), c.WF → c.evictionType = EvictionPolicy.LRU → 0 < c.maxBytes →
      c.maxBytes < viewSize [p] → (c.view = [] ∨ ∃ rest, c.view = p :: rest) →
      Cache.evictLoop sched c = some c' → c'.WF ∧ c'.view = [] := by
  induction sched with
  | nil =>
    intro c c' hw hp hm hbig hv hr
    unfold Cache.evictLoop at hr
    split at hr
    · cases hr
    · rename_i hov
      cases hr
      refine ⟨hw, ?_⟩
      rcases hv with h0 | ⟨rest, hrest⟩
      · exact h0
      · exfalso
        have ho : c.over = false := by simpa using hov
        rw [over_false_iff, nbytes_eq_viewSize hw, hrest, viewSize_cons] at ho
        have := viewSize_nonneg rest
        rcases ho with h1 | h1 <;> omega
  | cons o s ih =>
    intro c c' hw hp hm hbig hv hr
    cases ho : c.over with
    | false =>
      rw [evictLoop_of_not_over _ ho] at hr
      cases hr
      refine ⟨hw, ?_⟩
      rcases hv with h0 | ⟨rest, hrest⟩
      · exact h0
      · exfalso
        rw [over_false_iff, nbytes_eq_viewSize hw, hrest, viewSize_cons] at ho
        have := viewSize_nonneg rest
        rcases ho with h1 | h1 <;> omega
    | true =>
      rw [evictLoop_of_over o s ho, evict_of_LRU hp] at hr
      have hcfg := evict_config c o
      rw [evict_of_LRU hp] at hcfg
      refine ih c.RemoveOldest c' (RemoveOldest_WF hw) (hcfg.2.1.trans hp)
        (by rw [hcfg.1]; exact hm) (by rw [hcfg.1]; exact hbig) ?_ hr
      rw [view_RemoveOldest hw]
      rcases hv with h0 | ⟨rest, hrest⟩
      · left; rw [h0]; rfl
      · rw [hrest]
        cases rest with
        | nil => left; rfl
        | cons a r => right; exact ⟨(a :: r).dropLast, rfl⟩

theorem reverse_of_length_le_one {α : Type} (l : List α) (h : l.length ≤ 1) : l.reverse = l := by
  cases l with
  | nil => rfl
  | cons a t =>
    cases t with
    | nil => rfl
    | cons b u => simp at h

theorem loopGone_of_over {V : Type} [Value V] (order : RangeOrder) (rest : List RangeOrder)
    {c : Cache V} (h : c.over = true) :
    Cache.loopGone (order :: rest) c =
      c.gone (c.evict order) ++ Cache.loopGone rest (c.evict order) := by
  rw [Cache.loopGone]
  simp [h]

/-- One call of `RemoveOldest` takes the entry at the back off the list: that
entry, if there is one, is what the call removes and what the hook is told. -/
theorem view_gone_RemoveOldest {V : Type} [Value V] {c : Cache V} (h : c.WF) :
    c.view = c.RemoveOldest.view ++ (c.gone c.RemoveOldest).map Prod.snd ∧
    (c.gone c.RemoveOldest).length ≤ 1 ∧
    c.RemoveOldest.evicted =
      c.evicted ++ (if c.OnEvicted then (c.gone c.RemoveOldest).map Prod.snd else []) := by
  cases hl : c.ll.getLast? with
  | none =>
    have hR : c.RemoveOldest = c := by rw [RemoveOldest_eq, hl]
    rw [hR, gone_of_subset (fun e he => he)]
    simp
  | some ele =>
    have he := List.mem_of_getLast?_eq_some hl
    have hR : c.RemoveOldest = c.dropElem ele := by rw [RemoveOldest_eq, hl]
    have hg : c.gone c.RemoveOldest = [(ele, c.payload ele)] := by
      rw [hR]
      exact gone_dropElem h he
    obtain ⟨ys, hys⟩ := List.getLast?_eq_some_iff.1 hl
    have hv : c.view = ys.map c.payload ++ [c.payload ele] := by
      unfold Cache.view
      rw [hys]
      simp [Cache.payload]
    refine ⟨?_, ?_, ?_⟩
    · rw [hg, view_RemoveOldest h, hv]
      simp
    · rw [hg]
      simp
    · rw [hg, hR, evicted_dropElem]
      rfl

/-- Under the recency policy the eviction loop removes the entries from the
back of the list, one per iteration: the entries it has removed, oldest first,
followed by the entries that stay are the entries it started with, and the hook
is told the removed entries in removal order. -/
theorem evictLoop_LRU_removed {V : Type} [Value V] (sched : List RangeOrder) :
    ∀ (c c' : Cache V), c.WF → c.evictionType = EvictionPolicy.LRU →
      Cache.evictLoop sched c = some c' →
      c.view = c'.view ++ ((Cache.loopGone sched c).map Prod.snd).reverse ∧
      c'.evicted =
        c.evicted ++ (if c.OnEvicted then (Cache.loopGone sched c).map Prod.snd else []) := by
  induction sched with
  | nil =>
    intro c c' _ _ hr
    cases ho : c.over with
    | false =>
      rw [evictLoop_of_not_over _ ho] at hr
      cases hr
      rw [loopGone_of_not_over _ ho]
      simp
    | true =>
      unfold Cache.evictLoop at hr
      simp [ho] at hr
  | cons o s ih =>
    intro c c' hw hp hr
    cases ho : c.over with
    | false =>
      rw [evictLoop_of_not_over _ ho] at hr
      cases hr
      rw [loopGone_of_not_over _ ho]
      simp
    | true =>
      rw [evictLoop_of_over o s ho, evict_of_LRU hp] at hr
      rw [loopGone_of_over o s ho, evict_of_LRU hp]
      have hcfg := evict_config c o
      rw [evict_of_LRU hp] at hcfg
      obtain ⟨g1, g2, g3⟩ := view_gone_RemoveOldest hw
      obtain ⟨i1, i2⟩ := ih c.RemoveOldest c' (RemoveOldest_WF hw) (hcfg.2.1.trans hp) hr
      constructor
      · rw [List.map_append, List.reverse_append,
          reverse_of_length_le_one ((c.gone c.RemoveOldest).map Prod.snd)
            (by rw [List.length_map]; exact g2), ← List.append_assoc, ← i1]
        exact g1
      · rw [i2, g3, hcfg.2.2]
        by_cases hk : c.OnEvicted = true <;> simp [hk]

/-- C20: under the recency policy with `maxBytes > 0`, `Add` of a key that is
not live whose own entry size exceeds `maxBytes` returns, within one loop
iteration per entry, and leaves the store empty: no entry is live, `Length()`
is 0, `nbytes` is 0 and `Get` misses for every key.  The call removes every
entry that was live before it, from the least recently used one to the most
recently used one, and the new entry last, and a registered hook is told
exactly these entries in that order. -/
theorem C20_oversized_entry_empties_the_store {V : Type} [Value V] [Inhabited V]
    (maxBytes : Int) (onEvicted : Bool) (ops : List (Op V)) (c : Cache V) (key : String)
    (value : V)
    (hrun : (New maxBytes EvictionPolicy.LRU onEvicted).run ops = some c)
    (hpos : 0 < maxBytes) (hmiss : (c.Get key).2 = none)
    (hbig : maxBytes < entrySize ⟨key, value⟩) :
    (∀ (sched : List RangeOrder) (c' : Cache V), c.Add sched key value = some c' →
      c'.view = [] ∧ c'.Length = 0 ∧ c'.nbytes = 0 ∧ (∀ k, (c'.Get k).2 = none) ∧
      (c.removedBy (Op.add sched key value)).map Prod.snd = c.view.reverse ++ [(key, value)] ∧
      c'.evicted =
        c.evicted ++ (if onEvicted then c.view.reverse ++ [(key, value)] else [])) ∧
    (∀ sched : List RangeOrder, c.view.length + 1 ≤ sched.length →
      ∃ c' : Cache V, c.Add sched key value = some c') := by
  have hcfg := run_config ops hrun
  have hw := run_WF ops (New_WF maxBytes EvictionPolicy.LRU onEvicted) hrun
  have hm : c.maxBytes = maxBytes := hcfg.1
  have hp : c.evictionType = EvictionPolicy.LRU := hcfg.2.1
  have hcfg1 := addEntry_config c key value
  constructor
  · intro sched c' hadd
    have hv1 : (c.addEntry key value).view = (key, value) :: c.view := by
      rw [view_addEntry hw]
      congr 1
      rw [List.filter_eq_self]
      intro p hp'
      simpa using view_keys_ne hw (Get_snd_eq_none hmiss) p hp'
    obtain ⟨hw', hv'⟩ := evictLoop_LRU_empties (key, value) sched (c.addEntry key value) c'
      (addEntry_WF hw key value) (hcfg1.2.1.trans hp) (by rw [hcfg1.1, hm]; exact hpos)
      (by rw [hcfg1.1, hm]; simpa [viewSize, entrySize] using hbig) (Or.inr ⟨_, hv1⟩) hadd
    obtain ⟨hview, hev⟩ := evictLoop_LRU_removed sched (c.addEntry key value) c'
      (addEntry_WF hw key value) (hcfg1.2.1.trans hp) hadd
    have hL : (Cache.loopGone sched (c.addEntry key value)).map Prod.snd =
        c.view.reverse ++ [(key, value)] := by
      have h1 := congrArg List.reverse hview
      rw [hv1, hv', List.nil_append, List.reverse_reverse, List.reverse_cons] at h1
      exact h1.symm
    refine ⟨hv', ?_, ?_, ?_, ?_, ?_⟩
    · rw [Length_eq_view, hv']; rfl
    · rw [nbytes_eq_viewSize hw', hv']; rfl
    · intro k
      rw [Get_result hw', hv']; rfl
    · simp only [Cache.removedBy, gone_addEntry, List.nil_append]
      exact hL
    · rw [hev, evicted_addEntry, hcfg1.2.2, hcfg.2.2, hL]
      rfl
  · intro sched hlen
    exact Add_LRU_returns sched c key value hw hp (by rw [hm]; exact le_of_lt hpos) hlen

theorem C20_oversized_entry_empties_the_store_witness :
    ∃ c : Cache String,
      (New 10 EvictionPolicy.LRU true).run [Op.add [] "k1" "v1", Op.add [] "k2" "v2"] = some c ∧
      ∃ c' : Cache String,
        c.Add [RangeOrder.stored, RangeOrder.stored, RangeOrder.stored] "big" "0123456789" =
          some c' ∧
        c'.view = [] ∧ c'.Length = 0 ∧ c'.nbytes = 0 ∧ (∀ k, (c'.Get k).2 = none) ∧
        (c.removedBy (Op.add [RangeOrder.stored, RangeOrder.stored, RangeOrder.stored] "big"
          "0123456789")).map Prod.snd =
            [("k1", "v1"), ("k2", "v2"), ("big", "0123456789")] ∧
        c'.evicted = [("k1", "v1"), ("k2", "v2"), ("big", "0123456789")] := by
  have h : ((New 10 EvictionPolicy.LRU true : Cache String).run
      [Op.add [] "k1" "v1", Op.add [] "k2" "v2"]).isSome = true := by decide
  have hf : ((New 10 EvictionPolicy.LRU true : Cache String).run
      [Op.add [] "k1" "v1", Op.add [] "k2" "v2"]).map
        (fun c => ((c.Get "big").2, c.view, c.evicted)) =
          some (none, [("k2", "v2"), ("k1", "v1")], []) := by decide
  obtain ⟨c, hc⟩ := Option.isSome_iff_exists.1 h
  rw [hc] at hf
  simp only [Option.map_some', Option.some.injEq, Prod.mk.injEq] at hf
  obtain ⟨hmiss, hview, hevicted⟩ := hf
  have key := C20_oversized_entry_empties_the_store 10 true
    [Op.add [] "k1" "v1", Op.add [] "k2" "v2"] c "big" "0123456789" hc (by decide) hmiss
    (by decide)
  obtain ⟨c', hc'⟩ := key.2 [RangeOrder.stored, RangeOrder.stored, RangeOrder.stored]
    (by rw [hview]; decide)
  obtain ⟨k1, k2, k3, k4, k5, k6⟩ := key.1 _ c' hc'
  rw [hview] at k5 k6
  rw [hevicted] at k6
  exact ⟨c, hc, c', hc', k1, k2, k3, k4, k5, k6⟩

end lru

/-! ## Three entries in a store with room for two -/

namespace lru

/-- Three distinct keys `k1`, `k2`, `k3` with values of equal size, where `k3`
is not longer than `k1` and the third entry is not empty, in a store of the
recency policy with `maxBytes = len(k1) + len(v1) + len(k2) + len(v2)`: the
calls `Add(k1, v1)`, `Add(k2, v2)`, `Add(k3, v3)` return, the third after one
eviction, and then `Get(k1)` reports a miss, `k2` and `k3` are retrievable and
`Length()` is 2. -/
theorem three_adds_evict_the_first {V : Type} [Value V] [Inhabited V] (k1 k2 k3 : String)
    (v1 v2 v3 : V) (onEvicted : Bool) (s1 s2 s3 : List RangeOrder) (order : RangeOrder)
    (h12 : k1 ≠ k2) (h13 : k1 ≠ k3) (h23 : k2 ≠ k3)
    (hv12 : Value.Len v1 = Value.Len v2) (hv23 : Value.Len v2 = Value.Len v3)
    (hk : k3.utf8ByteSize ≤ k1.utf8ByteSize) (hne : 0 < k3.utf8ByteSize + Value.Len v3) :
    ∃ c : Cache V,
      (New (((k1.utf8ByteSize : Int) + (Value.Len v1 : Int)) +
          ((k2.utf8ByteSize : Int) + (Value.Len v2 : Int))) EvictionPolicy.LRU onEvicted).run
        [Op.add s1 k1 v1, Op.add s2 k2 v2, Op.add (order :: s3) k3 v3] = some c ∧
      (c.Get k1).2 = none ∧ (c.Get k2).2 = some v2 ∧ (c.Get k3).2 = some v3 ∧
      c.Length = 2 := by
  have h21 : k2 ≠ k1 := fun h => h12 h.symm
  have h31 : k3 ≠ k1 := fun h => h13 h.symm
  have h32 : k3 ≠ k2 := fun h => h23 h.symm
  have w0 : (New (((k1.utf8ByteSize : Int) + (Value.Len v1 : Int)) +
      ((k2.utf8ByteSize : Int) + (Value.Len v2 : Int))) EvictionPolicy.LRU onEvicted :
        Cache V).WF := New_WF _ _ _
  generalize hc0 : (New (((k1.utf8ByteSize : Int) + (Value.Len v1 : Int)) +
      ((k2.utf8ByteSize : Int) + (Value.Len v2 : Int))) EvictionPolicy.LRU onEvicted :
        Cache V) = c0 at w0 ⊢
  have v0 : c0.view = [] := by rw [← hc0]; rfl
  have m0 : c0.maxBytes = ((k1.utf8ByteSize : Int) + (Value.Len v1 : Int)) +
      ((k2.utf8ByteSize : Int) + (Value.Len v2 : Int)) := by rw [← hc0]; rfl
  have p0 : c0.evictionType = EvictionPolicy.LRU := by rw [← hc0]; rfl
  -- `Add(k1)`
  have w1 := addEntry_WF w0 k1 v1
  have v1' : (c0.addEntry k1 v1).view = [(k1, v1)] := by rw [view_addEntry w0, v0]; rfl
  have m1 := (addEntry_config c0 k1 v1).1.trans m0
  have o1 : (c0.addEntry k1 v1).over = false := by
    rw [over_false_iff, nbytes_eq_viewSize w1, v1', m1]
    simp only [viewSize, List.map_cons, List.map_nil, List.sum_cons, List.sum_nil]
    right; omega
  have a1 : c0.Add s1 k1 v1 = some (c0.addEntry k1 v1) := evictLoop_of_not_over s1 o1
  have p1 := (addEntry_config c0 k1 v1).2.1.trans p0
  set c1 := c0.addEntry k1 v1 with hc1
  -- `Add(k2)`
  have w2 := addEntry_WF w1 k2 v2
  have v2' : (c1.addEntry k2 v2).view = [(k2, v2), (k1, v1)] := by
    rw [view_addEntry w1, v1']; simp [h12]
  have m2 := (addEntry_config c1 k2 v2).1.trans m1
  have o2 : (c1.addEntry k2 v2).over = false := by
    rw [over_false_iff, nbytes_eq_viewSize w2, v2', m2]
    simp only [viewSize, List.map_cons, List.map_nil, List.sum_cons, List.sum_nil]
    right; omega
  have a2 : c1.Add s2 k2 v2 = some (c1.addEntry k2 v2) := evictLoop_of_not_over s2 o2
  have p2 := (addEntry_config c1 k2 v2).2.1.trans p1
  set c2 := c1.addEntry k2 v2 with hc2
  -- `Add(k3)`: one eviction
  have w3 := addEntry_WF w2 k3 v3
  have v3' : (c2.addEntry k3 v3).view = [(k3, v3), (k2, v2), (k1, v1)] := by
    rw [view_addEntry w2, v2']; simp [h23, h13]
  have m3 := (addEntry_config c2 k3 v3).1.trans m2
  have o3 : (c2.addEntry k3 v3).over = true := by
    rw [over_iff, nbytes_eq_viewSize w3, v3', m3]
    simp only [viewSize, List.map_cons, List.map_nil, List.sum_cons, List.sum_nil]
    have hA : k1 ≠ "" ∨ k2 ≠ "" := by
      by_cases hA : k1 = ""
      · exact Or.inr (fun h => h12 (hA.trans h.symm))
      · exact Or.inl hA
    have hpos : 0 < k1.utf8ByteSize + k2.utf8ByteSize := by
      rcases hA with h | h
      · have := utf8ByteSize_pos_of_ne h; omega
      · have := utf8ByteSize_pos_of_ne h; omega
    constructor <;> omega
  have p3 := (addEntry_config c2 k3 v3).2.1.trans p2
  have a3 : c2.Add (order :: s3) k3 v3 =
      Cache.evictLoop s3 ((c2.addEntry k3 v3).RemoveOldest) := by
    unfold Cache.Add
    rw [evictLoop_of_over order s3 o3, evict_of_LRU p3]
  set c3 := c2.addEntry k3 v3 with hc3
  have w4 := RemoveOldest_WF w3
  have v4 : c3.RemoveOldest.view = [(k3, v3), (k2, v2)] := by
    rw [view_RemoveOldest w3, v3']; rfl
  have m4 : c3.RemoveOldest.maxBytes = _ :=
    (evict_of_LRU p3 order ▸ (evict_config c3 order).1).trans m3
  have o4 : c3.RemoveOldest.over = false := by
    rw [over_false_iff, nbytes_eq_viewSize w4, v4, m4]
    simp only [viewSize, List.map_cons, List.map_nil, List.sum_cons, List.sum_nil]
    right; omega
  rw [evictLoop_of_not_over s3 o4] at a3
  refine ⟨c3.RemoveOldest, ?_, ?_, ?_, ?_, ?_⟩
  · simp only [Cache.run, Cache.step, a1, a2, a3, Option.some_bind, Option.bind_some]
  · rw [Get_result w4, v4]; simp [GoMap.lookup, h31, h21]
  · rw [Get_result w4, v4]; simp [GoMap.lookup, h32]
  · rw [Get_result w4, v4]; simp [GoMap.lookup]
  · rw [Length_eq_view, v4]; rfl

/-- C13 (failing input): the run of `TestRemovelodest`, with the entries
`k1 = v1`, `k2 = v2`, `k3 = v3` of four bytes each and `maxBytes = 8` under the
recency policy.  The three calls of `Add` return; the third overflows (12 > 8)
and `RemoveOldest` removes `k1`, so that the live entries are `k3`, `k2`,
`Length()` is 2 and `Get("k1")` reports a miss, where the test expects a hit.
The outcome is the same whether a hook is registered or not and whatever the
schedules of the three loops (the third loop runs once). -/
theorem C13_Get_k1_misses :
    ((New 8 EvictionPolicy.LRU false : Cache String).run
        [Op.add [RangeOrder.stored] "k1" "v1", Op.add [RangeOrder.stored] "k2" "v2",
         Op.add [RangeOrder.stored] "k3" "v3"]).map
      (fun c => ((c.Get "k1").2, c.Length, c.view)) =
        some (none, 2, [("k3", "v3"), ("k2", "v2")]) ∧
    ∀ (onEvicted : Bool) (s1 s2 s3 : List RangeOrder) (order : RangeOrder),
      ∃ c : Cache String,
        (New 8 EvictionPolicy.LRU onEvicted).run
          [Op.add s1 "k1" "v1", Op.add s2 "k2" "v2", Op.add (order :: s3) "k3" "v3"] = some c ∧
        (c.Get "k1").2 = none ∧ c.Length = 2 := by
  refine ⟨by decide, ?_⟩
  intro onEvicted s1 s2 s3 order
  obtain ⟨c, h1, h2, -, -, h3⟩ := three_adds_evict_the_first "k1" "k2" "k3" "v1" "v2" "v3"
    onEvicted s1 s2 s3 order (by decide) (by decide) (by decide) (by decide) (by decide)
    (by decide) (by decide)
  exact ⟨c, h1, h2, h3⟩

end lru

/-! ## What `Get` and an in-place `Add` change -/

namespace lru

theorem addEntry_live {V : Type} [Value V] {c : Cache V} {key : String} {ele : Elem}
    (value : V) (hl : GoMap.lookup key c.cache = some ele) :
    c.addEntry key value = { c with
      ll := moveToFront c.ll ele
      nbytes := c.nbytes + ((Value.Len value : Int) - (Value.Len (c.elems ele).value : Int))
      elems := Function.update c.elems ele { c.elems ele with value := value } } := by
  unfold Cache.addEntry
  rw [hl]

theorem addEntry_fresh {V : Type} [Value V] {c : Cache V} {key : String} (value : V)
    (hl : GoMap.lookup key c.cache = none) :
    ∃ f : Int, c.addEntry key value = { c with
      ll := c.fresh :: c.ll
      elems := Function.update c.elems c.fresh ⟨key, value⟩
      fresh := c.fresh + 1
      cache := GoMap.insert key c.fresh c.cache
      nbytes := c.nbytes + ((key.utf8ByteSize : Int) + (Value.Len value : Int))
      freqMap := GoMap.insert key f c.freqMap } ∧
      (GoMap.lookup key c.freqMap = none → f = 1) := by
  unfold Cache.addEntry Cache.updateFrequency
  rw [hl]
  simp only
  cases hf : GoMap.lookup key c.freqMap with
  | none => exact ⟨1, rfl, fun _ => rfl⟩
  | some g => exact ⟨g + 1, rfl, fun h => by cases h⟩

theorem lookup_cache_of_Get {V : Type} [Value V] {c : Cache V} (h : c.WF) {key : String} {v : V}
    (hv : (c.Get key).2 = some v) :
    ∃ ele, GoMap.lookup key c.cache = some ele ∧ (c.elems ele).value = v ∧ ele ∈ c.ll := by
  cases hl : GoMap.lookup key c.cache with
  | none => rw [Get_miss hl] at hv; cases hv
  | some ele =>
    rw [Get_hit hl] at hv
    exact ⟨ele, rfl, Option.some.inj hv, ((h.cache_ll _ _).1 hl).1⟩

theorem freq_lookup_of_live {V : Type} [Value V] {c : Cache V} (h : c.WF) {key : String}
    {ele : Elem} (hl : GoMap.lookup key c.cache = some ele) :
    ∃ f, GoMap.lookup key c.freqMap = some f := by
  have : key ∈ GoMap.keys c.freqMap :=
    (h.freq_cache key).2 ((GoMap.mem_keys_iff _ _).2 ⟨ele, hl⟩)
  exact (GoMap.mem_keys_iff _ _).1 this

theorem freq_lookup_of_not_live {V : Type} [Value V] {c : Cache V} (h : c.WF) {key : String}
    (hl : GoMap.lookup key c.cache = none) : GoMap.lookup key c.freqMap = none := by
  rw [GoMap.lookup_eq_none_iff] at hl ⊢
  exact fun hm => hl ((h.freq_cache key).1 hm)

/-- What one call of `evict` does: nothing, or it drops one element of the
list. -/
theorem evict_cases {V : Type} [Value V] {c : Cache V} (h : c.WF) (order : RangeOrder) :
    c.evict order = c ∨ ∃ ele, ele ∈ c.ll ∧ c.evict order = c.dropElem ele := by
  unfold Cache.evict
  split
  · rw [RemoveOldest_eq]
    cases hl : c.ll.getLast? with
    | none => exact Or.inl rfl
    | some ele => exact Or.inr ⟨ele, List.mem_of_getLast?_eq_some hl, rfl⟩
  · rw [removeLFU_eq]
    split
    · cases hl : GoMap.lookup (leastFreq (order.visit c.freqMap)).1 c.cache with
      | none => exact Or.inl rfl
      | some ele => exact Or.inr ⟨ele, ((h.cache_ll _ _).1 hl).1, rfl⟩
    · exact Or.inl rfl

/-- The invariant rule of the eviction loop. -/
theorem evictLoop_invariant {V : Type} [Value V] (P : Cache V → Prop)
    (hstep : ∀ (c : Cache V) (o : RangeOrder), c.WF → P c → c.over = true → P (c.evict o))
    (sched : List RangeOrder) :
    ∀ (c c' : Cache V), c.WF → P c → Cache.evictLoop sched c = some c' →
      P c' ∧ c'.WF ∧ c'.over = false := by
  induction sched with
  | nil =>
    intro c c' hw hp hr
    cases ho : c.over with
    | false =>
      rw [evictLoop_of_not_over _ ho] at hr
      cases hr
      exact ⟨hp, hw, ho⟩
    | true =>
      unfold Cache.evictLoop at hr
      simp [ho] at hr
  | cons o s ih =>
    intro c c' hw hp hr
    cases ho : c.over with
    | false =>
      rw [evictLoop_of_not_over _ ho] at hr
      cases hr
      exact ⟨hp, hw, ho⟩
    | true =>
      rw [evictLoop_of_over o s ho] at hr
      exact ih _ c' (evict_WF hw o) (hstep c o hw hp ho) hr

/-- Along the eviction loop the counter of a key stays what it was until the
key is evicted, and then there is none. -/
theorem evictLoop_counter {V : Type} [Value V] (key : String) (f : Int)
    (sched : List RangeOrder) (c c' : Cache V) (hw : c.WF)
    (hf : GoMap.lookup key c.freqMap = some f) (hr : Cache.evictLoop sched c = some c') :
    GoMap.lookup key c'.freqMap = some f ∨
    (GoMap.lookup key c'.freqMap = none ∧ (c'.Get key).2 = none) := by
  have := evictLoop_invariant
    (fun s : Cache V => GoMap.lookup key s.freqMap = some f ∨
      (GoMap.lookup key s.freqMap = none ∧ GoMap.lookup key s.cache = none)) ?_ sched c c' hw
    (Or.inl hf) hr
  · rcases this.1 with h1 | ⟨h1, h2⟩
    · exact Or.inl h1
    · exact Or.inr ⟨h1, by rw [Get_miss h2]⟩
  · intro s o hws hp _
    rcases evict_cases hws o with he | ⟨ele, hin, he⟩
    · rw [he]; exact hp
    · rw [he]
      obtain ⟨-, -, f3, f4, -, -⟩ := dropElem_fields s ele
      simp only [f3, f4]
      by_cases hk : key = (s.elems ele).key
      · right
        rw [hk]
        exact ⟨GoMap.lookup_delete_self _ _, GoMap.lookup_delete_self _ _⟩
      · rw [GoMap.lookup_delete_ne _ hk, GoMap.lookup_delete_ne _ hk]
        exact hp

/-- C14: let `key` be live in a reachable store with the value `old`.  The
insertion step of `Add(key, value)` replaces the value by `value`, moves the
entry to the most recently used position, leaves the other entries in their
order with their values, changes `nbytes` by `value.Len() - old.Len()` and
leaves `Length()` and the whole frequency map unchanged; when no eviction is
triggered this is the store that `Add` returns.  `Add` of a key that is not live
gives that key the counter 1: this is its counter after the insertion step, and
when `Add` returns it is still 1 unless the loop has evicted the key. -/
theorem C14_in_place_Add_keeps_the_counters {V : Type} [Value V] [Inhabited V] (c : Cache V)
    (key : String) (value : V) (h : Reachable c) :
    (∀ old : V, (c.Get key).2 = some old →
      (c.addEntry key value).view = (key, value) :: c.view.filter (fun p => p.1 ≠ key) ∧
      ((c.addEntry key value).Get key).2 = some value ∧
      (c.addEntry key value).nbytes =
        c.nbytes + ((Value.Len value : Int) - (Value.Len old : Int)) ∧
      (c.addEntry key value).Length = c.Length ∧
      (c.addEntry key value).freqMap = c.freqMap ∧
      ((c.addEntry key value).over = false →
        ∀ sched, c.Add sched key value = some (c.addEntry key value))) ∧
    ((c.Get key).2 = none →
      GoMap.lookup key (c.addEntry key value).freqMap = some 1 ∧
      ((c.addEntry key value).over = false →
        ∀ sched, c.Add sched key value = some (c.addEntry key value)) ∧
      ∀ sched c', c.Add sched key value = some c' →
        GoMap.lookup key c'.freqMap = some 1 ∨
        (GoMap.lookup key c'.freqMap = none ∧ (c'.Get key).2 = none)) := by
  have hw := h.wf
  constructor
  · intro old hold
    obtain ⟨ele, hl, hval, hin⟩ := lookup_cache_of_Get hw hold
    have hq := addEntry_live value hl
    refine ⟨view_addEntry hw key value, ?_, ?_, ?_, ?_, ?_⟩
    · rw [Get_addEntry hw]; simp
    · rw [hq, hval]
    · simp only [Cache.Length, hq]
      rw [(moveToFront_perm c.ll ele).length_eq]
    · rw [hq]
    · intro ho sched
      exact evictLoop_of_not_over sched ho
  · intro hmiss
    have hl := Get_snd_eq_none hmiss
    obtain ⟨f, hf, hone⟩ := addEntry_fresh value hl
    have hf1 : f = 1 := hone (freq_lookup_of_not_live hw hl)
    have hcount : GoMap.lookup key (c.addEntry key value).freqMap = some 1 := by
      rw [hf, hf1]
      exact GoMap.lookup_insert_self _ _ _
    refine ⟨hcount, fun ho sched => evictLoop_of_not_over sched ho, ?_⟩
    intro sched c' hadd
    exact evictLoop_counter key 1 sched _ c' (addEntry_WF hw key value) hcount hadd

end lru

namespace lru

theorem updateFrequency_of_counter {V : Type} (c : Cache V) {key : String} {f : Int}
    (hf : GoMap.lookup key c.freqMap = some f) :
    c.updateFrequency key = { c with freqMap := GoMap.insert key (f + 1) c.freqMap } := by
  unfold Cache.updateFrequency
  rw [hf]

/-- C15: on a reachable store under either policy, a hit of `Get(key)` returns
the stored value, moves that entry to the most recently used position and
leaves the other entries in their order with their values, raises the counter of
`key` by exactly 1 and leaves every other counter, `nbytes` and `Length()`
unchanged; a miss returns `(nil, false)` and leaves the whole store unchanged. -/
theorem C15_Get_changes_only_recency_and_one_counter {V : Type} [Value V] [Inhabited V]
    (c : Cache V) (key : String) (h : Reachable c) :
    (∀ v : V, (c.Get key).2 = some v →
      GoMap.lookup key c.view = some v ∧
      (c.Get key).1.view = (key, v) :: c.view.filter (fun p => p.1 ≠ key) ∧
      (∃ f : Int, GoMap.lookup key c.freqMap = some f ∧
        GoMap.lookup key (c.Get key).1.freqMap = some (f + 1)) ∧
      (∀ k, k ≠ key → GoMap.lookup k (c.Get key).1.freqMap = GoMap.lookup k c.freqMap) ∧
      (c.Get key).1.nbytes = c.nbytes ∧ (c.Get key).1.Length = c.Length) ∧
    ((c.Get key).2 = none → c.Get key = (c, none)) := by
  have hw := h.wf
  constructor
  · intro v hv
    obtain ⟨ele, hl, hval, hin⟩ := lookup_cache_of_Get hw hv
    obtain ⟨f, hf⟩ := freq_lookup_of_live hw hl
    have hview := view_Get hw key
    have hres := Get_result hw key
    rw [hv] at hres
    rw [← hres] at hview
    have hstate : (c.Get key).1 =
        { c with freqMap := GoMap.insert key (f + 1) c.freqMap, ll := moveToFront c.ll ele } := by
      rw [Get_hit hl, updateFrequency_of_counter c hf]
    refine ⟨hres.symm, hview, ⟨f, hf, ?_⟩, ?_, ?_, ?_⟩
    · rw [hstate]; exact GoMap.lookup_insert_self _ _ _
    · intro k hk
      rw [hstate]; exact GoMap.lookup_insert_ne _ _ hk
    · rw [hstate]
    · rw [hstate]
      simp only [Cache.Length]
      rw [(moveToFront_perm c.ll ele).length_eq]
  · intro hmiss
    exact Get_miss (Get_snd_eq_none hmiss)

theorem C15_Get_changes_only_recency_and_one_counter_witness :
    ∃ c : Cache String,
      (New 0 EvictionPolicy.LFU false).run [Op.add [] "k1" "v1", Op.add [] "k2" "v2"] = some c ∧
      (c.Get "k1").1.view = ("k1", "v1") :: c.view.filter (fun p => p.1 ≠ "k1") ∧
      (c.Get "k1").1.nbytes = c.nbytes ∧ c.Get "zz" = (c, none) := by
  have h : ((New 0 EvictionPolicy.LFU false : Cache String).run
      [Op.add [] "k1" "v1", Op.add [] "k2" "v2"]).isSome = true := by decide
  have hf : ((New 0 EvictionPolicy.LFU false : Cache String).run
      [Op.add [] "k1" "v1", Op.add [] "k2" "v2"]).map
        (fun c => ((c.Get "k1").2, (c.Get "zz").2)) = some (some "v1", none) := by decide
  obtain ⟨c, hc⟩ := Option.isSome_iff_exists.1 h
  rw [hc] at hf
  simp only [Option.map_some', Option.some.injEq, Prod.mk.injEq] at hf
  have k1 := (C15_Get_changes_only_recency_and_one_counter c "k1"
    ⟨0, EvictionPolicy.LFU, false, _, hc⟩).1 "v1" hf.1
  have k2 := (C15_Get_changes_only_recency_and_one_counter c "zz"
    ⟨0, EvictionPolicy.LFU, false, _, hc⟩).2 hf.2
  exact ⟨c, hc, k1.2.1, k1.2.2.2.2.1, k2⟩

theorem C14_in_place_Add_keeps_the_counters_witness :
    ∃ c : Cache String,
      (New 0 EvictionPolicy.LFU false).run [Op.add [] "k1" "v1", Op.add [] "k2" "v2"] = some c ∧
      (c.addEntry "k1" "longer").view =
        ("k1", "longer") :: c.view.filter (fun p => p.1 ≠ "k1") ∧
      (c.addEntry "k1" "longer").nbytes =
        c.nbytes + ((Value.Len "longer" : Int) - (Value.Len "v1" : Int)) ∧
      (c.addEntry "k1" "longer").freqMap = c.freqMap ∧
      GoMap.lookup "k3" (c.addEntry "k3" "v3").freqMap = some 1 := by
  have h : ((New 0 EvictionPolicy.LFU false : Cache String).run
      [Op.add [] "k1" "v1", Op.add [] "k2" "v2"]).isSome = true := by decide
  have hf : ((New 0 EvictionPolicy.LFU false : Cache String).run
      [Op.add [] "k1" "v1", Op.add [] "k2" "v2"]).map
        (fun c => ((c.Get "k1").2, (c.Get "k3").2)) = some (some "v1", none) := by decide
  obtain ⟨c, hc⟩ := Option.isSome_iff_exists.1 h
  rw [hc] at hf
  simp only [Option.map_some', Option.some.injEq, Prod.mk.injEq] at hf
  have k1 := (C14_in_place_Add_keeps_the_counters c "k1" "longer"
    ⟨0, EvictionPolicy.LFU, false, _, hc⟩).1 "v1" hf.1
  have k2 := (C14_in_place_Add_keeps_the_counters c "k3" "v3"
    ⟨0, EvictionPolicy.LFU, false, _, hc⟩).2 hf.2
  exact ⟨c, hc, k1.1, k1.2.2.1, k1.2.2.2.2.1, k2.1⟩

end lru

/-! ## Eviction by frequency -/

namespace lru

/-- The scan step of `removeLFU`. -/
theorem leastFreq_foldl (l : List (String × Int)) :
    ∀ acc : String × Int,
      let r := l.foldl (fun acc kf => if kf.2 < acc.2 then (kf.1, kf.2) else acc) acc
      r.2 ≤ acc.2 ∧ (∀ p ∈ l, r.2 ≤ p.2) ∧ (r = acc ∨ r ∈ l) ∧
      ((∃ p ∈ l, p.2 < acc.2) → r ∈ l) := by
  induction l with
  | nil =>
    intro acc
    simp
  | cons q l ih =>
    intro acc
    simp only [List.foldl_cons]
    by_cases hq : q.2 < acc.2
    · simp only [hq, if_true]
      obtain ⟨h1, h2, h3, h4⟩ := ih (q.1, q.2)
      simp only at h1 h2 h3 h4
      refine ⟨by omega, ?_, ?_, ?_⟩
      · intro p hp
        rcases List.mem_cons.1 hp with rfl | hp'
        · exact h1
        · exact h2 p hp'
      · right
        rcases h3 with h3 | h3
        · rw [h3]; exact List.mem_cons_self _ _
        · exact List.mem_cons_of_mem _ h3
      · intro _
        rcases h3 with h3 | h3
        · rw [h3]; exact List.mem_cons_self _ _
        · exact List.mem_cons_of_mem _ h3
    · simp only [hq, if_false]
      obtain ⟨h1, h2, h3, h4⟩ := ih acc
      refine ⟨h1, ?_, ?_, ?_⟩
      · intro p hp
        rcases List.mem_cons.1 hp with rfl | hp'
        · omega
        · exact h2 p hp'
      · rcases h3 with h3 | h3
        · exact Or.inl h3
        · exact Or.inr (List.mem_cons_of_mem _ h3)
      · rintro ⟨p, hp, hlt⟩
        rcases List.mem_cons.1 hp with rfl | hp'
        · exact absurd hlt hq
        · exact List.mem_cons_of_mem _ (h4 ⟨p, hp', hlt⟩)

theorem leastFreq_spec (l : List (String × Int)) :
    (∀ p ∈ l, (leastFreq l).2 ≤ p.2) ∧ (leastFreq l = ("", maxInt) ∨ leastFreq l ∈ l) ∧
    ((∃ p ∈ l, p.2 < maxInt) → leastFreq l ∈ l) := by
  obtain ⟨-, h2, h3, h4⟩ := leastFreq_foldl l ("", maxInt)
  exact ⟨h2, h3, h4⟩

/-- What `removeLFU` does on a well-formed store: nothing, or it drops an
element whose counter is the least of all counters. -/
theorem removeLFU_least {V : Type} [Value V] {c : Cache V} (h : c.WF) (order : RangeOrder) :
    c.removeLFU order = c ∨
    ∃ (ele : Elem) (f : Int), ele ∈ c.ll ∧ c.removeLFU order = c.dropElem ele ∧
      (c.elems ele).key ≠ "" ∧
      GoMap.lookup (c.elems ele).key c.freqMap = some f ∧
      ∀ k g, GoMap.lookup k c.freqMap = some g → f ≤ g := by
  obtain ⟨hmin, hmem, -⟩ := leastFreq_spec (order.visit c.freqMap)
  rw [removeLFU_eq]
  by_cases hk : (leastFreq (order.visit c.freqMap)).1 = ""
  · left; simp [hk]
  · simp only [ne_eq, hk, not_false_eq_true, if_true]
    cases hl : GoMap.lookup (leastFreq (order.visit c.freqMap)).1 c.cache with
    | none => exact Or.inl rfl
    | some ele =>
      right
      have hin := (h.cache_ll _ _).1 hl
      rcases hmem with he | he
      · rw [he] at hk; exact absurd rfl hk
      · have hfm : leastFreq (order.visit c.freqMap) ∈ c.freqMap :=
          (order.perm c.freqMap).mem_iff.1 he
        have hlook : GoMap.lookup (leastFreq (order.visit c.freqMap)).1 c.freqMap =
            some (leastFreq (order.visit c.freqMap)).2 := GoMap.lookup_of_mem h.freq_nodup hfm
        refine ⟨ele, (leastFreq (order.visit c.freqMap)).2, hin.1, rfl, ?_, ?_, ?_⟩
        · rw [hin.2]; exact hk
        · rw [hin.2]; exact hlook
        · intro k g hg
          exact hmin (k, g) ((order.perm c.freqMap).mem_iff.2 (GoMap.mem_of_lookup hg))

/-- When the frequency map is not empty, every counter is below the largest
`int` and the empty key is not live, `removeLFU` does drop an element. -/
theorem removeLFU_drops {V : Type} [Value V] {c : Cache V} (h : c.WF) (order : RangeOrder)
    (hne : c.freqMap ≠ []) (hlt : ∀ k g, GoMap.lookup k c.freqMap = some g → g < maxInt)
    (hempty : GoMap.lookup "" c.cache = none) :
    ∃ ele, ele ∈ c.ll ∧ c.removeLFU order = c.dropElem ele := by
  obtain ⟨-, -, hmem⟩ := leastFreq_spec (order.visit c.freqMap)
  have hex : ∃ p ∈ order.visit c.freqMap, p.2 < maxInt := by
    cases hfm : c.freqMap with
    | nil => exact absurd hfm hne
    | cons p rest =>
      have hp : p ∈ c.freqMap := by rw [hfm]; exact List.mem_cons_self _ _
      refine ⟨p, ?_, hlt p.1 p.2 (GoMap.lookup_of_mem h.freq_nodup hp)⟩
      rw [← hfm]
      exact (order.perm c.freqMap).mem_iff.2 hp
  have he := hmem hex
  have hfm : leastFreq (order.visit c.freqMap) ∈ c.freqMap :=
    (order.perm c.freqMap).mem_iff.1 he
  have hkeys : (leastFreq (order.visit c.freqMap)).1 ∈ GoMap.keys c.cache :=
    (h.freq_cache _).1 (List.mem_map.2 ⟨_, hfm, rfl⟩)
  obtain ⟨ele, hl⟩ := (GoMap.mem_keys_iff _ _).1 hkeys
  have hk : (leastFreq (order.visit c.freqMap)).1 ≠ "" := by
    intro h0
    rw [h0, hempty] at hl
    cases hl
  refine ⟨ele, ((h.cache_ll _ _).1 hl).1, ?_⟩
  rw [removeLFU_eq]
  simp [hk, hl]

end lru

namespace lru

theorem evictStates_WF {V : Type} [Value V] (sched : List RangeOrder) :
    ∀ {c : Cache V}, c.WF → ∀ s ∈ Cache.evictStates sched c,
      s.WF ∧ s.evictionType = c.evictionType ∧ s.over = true := by
  induction sched with
  | nil =>
    intro c h s hs
    unfold Cache.evictStates at hs
    split at hs <;> cases hs
  | cons o rest ih =>
    intro c h s hs
    unfold Cache.evictStates at hs
    split at hs
    · rename_i hov
      rcases List.mem_cons.1 hs with rfl | hs'
      · exact ⟨h, rfl, hov⟩
      · obtain ⟨a, b, d⟩ := ih (evict_WF h o) s hs'
        exact ⟨a, b.trans (evict_config c o).2.1, d⟩
    · cases hs

theorem evict_of_LFU {V : Type} [Value V] {c : Cache V}
    (hp : c.evictionType = EvictionPolicy.LFU) (order : RangeOrder) :
    c.evict order = c.removeLFU order := by
  unfold Cache.evict
  rw [hp]

/-- C11: under the frequency policy, in every iteration of the loop of an `Add`
that overflows `maxBytes`, `evict` either removes nothing or removes an entry
whose counter is at most every counter, and strictly below every other counter
when the counters are pairwise distinct; it does remove an entry when the store
is not empty, every counter is below the largest `int` and the empty key is not
live.  When the empty key is live and holds the strictly smallest counter
nothing is ever removed: after `Add("", "1234")`, `Add("a", "123")`, `Get("a")`
on a store with `maxBytes = 10` the counters are 1 and 2, and `Add("a",
"1234567")` overflows and does not return. -/
theorem C11_LFU_evicts_a_least_frequent_entry :
    (∀ (V : Type) [Value V] [Inhabited V] (maxBytes : Int) (onEvicted : Bool)
      (ops : List (Op V)) (c : Cache V),
      (New maxBytes EvictionPolicy.LFU onEvicted).run ops = some c →
      ∀ (sched : List RangeOrder) (key : String) (value : V),
      ∀ s ∈ Cache.evictStates sched (c.addEntry key value), ∀ order : RangeOrder,
        (s.evict order = s ∨
          ∃ (ele : Elem) (f : Int), ele ∈ s.ll ∧ s.evict order = s.dropElem ele ∧
            GoMap.lookup (s.elems ele).key s.freqMap = some f ∧
            (∀ k g, GoMap.lookup k s.freqMap = some g → f ≤ g) ∧
            ((∀ k1 k2 g, GoMap.lookup k1 s.freqMap = some g →
                GoMap.lookup k2 s.freqMap = some g → k1 = k2) →
              ∀ k g, k ≠ (s.elems ele).key → GoMap.lookup k s.freqMap = some g → f < g)) ∧
        (s.freqMap ≠ [] → (∀ k g, GoMap.lookup k s.freqMap = some g → g < maxInt) →
          (s.Get "").2 = none → ∃ ele, ele ∈ s.ll ∧ s.evict order = s.dropElem ele)) ∧
    (((New 10 EvictionPolicy.LFU false : Cache String).run
        [Op.add [] "" "1234", Op.add [] "a" "123", Op.get "a"]).map
      (fun c => (c.freqMap, (c.addEntry "a" "1234567").over)) =
        some ([("", 1), ("a", 2)], true) ∧
      ∀ sched : List RangeOrder,
        ((New 10 EvictionPolicy.LFU false : Cache String).run
          [Op.add [] "" "1234", Op.add [] "a" "123", Op.get "a"]).bind
          (fun c => c.Add sched "a" "1234567") = none) := by
  constructor
  · intro V _ _ maxBytes onEvicted ops c hrun sched key value s hs order
    have hw := run_WF ops (New_WF maxBytes EvictionPolicy.LFU onEvicted) hrun
    have hp : c.evictionType = EvictionPolicy.LFU := (run_config ops hrun).2.1
    obtain ⟨sw, sp, -⟩ := evictStates_WF sched (addEntry_WF hw key value) s hs
    have sp' : s.evictionType = EvictionPolicy.LFU :=
      sp.trans ((addEntry_config c key value).2.1.trans hp)
    rw [evict_of_LFU sp']
    constructor
    · rcases removeLFU_least sw order with h0 | ⟨ele, f, hin, hd, -, hf, hmin⟩
      · exact Or.inl h0
      · refine Or.inr ⟨ele, f, hin, hd, hf, hmin, ?_⟩
        intro hdist k g hk hg
        have hle := hmin k g hg
        rcases lt_or_eq_of_le hle with hlt | heq
        · exact hlt
        · subst heq
          exact absurd (hdist _ _ _ hg hf) hk
    · intro hne hlt hempty
      exact removeLFU_drops sw order hne hlt (Get_snd_eq_none hempty)
  · refine ⟨by decide, ?_⟩
    intro sched
    have h : ((New 10 EvictionPolicy.LFU false : Cache String).run
        [Op.add [] "" "1234", Op.add [] "a" "123", Op.get "a"]).isSome = true := by decide
    have hf : ((New 10 EvictionPolicy.LFU false : Cache String).run
        [Op.add [] "" "1234", Op.add [] "a" "123", Op.get "a"]).map
        (fun c => ((c.addEntry "a" "1234567").freqMap, (c.addEntry "a" "1234567").over,
          (c.addEntry "a" "1234567").evictionType)) =
        some ([("", 1), ("a", 2)], true, EvictionPolicy.LFU) := by decide
    obtain ⟨c, hc⟩ := Option.isSome_iff_exists.1 h
    rw [hc] at hf ⊢
    simp only [Option.map_some', Option.some.injEq, Prod.mk.injEq] at hf
    obtain ⟨hfm, hov, hp⟩ := hf
    have hw := addEntry_WF (run_WF _ (New_WF 10 EvictionPolicy.LFU false) hc) "a" "1234567"
    simp only [Option.some_bind]
    unfold Cache.Add
    apply evictLoop_stuck hov
    intro order
    rw [evict_of_LFU hp]
    rcases removeLFU_least hw order with h0 | ⟨ele, f, -, -, hne, hlook, hmin⟩
    · exact h0
    · exfalso
      have h1 := hmin "" 1 (by rw [hfm]; rfl)
      rw [hfm] at hlook
      simp only [GoMap.lookup, Ne.symm hne, if_false] at hlook
      split at hlook
      · have := Option.some.inj hlook
        omega
      · cases hlook

theorem C11_LFU_evicts_a_least_frequent_entry_witness :
    ∃ c : Cache String,
      (New 12 EvictionPolicy.LFU true).run
        [Op.add [] "key1" "1234", Op.add [] "k2" "k2", Op.get "key1"] = some c ∧
      ∀ s ∈ Cache.evictStates [RangeOrder.reversed] (c.addEntry "k3" "k3"),
        s.evict RangeOrder.reversed = s ∨
        ∃ (ele : Elem) (f : Int), ele ∈ s.ll ∧
          s.evict RangeOrder.reversed = s.dropElem ele ∧
          GoMap.lookup (s.elems ele).key s.freqMap = some f ∧
          ∀ k g, GoMap.lookup k s.freqMap = some g → f ≤ g := by
  have h : ((New 12 EvictionPolicy.LFU true : Cache String).run
      [Op.add [] "key1" "1234", Op.add [] "k2" "k2", Op.get "key1"]).isSome = true := by decide
  obtain ⟨c, hc⟩ := Option.isSome_iff_exists.1 h
  refine ⟨c, hc, ?_⟩
  intro s hs
  rcases (C11_LFU_evicts_a_least_frequent_entry.1 String 12 true _ c hc [RangeOrder.reversed]
    "k3" "k3" s hs RangeOrder.reversed).1 with h0 | ⟨ele, f, h1, h2, h3, h4, -⟩
  · exact Or.inl h0
  · exact Or.inr ⟨ele, f, h1, h2, h3, h4⟩

end lru

/-! ## Registering the peer picker -/

namespace geecache

/-- A call of `Get` that returns leaves the picker of the group as it was. -/
theorem Get_peers {sched : List lru.RangeOrder} {g g' : Group} {key : String}
    {r : ByteView × Option Error} (h : g.Get sched key = some (g', r)) :
    g'.peers = g.peers := by
  by_cases hk : key = ""
  · subst hk
    simp only [Group.Get, if_true] at h
    cases h
    rfl
  · cases hget : (g.mainCache.lru.Get key).2 with
    | some v =>
      rw [Get_of_hit sched g hk hget] at h
      cases h
      rfl
    | none =>
      rw [Get_of_miss sched g hk hget] at h
      have hlocal : ∀ cs, (g.withCalls cs).getLocally sched key = some (g', r) →
          g'.peers = g.peers := by
        intro cs hloc
        cases hg : (g.withCalls cs).getter.Get (g.withCalls cs).calls key with
        | error e =>
          rw [getLocally_error sched _ hg] at hloc
          cases hloc
          rfl
        | ok bytes =>
          rw [getLocally_ok sched _ hg] at hloc
          cases hadd : (g.withCalls cs).mainCache.lru.Add sched key ⟨bytes⟩ with
          | none => rw [hadd] at hloc; cases hloc
          | some s =>
            rw [hadd] at hloc
            cases hloc
            rfl
      cases hans : g.peerAnswer key with
      | none =>
        rw [load_of_no_peer sched g (Or.inl hans)] at h
        exact hlocal _ h
      | some a =>
        cases a with
        | error pe =>
          rw [load_of_no_peer sched g (Or.inr ⟨pe, hans⟩)] at h
          exact hlocal _ h
        | ok v =>
          rw [load_of_peer_ok sched g hans] at h
          cases h
          rfl

theorem run_getOps_peers (gets : List (List lru.RangeOrder × String)) :
    ∀ {g g' : Group}, g.run (getOps gets) = some g' → g'.peers = g.peers := by
  induction gets with
  | nil =>
    intro g g' h
    simp only [getOps, List.map_nil, Group.run, Option.some.injEq] at h
    subst h
    rfl
  | cons a rest ih =>
    intro g g' h
    simp only [getOps, List.map_cons, Group.run, Group.step] at h
    cases hg : g.Get a.1 a.2 with
    | none => rw [hg] at h; cases h
    | some p =>
      obtain ⟨g1, r⟩ := p
      rw [hg] at h
      simp only [Option.map_some', Option.some_bind] at h
      exact (ih h).trans (Get_peers hg)

/-- C16 (as stated, refuted): when the first call of `RegisiterPeers` is given
the nil picker, it returns and so does a second call with a picker: nothing
panics. -/
theorem C16_nil_picker_can_be_registered_again :
    (((sampleGroup lru.EvictionPolicy.LRU 64).RegisiterPeers none).bind
      (fun g1 => g1.RegisiterPeers (some samplePicker))).isOk = true := by
  rfl

/-- C16 (amended): on a group made by `NewGroup`, after any calls of `Get`, the
first call of `RegisiterPeers` with a picker that is not nil returns and
attaches that picker, changing nothing else; after any further calls of `Get`,
a second call of `RegisiterPeers` with any argument panics and leaves the group,
with the picker attached by the first call, as it was. -/
theorem C16_second_RegisiterPeers_panics (groups groups1 : List (String × Group))
    (policy : lru.EvictionPolicy) (name : String) (cacheBytes : Int) (getter : Getter)
    (g0 g : Group) (gets1 gets2 : List (List lru.RangeOrder × String)) (p1 : PeerPicker)
    (p2 : Option PeerPicker)
    (hnew : NewGroup groups policy name cacheBytes (some getter) = .ok (groups1, g0))
    (hrun : g0.run (getOps gets1) = some g) :
    g.RegisiterPeers (some p1) = .ok { g with peers := some p1 } ∧
    ∀ g2 : Group, ({ g with peers := some p1 } : Group).run (getOps gets2) = some g2 →
      g2.RegisiterPeers p2 = .error "RegisterPeerPicker called more than once" ∧
      g2.afterRegisiterPeers p2 = g2 ∧ g2.peers = some p1 := by
  have h0 : g0.peers = none := by
    simp only [NewGroup, Except.ok.injEq, Prod.mk.injEq] at hnew
    obtain ⟨-, rfl⟩ := hnew
    rfl
  have hg : g.peers = none := (run_getOps_peers gets1 hrun).trans h0
  constructor
  · simp [Group.RegisiterPeers, hg]
  · intro g2 hrun2
    have h2 : g2.peers = some p1 := run_getOps_peers gets2 hrun2
    refine ⟨?_, ?_, h2⟩
    · simp [Group.RegisiterPeers, h2]
    · simp [Group.afterRegisiterPeers, Group.RegisiterPeers, h2]

theorem C16_second_RegisiterPeers_panics_witness :
    (sampleGroup lru.EvictionPolicy.LRU 64).RegisiterPeers (some samplePicker) =
      .ok { sampleGroup lru.EvictionPolicy.LRU 64 with peers := some samplePicker } ∧
    ∀ g2 : Group,
      ({ sampleGroup lru.EvictionPolicy.LRU 64 with peers := some samplePicker } : Group).run
        (getOps [([], "Tom")]) = some g2 →
      g2.RegisiterPeers none = .error "RegisterPeerPicker called more than once" ∧
      g2.afterRegisiterPeers none = g2 ∧ g2.peers = some samplePicker :=
  C16_second_RegisiterPeers_panics [] _ lru.EvictionPolicy.LRU "scores" 64 sampleGetter
    (sampleGroup lru.EvictionPolicy.LRU 64) (sampleGroup lru.EvictionPolicy.LRU 64) []
    [([], "Tom")] samplePicker none rfl rfl

end geecache

/-! ## The order in which nodes are added to the ring -/

namespace consistenthash

theorem least_congr {l1 l2 : List Int} (h : ∀ p, p ∈ l1 ↔ p ∈ l2) : least l1 = least l2 := by
  cases h1 : least l1 with
  | none =>
    have e1 : l1 = [] := least_eq_none.1 h1
    have e2 : l2 = [] := by
      cases l2 with
      | nil => rfl
      | cons a r =>
        have := (h a).2 (List.mem_cons_self _ _)
        rw [e1] at this
        cases this
    rw [e2]
    rfl
  | some p =>
    obtain ⟨hp, hmin⟩ := least_spec h1
    exact (least_of_min ((h p).1 hp) (fun q hq => hmin q ((h q).2 hq))).symm

/-- The inner loop of `Add` over a list of replica indices. -/
theorem foldl_addPoint (name : String) (is : List Nat) :
    ∀ m : Map,
      (is.foldl (Map.addPoint name) m).hash = m.hash ∧
      (is.foldl (Map.addPoint name) m).replicas = m.replicas ∧
      (is.foldl (Map.addPoint name) m).keys =
        m.keys ++ is.map (fun i => pointOf m.hash i name) ∧
      ∀ q, (is.foldl (Map.addPoint name) m).hashMap q =
        if q ∈ is.map (fun i => pointOf m.hash i name) then name else m.hashMap q := by
  induction is with
  | nil =>
    intro m
    simp
  | cons i rest ih =>
    intro m
    obtain ⟨h1, h2, h3, h4⟩ := ih (Map.addPoint name m i)
    have e1 : (Map.addPoint name m i).hash = m.hash := rfl
    have e2 : (Map.addPoint name m i).replicas = m.replicas := rfl
    have e3 : (Map.addPoint name m i).keys = m.keys ++ [pointOf m.hash i name] := rfl
    have e4 : (Map.addPoint name m i).hashMap =
        Function.update m.hashMap (pointOf m.hash i name) name := rfl
    simp only [List.foldl_cons]
    refine ⟨h1.trans e1, h2.trans e2, ?_, ?_⟩
    · rw [h3, e1, e3]
      simp
    · intro q
      rw [h4 q, e1, e4]
      by_cases hq : q ∈ rest.map (fun i => pointOf m.hash i name)
      · simp [hq]
      · by_cases hq2 : q = pointOf m.hash i name
        · subst hq2
          simp
        · simp [hq, hq2, Function.update]

theorem addKey_spec (m : Map) (name : String) :
    (m.addKey name).hash = m.hash ∧ (m.addKey name).replicas = m.replicas ∧
    (∀ p, p ∈ (m.addKey name).keys ↔
      p ∈ m.keys ∨ ∃ i, i < m.replicas.toNat ∧ p = pointOf m.hash i name) ∧
    ∀ q, (m.addKey name).hashMap q =
      if ∃ i, i < m.replicas.toNat ∧ q = pointOf m.hash i name then name else m.hashMap q := by
  obtain ⟨h1, h2, h3, h4⟩ := foldl_addPoint name (List.range m.replicas.toNat) m
  have hmem : ∀ q, q ∈ (List.range m.replicas.toNat).map (fun i => pointOf m.hash i name) ↔
      ∃ i, i < m.replicas.toNat ∧ q = pointOf m.hash i name := by
    intro q
    simp only [List.mem_map, List.mem_range]
    constructor
    · rintro ⟨i, hi, rfl⟩; exact ⟨i, hi, rfl⟩
    · rintro ⟨i, hi, rfl⟩; exact ⟨i, hi, rfl⟩
  refine ⟨h1, h2, ?_, ?_⟩
  · intro p
    unfold Map.addKey
    rw [h3, List.mem_append, hmem]
  · intro q
    unfold Map.addKey
    rw [h4 q]
    by_cases hq : ∃ i, i < m.replicas.toNat ∧ q = pointOf m.hash i name
    · rw [if_pos hq, if_pos ((hmem q).2 hq)]
    · rw [if_neg hq, if_neg (fun h => hq ((hmem q).1 h))]

theorem Holds_addKey {m : Map} {names : List String} (h : m.Holds names) (name : String) :
    (m.addKey name).Holds (name :: names) := by
  obtain ⟨e1, e2, e3, e4⟩ := addKey_spec m name
  constructor
  · intro p hp
    rw [e1, e2, e4 p]
    by_cases hq : ∃ i, i < m.replicas.toNat ∧ p = pointOf m.hash i name
    · rw [if_pos hq]
      obtain ⟨i, hi, hpi⟩ := hq
      exact ⟨name, List.mem_cons_self _ _, i, hi, hpi, rfl⟩
    · rw [if_neg hq]
      rcases (e3 p).1 hp with hp' | hp'
      · obtain ⟨n, hn, i, hi, hpi, how⟩ := h.1 p hp'
        exact ⟨n, List.mem_cons_of_mem _ hn, i, hi, hpi, how⟩
      · exact absurd hp' hq
  · intro n hn i hi
    rw [e2] at hi
    rw [e1, e3]
    rcases List.mem_cons.1 hn with rfl | hn'
    · exact Or.inr ⟨i, hi, rfl⟩
    · exact Or.inl (h.2 n hn' i hi)

theorem Holds_congr {m : Map} {names names' : List String} (h : m.Holds names)
    (hmem : ∀ n, n ∈ names ↔ n ∈ names') : m.Holds names' := by
  constructor
  · intro p hp
    obtain ⟨n, hn, rest⟩ := h.1 p hp
    exact ⟨n, (hmem n).1 hn, rest⟩
  · intro n hn
    exact h.2 n ((hmem n).2 hn)

theorem foldl_addKey (keys : List String) :
    ∀ (m : Map) (names : List String), m.Holds names →
      (keys.foldl Map.addKey m).Holds (names ++ keys) ∧
      (keys.foldl Map.addKey m).hash = m.hash ∧
      (keys.foldl Map.addKey m).replicas = m.replicas := by
  induction keys with
  | nil =>
    intro m names h
    simpa using h
  | cons k rest ih =>
    intro m names h
    obtain ⟨a, b, c⟩ := ih (m.addKey k) (k :: names) (Holds_addKey h k)
    obtain ⟨e1, e2, -, -⟩ := addKey_spec m k
    refine ⟨Holds_congr a ?_, b.trans e1, c.trans e2⟩
    intro n
    simp only [List.mem_append, List.mem_cons]
    tauto

theorem Add_spec (m : Map) (keys : List String) (names : List String) (h : m.Holds names) :
    (m.Add keys).Holds (names ++ keys) ∧ (m.Add keys).hash = m.hash ∧
    (m.Add keys).replicas = m.replicas := by
  obtain ⟨a, b, c⟩ := foldl_addKey keys m names h
  have hperm : ∀ p, p ∈ (m.Add keys).keys ↔ p ∈ (keys.foldl Map.addKey m).keys := by
    intro p
    unfold Map.Add sortInts
    exact (List.perm_insertionSort _ _).mem_iff
  refine ⟨⟨?_, ?_⟩, b, c⟩
  · intro p hp
    exact a.1 p ((hperm p).1 hp)
  · intro n hn i hi
    exact (hperm _).2 (a.2 n hn i hi)

theorem foldl_Add_spec (adds : List (List String)) :
    ∀ (m : Map) (names : List String), m.Holds names →
      (adds.foldl Map.Add m).Holds (names ++ adds.flatten) ∧
      (adds.foldl Map.Add m).hash = m.hash ∧
      (adds.foldl Map.Add m).replicas = m.replicas := by
  induction adds with
  | nil =>
    intro m names h
    simpa using h
  | cons a rest ih =>
    intro m names h
    obtain ⟨h1, h2, h3⟩ := Add_spec m a names h
    obtain ⟨a1, b1, c1⟩ := ih (m.Add a) (names ++ a) h1
    refine ⟨?_, b1.trans h2, c1.trans h3⟩
    simpa [List.append_assoc] using a1

theorem ring_spec (replicas : Int) (fn : Option Hash) (adds : List (List String)) :
    (ring replicas fn adds).Holds adds.flatten ∧
    (ring replicas fn adds).hash = (New replicas fn).hash ∧
    (ring replicas fn adds).replicas = replicas := by
  have h0 : (New replicas fn).Holds [] := by
    constructor
    · intro p hp
      simp [New] at hp
    · intro n hn
      cases hn
  obtain ⟨a, b, c⟩ := foldl_Add_spec adds (New replicas fn) [] h0
  exact ⟨by simpa using a, b, c⟩

/-- C19: for a fixed hash function and number of replicas, when no two virtual
points of distinct node names hash to the same value, two rings populated with
the same set of node names, in any order and split over any calls of `Add`,
return the same owner from `Get` for every key. -/
theorem C19_owner_does_not_depend_on_the_order_of_Add (replicas : Int) (fn : Option Hash)
    (adds1 adds2 : List (List String)) (key : String)
    (hsame : ∀ name, name ∈ adds1.flatten ↔ name ∈ adds2.flatten)
    (hnc : NoCollision (New replicas fn).hash replicas adds1.flatten) :
    (ring replicas fn adds1).Get key = (ring replicas fn adds2).Get key := by
  obtain ⟨a1, b1, c1⟩ := ring_spec replicas fn adds1
  obtain ⟨a2, b2, c2⟩ := ring_spec replicas fn adds2
  have s1 := ring_sorted replicas fn adds1
  have s2 := ring_sorted replicas fn adds2
  generalize ring replicas fn adds1 = m1 at a1 b1 c1 s1
  generalize ring replicas fn adds2 = m2 at a2 b2 c2 s2
  rw [Get_eq_lookupRef_of_sorted m1 s1, Get_eq_lookupRef_of_sorted m2 s2]
  have hkeys : ∀ p, p ∈ m1.keys ↔ p ∈ m2.keys := by
    intro p
    constructor
    · intro hp
      obtain ⟨n, hn, i, hi, hpi, -⟩ := a1.1 p hp
      rw [hpi, b1, ← b2]
      exact a2.2 n ((hsame n).1 hn) i (by rw [c2]; rw [c1] at hi; exact hi)
    · intro hp
      obtain ⟨n, hn, i, hi, hpi, -⟩ := a2.1 p hp
      rw [hpi, b2, ← b1]
      exact a1.2 n ((hsame n).2 hn) i (by rw [c1]; rw [c2] at hi; exact hi)
  have howner : ∀ p, p ∈ m1.keys → m1.hashMap p = m2.hashMap p := by
    intro p hp
    obtain ⟨n1, hn1, i1, hi1, hp1, ho1⟩ := a1.1 p hp
    obtain ⟨n2, hn2, i2, hi2, hp2, ho2⟩ := a2.1 p ((hkeys p).1 hp)
    rw [ho1, ho2]
    rw [c1] at hi1
    rw [c2] at hi2
    rw [b1] at hp1
    rw [b2] at hp2
    exact hnc n1 hn1 n2 ((hsame n2).2 hn2) i1 hi1 i2 hi2 (hp1.symm.trans hp2)
  have hhash : m1.hashOf key = m2.hashOf key := by
    unfold Map.hashOf
    rw [b1, b2]
  have hfil : ∀ p, p ∈ m1.keys.filter (fun p => decide (m1.hashOf key ≤ p)) ↔
      p ∈ m2.keys.filter (fun p => decide (m2.hashOf key ≤ p)) := by
    intro p
    rw [List.mem_filter, List.mem_filter, hkeys p, hhash]
  unfold Map.lookupRef
  rw [← least_congr hfil, ← least_congr hkeys]
  cases hl : least (m1.keys.filter (fun p => decide (m1.hashOf key ≤ p))) with
  | some p =>
    simp only
    exact howner p (List.mem_filter.1 (least_spec hl).1).1
  | none =>
    simp only
    cases hl2 : least m1.keys with
    | some p => exact howner p (least_spec hl2).1
    | none => rfl

theorem C19_owner_does_not_depend_on_the_order_of_Add_witness :
    (ring 3 (some digits) [["6", "4"], ["2"]]).Get "27" =
      (ring 3 (some digits) [["2", "6"], [], ["4", "6"]]).Get "27" :=
  C19_owner_does_not_depend_on_the_order_of_Add 3 (some digits) [["6", "4"], ["2"]]
    [["2", "6"], [], ["4", "6"]] "27" (by intro name; simp; tauto)
    (by unfold NoCollision; decide)

end consistenthash

/-! ## The capacity bound -/

namespace GoMap

theorem lookup_delete_none {α : Type} {x : String} (k : String) {m : List (String × α)}
    (h : lookup x m = none) : lookup x (delete k m) = none := by
  by_cases hx : x = k
  · subst hx
    exact lookup_delete_self x m
  · rw [lookup_delete_ne m hx]
    exact h

theorem lookup_of_lookup_delete {α : Type} {x k : String} {v : α} {m : List (String × α)}
    (h : lookup x (delete k m) = some v) : lookup x m = some v := by
  by_cases hx : x = k
  · subst hx
    rw [lookup_delete_self] at h
    cases h
  · rw [lookup_delete_ne m hx] at h
    exact h

end GoMap

namespace lru

/-- With a negative capacity the loop condition of `Add` holds in every state,
so the eviction loop never ends. -/
theorem evictLoop_negative {V : Type} [Value V] (sched : List RangeOrder) :
    ∀ (c : Cache V), c.WF → c.maxBytes < 0 → Cache.evictLoop sched c = none := by
  have hover : ∀ (c : Cache V), c.WF → c.maxBytes < 0 → c.over = true := by
    intro c hw hm
    rw [over_iff, nbytes_eq_viewSize hw]
    have := viewSize_nonneg c.view
    constructor <;> omega
  induction sched with
  | nil =>
    intro c hw hm
    unfold Cache.evictLoop
    simp [hover c hw hm]
  | cons o s ih =>
    intro c hw hm
    rw [evictLoop_of_over o s (hover c hw hm)]
    exact ih _ (evict_WF hw o) (by rw [(evict_config c o).1]; exact hm)

/-- A store that is over a capacity that is not negative holds an entry. -/
theorem freqMap_ne_nil_of_over {V : Type} [Value V] {c : Cache V} (hw : c.WF)
    (hm : 0 ≤ c.maxBytes) (ho : c.over = true) : c.freqMap ≠ [] := by
  intro h0
  have hll : c.ll = [] := by
    cases hc : c.ll with
    | nil => rfl
    | cons e t =>
      have hmem : e ∈ c.ll := by rw [hc]; exact List.mem_cons_self _ _
      obtain ⟨f, hf⟩ := freq_lookup_of_live hw ((hw.cache_ll (c.elems e).key e).2 ⟨hmem, rfl⟩)
      rw [h0] at hf
      cases hf
  have hv : c.view = [] := by
    unfold Cache.view
    rw [hll]
    rfl
  rw [over_iff, nbytes_eq_viewSize hw, hv] at ho
  have h1 : viewSize ([] : List (String × V)) = 0 := rfl
  omega

/-- Under the frequency policy with a capacity that is not negative, as long
as the empty key is not live and every counter is below the largest `int`, each
iteration of the eviction loop removes an entry, so that the loop ends within as
many iterations as there are entries. -/
theorem evictLoop_LFU_returns {V : Type} [Value V] (sched : List RangeOrder) :
    ∀ (c : Cache V), c.WF → c.evictionType = EvictionPolicy.LFU → 0 ≤ c.maxBytes →
      GoMap.lookup "" c.cache = none →
      (∀ k g, GoMap.lookup k c.freqMap = some g → g < maxInt) →
      c.view.length ≤ sched.length → ∃ c' : Cache V, Cache.evictLoop sched c = some c' := by
  induction sched with
  | nil =>
    intro c hw _ hm _ _ hlen
    have hv : c.view = [] := List.length_eq_zero.1 (Nat.le_zero.1 hlen)
    have ho : c.over = false := by
      rw [over_false_iff, nbytes_eq_viewSize hw, hv]
      exact Or.inr hm
    exact ⟨c, evictLoop_of_not_over _ ho⟩
  | cons o s ih =>
    intro c hw hp hm he hlt hlen
    cases ho : c.over with
    | false => exact ⟨c, evictLoop_of_not_over _ ho⟩
    | true =>
      obtain ⟨ele, hin, hd⟩ := removeLFU_drops hw o (freqMap_ne_nil_of_over hw hm ho) hlt he
      rw [evictLoop_of_over o s ho, evict_of_LFU hp, hd]
      obtain ⟨g1, g2, -⟩ := dropElem_config c ele
      obtain ⟨f1, -, f3, f4, -, -⟩ := dropElem_fields c ele
      apply ih (c.dropElem ele) (dropElem_WF hw hin) (g2.trans hp) (by rw [g1]; exact hm)
      · rw [f3]
        exact GoMap.lookup_delete_none _ he
      · intro k g hg
        rw [f4] at hg
        exact hlt k g (GoMap.lookup_of_lookup_delete hg)
      · have h1 : (c.dropElem ele).view.length = c.view.length - 1 := by
          unfold Cache.view
          rw [List.length_map, List.length_map, f1, List.length_erase_of_mem hin]
        rw [h1]
        simp only [List.length_cons] at hlen
        omega

/-- The insertion step of `Add` gives a new key the counter 1 and leaves the
other counters as they are. -/
theorem addEntry_counters_lt {V : Type} [Value V] {c : Cache V} (hw : c.WF) (key : String)
    (value : V) (hlt : ∀ k g, GoMap.lookup k c.freqMap = some g → g < maxInt) :
    ∀ k g, GoMap.lookup k (c.addEntry key value).freqMap = some g → g < maxInt := by
  intro k g hg
  cases hl : GoMap.lookup key c.cache with
  | some ele =>
    rw [addEntry_live value hl] at hg
    exact hlt k g hg
  | none =>
    obtain ⟨f, hf, hf1⟩ := addEntry_fresh value hl
    rw [hf] at hg
    simp only at hg
    rw [hf1 (freq_lookup_of_not_live hw hl)] at hg
    by_cases hk : k = key
    · subst hk
      rw [GoMap.lookup_insert_self] at hg
      cases hg
      decide
    · rw [GoMap.lookup_insert_ne _ _ hk] at hg
      exact hlt k g hg

theorem Add_LFU_returns {V : Type} [Value V] (sched : List RangeOrder) (c : Cache V)
    (key : String) (value : V) (hw : c.WF) (hp : c.evictionType = EvictionPolicy.LFU)
    (hm : 0 ≤ c.maxBytes) (hk : key ≠ "") (he : (c.Get "").2 = none)
    (hlt : ∀ k g, GoMap.lookup k c.freqMap = some g → g < maxInt)
    (hlen : c.view.length + 1 ≤ sched.length) :
    ∃ c' : Cache V, c.Add sched key value = some c' := by
  have hcfg := addEntry_config c key value
  have he1 : ((c.addEntry key value).Get "").2 = none := by
    rw [Get_addEntry hw, if_neg hk]
    exact he
  apply evictLoop_LFU_returns sched _ (addEntry_WF hw key value) (hcfg.2.1.trans hp)
    (by rw [hcfg.1]; exact hm) (Get_snd_eq_none he1) (addEntry_counters_lt hw key value hlt)
  rw [view_addEntry hw, List.length_cons]
  have := List.length_filter_le (fun p : String × V => decide (p.1 ≠ key)) c.view
  omega

/-- C1: let a store be made by `New` with `maxBytes ≠ 0` under either policy
and brought to a state `c` by any sequence of calls of `Add`, `Get` and
`RemoveOldest`, and let `Add` be called once more.

* Whenever the call returns, it leaves `nbytes ≤ maxBytes`.
* With `maxBytes > 0` under the recency policy the call does return, within one
  loop iteration per entry.
* With `maxBytes > 0` under the frequency policy the call does return, within
  one loop iteration per entry and whatever the `range` orders, when the key is
  not empty, the empty key is not live and the counters are below the largest
  `int`.
* With `maxBytes < 0` the call never returns.

Under the frequency policy the bound is not reached when the empty key is the
one to evict: on a store with `maxBytes = 3`, after `Add("", "abc")` has
returned with `nbytes = 3`, the call `Add("", "abcd")` raises `nbytes` to 4 and
does not return, however many loop iterations are allowed. -/
theorem C1_Add_returns_within_maxBytes :
    (∀ (V : Type) [Value V] [Inhabited V] (maxBytes : Int) (evictionType : EvictionPolicy)
      (onEvicted : Bool) (ops : List (Op V)) (c : Cache V) (key : String) (value : V),
      maxBytes ≠ 0 → (New maxBytes evictionType onEvicted).run ops = some c →
      (∀ (sched : List RangeOrder) (c' : Cache V), c.Add sched key value = some c' →
        c'.nbytes ≤ maxBytes) ∧
      (0 < maxBytes → evictionType = EvictionPolicy.LRU →
        ∀ sched : List RangeOrder, c.view.length + 1 ≤ sched.length →
          ∃ c' : Cache V, c.Add sched key value = some c' ∧ c'.nbytes ≤ maxBytes) ∧
      (0 < maxBytes → evictionType = EvictionPolicy.LFU → key ≠ "" → (c.Get "").2 = none →
        (∀ k g, GoMap.lookup k c.freqMap = some g → g < maxInt) →
        ∀ sched : List RangeOrder, c.view.length + 1 ≤ sched.length →
          ∃ c' : Cache V, c.Add sched key value = some c' ∧ c'.nbytes ≤ maxBytes) ∧
      (maxBytes < 0 → ∀ sched : List RangeOrder, c.Add sched key value = none)) ∧
    (((New 3 EvictionPolicy.LFU false : Cache String).run [Op.add [] "" "abc"]).map
        (fun c => (c.nbytes, (c.addEntry "" "abcd").nbytes)) = some (3, 4) ∧
      ∀ sched : List RangeOrder,
        ((New 3 EvictionPolicy.LFU false : Cache String).run [Op.add [] "" "abc"]).bind
          (fun c => c.Add sched "" "abcd") = none) := by
  constructor
  · intro V _ _ maxBytes evictionType onEvicted ops c key value hmax hrun
    have hcfg := run_config ops hrun
    have hw := run_WF ops (New_WF maxBytes evictionType onEvicted) hrun
    have hm : c.maxBytes = maxBytes := hcfg.1
    have bound : ∀ (sched : List RangeOrder) (c' : Cache V), c.Add sched key value = some c' →
        c'.nbytes ≤ maxBytes := by
      intro sched c' hadd
      have hover := evictLoop_not_over sched hadd
      have hm' : c'.maxBytes = maxBytes := (Add_config hadd).1.trans hm
      rw [over_false_iff, hm'] at hover
      rcases hover with h0 | h1
      · exact absurd h0 hmax
      · exact h1
    refine ⟨bound, ?_, ?_, ?_⟩
    · intro hpos hp sched hlen
      obtain ⟨c', hadd⟩ := Add_LRU_returns sched c key value hw (hcfg.2.1.trans hp)
        (by rw [hm]; exact le_of_lt hpos) hlen
      exact ⟨c', hadd, bound sched c' hadd⟩
    · intro hpos hp hk he hlt sched hlen
      obtain ⟨c', hadd⟩ := Add_LFU_returns sched c key value hw (hcfg.2.1.trans hp)
        (by rw [hm]; exact le_of_lt hpos) hk he hlt hlen
      exact ⟨c', hadd, bound sched c' hadd⟩
    · intro hneg sched
      exact evictLoop_negative sched _ (addEntry_WF hw key value)
        (by rw [(addEntry_config c key value).1, hm]; exact hneg)
  · refine ⟨by decide, ?_⟩
    intro sched
    have h : ((New 3 EvictionPolicy.LFU false : Cache String).run
        [Op.add [] "" "abc"]).isSome = true := by decide
    have hf : ((New 3 EvictionPolicy.LFU false : Cache String).run [Op.add [] "" "abc"]).map
        (fun c => ((c.addEntry "" "abcd").freqMap, (c.addEntry "" "abcd").over,
          (c.addEntry "" "abcd").evictionType)) =
        some ([("", 1)], true, EvictionPolicy.LFU) := by decide
    obtain ⟨c, hc⟩ := Option.isSome_iff_exists.1 h
    rw [hc] at hf ⊢
    simp only [Option.map_some', Option.some.injEq, Prod.mk.injEq] at hf
    obtain ⟨hfm, hov, hp⟩ := hf
    simp only [Option.some_bind]
    unfold Cache.Add
    apply evictLoop_stuck hov
    intro order
    have hv : order.visit [("", 1)] = [("", 1)] := List.perm_singleton.1 (order.perm _)
    have hl : (leastFreq [("", 1)]).1 = "" := by decide
    rw [evict_of_LFU hp, removeLFU_eq, hfm, hv]
    simp [hl]

theorem C1_Add_returns_within_maxBytes_witness :
    (∃ c : Cache String,
      (New 10 EvictionPolicy.LFU true).run [Op.add [] "key1" "123456", Op.get "key1"] =
        some c ∧
      ∃ c' : Cache String, c.Add [RangeOrder.reversed, RangeOrder.stored] "k2" "123456" =
        some c' ∧ c'.nbytes ≤ 10) ∧
    (∃ c : Cache String,
      (New 10 EvictionPolicy.LRU true).run [Op.add [] "key1" "123456", Op.get "key1"] =
        some c ∧
      ∃ c' : Cache String, c.Add [RangeOrder.stored, RangeOrder.stored] "k2" "123456" =
        some c' ∧ c'.nbytes ≤ 10) := by
  constructor
  · have h : ((New 10 EvictionPolicy.LFU true : Cache String).run
        [Op.add [] "key1" "123456", Op.get "key1"]).isSome = true := by decide
    have hf : ((New 10 EvictionPolicy.LFU true : Cache String).run
        [Op.add [] "key1" "123456", Op.get "key1"]).map
          (fun c => (c.view.length, (c.Get "").2, c.freqMap)) =
        some (1, none, [("key1", 2)]) := by decide
    obtain ⟨c, hc⟩ := Option.isSome_iff_exists.1 h
    rw [hc] at hf
    simp only [Option.map_some', Option.some.injEq, Prod.mk.injEq] at hf
    obtain ⟨hl, he, hfm⟩ := hf
    have hlt : ∀ k g, GoMap.lookup k c.freqMap = some g → g < maxInt := by
      intro k g hg
      rw [hfm] at hg
      simp only [GoMap.lookup] at hg
      split at hg
      · cases hg
        decide
      · cases hg
    exact ⟨c, hc, (C1_Add_returns_within_maxBytes.1 String 10 EvictionPolicy.LFU true
      [Op.add [] "key1" "123456", Op.get "key1"] c "k2" "123456" (by decide) hc).2.2.1
      (by decide) rfl (by decide) he hlt [RangeOrder.reversed, RangeOrder.stored]
      (by rw [hl]; decide)⟩
  · have h : ((New 10 EvictionPolicy.LRU true : Cache String).run
        [Op.add [] "key1" "123456", Op.get "key1"]).isSome = true := by decide
    have hl : ((New 10 EvictionPolicy.LRU true : Cache String).run
        [Op.add [] "key1" "123456", Op.get "key1"]).map (fun c => c.view.length) = some 1 := by
      decide
    obtain ⟨c, hc⟩ := Option.isSome_iff_exists.1 h
    rw [hc] at hl
    simp only [Option.map_some', Option.some.injEq] at hl
    exact ⟨c, hc, (C1_Add_returns_within_maxBytes.1 String 10 EvictionPolicy.LRU true
      [Op.add [] "key1" "123456", Op.get "key1"] c "k2" "123456" (by decide) hc).2.1
      (by decide) rfl [RangeOrder.stored, RangeOrder.stored] (by rw [hl]; decide)⟩

end lru

/-! ## The fallback to the getter when a peer fails -/

namespace geecache

/-- C10 (as stated, refuted): a group of capacity 1 whose picker picks a peer
that fails, the key `Tom` that misses the store and a getter that succeeds on
it.  `Get` returns the bytes of the getter with a nil error after one call each
to the picker, the peer and the getter, but the local store is not populated:
whichever policy the store has, it holds no entry afterwards and `Tom` misses
it. -/
theorem C10_store_is_not_populated_when_too_small :
    ((({ sampleGroup lru.EvictionPolicy.LRU 1 with peers := some samplePicker } :
        Group).mainCache.lru.Get "Tom").2 = none ∧
      (samplePicker.PickPeer [] "Tom").isSome = true ∧
      failingPeer.Get [Call.pickPeer "Tom"] "scores" "Tom" = .error "peer down" ∧
      sampleGetter.Get [Call.pickPeer "Tom", Call.peerGet "scores" "Tom"] "Tom" =
        .ok [54, 51, 48]) ∧
    (({ sampleGroup lru.EvictionPolicy.LRU 1 with peers := some samplePicker } : Group).Get
        [lru.RangeOrder.stored] "Tom").map
      (fun r => (r.2, r.1.calls, r.1.mainCache.lru.Length, (r.1.mainCache.get "Tom").2)) =
      some ((⟨[54, 51, 48]⟩, none),
        [Call.pickPeer "Tom", Call.peerGet "scores" "Tom", Call.getter "Tom"], 0, none) ∧
    (({ sampleGroup lru.EvictionPolicy.LFU 1 with peers := some samplePicker } : Group).Get
        [lru.RangeOrder.stored] "Tom").map
      (fun r => (r.2, r.1.calls, r.1.mainCache.lru.Length, (r.1.mainCache.get "Tom").2)) =
      some ((⟨[54, 51, 48]⟩, none),
        [Call.pickPeer "Tom", Call.peerGet "scores" "Tom", Call.getter "Tom"], 0, none) := by
  refine ⟨⟨by decide, rfl, rfl, rfl⟩, by decide, by decide⟩

/-- C10 (amended): for a non-empty key that misses the local store, when the
registered picker picks a peer and the fetch from that peer fails, `Get` returns
what `getLocally` returns after the two calls to the picker and the peer, and
the error of the peer is not returned.

* When the getter succeeds with `bytes`, `Get` returns as soon as `Add` of the
  store does, with `bytes`, a nil error and the store as `Add` leaves it.  When
  the store keeps the new entry (the capacity is 0, or the entry fits beside the
  entries already stored, or the store evicts by recency and the entry fits the
  capacity on its own), `Get` does return, after one call each to the picker,
  the peer and the getter, and the local store is populated: the key now hits
  it with `bytes`.  `Get` also returns, whether the entry is kept or not, when
  the capacity is not negative and the store evicts by recency, or evicts by
  frequency with the empty key not live and every counter below the largest
  `int`.
* When the getter fails, `Get` returns the error of the getter. -/
theorem C10_peer_failure_falls_back_to_getter (sched : List lru.RangeOrder) (g : Group)
    (key : String) (peers : PeerPicker) (peer : PeerGetter) (pe : Error) (hk : key ≠ "")
    (hmiss : (g.mainCache.lru.Get key).2 = none)
    (hpeers : g.peers = some peers) (hpick : peers.PickPeer g.calls key = some peer)
    (hfail : peer.Get (g.calls ++ [Call.pickPeer key]) g.name key = .error pe) :
    g.Get sched key =
      (g.withCalls [Call.pickPeer key, Call.peerGet g.name key]).getLocally sched key ∧
    (∀ bytes, g.getter.Get (g.calls ++ [Call.pickPeer key, Call.peerGet g.name key]) key =
        .ok bytes →
      g.Get sched key = (g.mainCache.lru.Add sched key ⟨bytes⟩).map (fun s =>
        ({ g.withCalls [Call.pickPeer key, Call.peerGet g.name key, Call.getter key] with
            mainCache := { g.mainCache with lru := s } }, (⟨bytes⟩, none))) ∧
      (GroupReachable g →
        (g.mainCache.cacheBytes = 0 ∨
          g.mainCache.lru.nbytes + ((key.utf8ByteSize : Int) + (bytes.length : Int)) ≤
            g.mainCache.cacheBytes ∨
          (g.mainCache.lru.evictionType = lru.EvictionPolicy.LRU ∧
            (key.utf8ByteSize : Int) + (bytes.length : Int) ≤ g.mainCache.cacheBytes)) →
        g.mainCache.lru.Length ≤ (sched.length : Int) →
        ∃ g1 : Group, g.Get sched key = some (g1, (⟨bytes⟩, none)) ∧
          g1.calls = g.calls ++
            [Call.pickPeer key, Call.peerGet g.name key, Call.getter key] ∧
          (g1.mainCache.get key).2 = some ⟨bytes⟩) ∧
      (GroupReachable g → 0 ≤ g.mainCache.cacheBytes →
        (g.mainCache.lru.evictionType = lru.EvictionPolicy.LRU ∨
          ((g.mainCache.lru.Get "").2 = none ∧
            ∀ k f, GoMap.lookup k g.mainCache.lru.freqMap = some f → f < lru.maxInt)) →
        g.mainCache.lru.Length + 1 ≤ (sched.length : Int) →
        ∃ g1 : Group, g.Get sched key = some (g1, (⟨bytes⟩, none)) ∧
          g1.calls = g.calls ++
            [Call.pickPeer key, Call.peerGet g.name key, Call.getter key])) ∧
    (∀ e, g.getter.Get (g.calls ++ [Call.pickPeer key, Call.peerGet g.name key]) key =
        .error e →
      g.Get sched key =
        some (g.withCalls [Call.pickPeer key, Call.peerGet g.name key, Call.getter key],
          (⟨[]⟩, some e))) := by
  have hans : g.peerAnswer key = some (.error pe) := by
    simp [Group.peerAnswer, hpeers, hpick, hfail]
  have hcalls : g.peerCalls key = [Call.pickPeer key, Call.peerGet g.name key] := by
    simp [Group.peerCalls, hpeers, hpick]
  have hload : g.Get sched key =
      (g.withCalls [Call.pickPeer key, Call.peerGet g.name key]).getLocally sched key := by
    rw [Get_of_miss sched g hk hmiss, load_of_no_peer sched g (Or.inr ⟨pe, hans⟩), hcalls]
  refine ⟨hload, ?_, ?_⟩
  · intro bytes hb
    have h2 : (g.withCalls [Call.pickPeer key, Call.peerGet g.name key]).getter.Get
        (g.withCalls [Call.pickPeer key, Call.peerGet g.name key]).calls key = .ok bytes := hb
    have heq : g.Get sched key = (g.mainCache.lru.Add sched key ⟨bytes⟩).map (fun s =>
        ({ g.withCalls [Call.pickPeer key, Call.peerGet g.name key, Call.getter key] with
            mainCache := { g.mainCache with lru := s } }, (⟨bytes⟩, none))) := by
      rw [hload, getLocally_ok sched _ h2]
      simp [Group.withCalls]
    have hret : ∀ c' : lru.Cache ByteView, g.mainCache.lru.Add sched key ⟨bytes⟩ = some c' →
        g.Get sched key =
          some ({ g.withCalls [Call.pickPeer key, Call.peerGet g.name key, Call.getter key] with
            mainCache := { g.mainCache with lru := c' } }, (⟨bytes⟩, none)) := by
      intro c' hadd
      rw [heq, hadd]
      rfl
    refine ⟨heq, ?_, ?_⟩
    · intro hr hfit hlen
      obtain ⟨hw, hmax⟩ := hr.sound
      have hfit' : g.mainCache.lru.maxBytes = 0 ∨
          g.mainCache.lru.nbytes + lru.entrySize (⟨key, ⟨bytes⟩⟩ : lru.entry ByteView) ≤
            g.mainCache.lru.maxBytes ∨
          (g.mainCache.lru.evictionType = lru.EvictionPolicy.LRU ∧
            lru.entrySize (⟨key, ⟨bytes⟩⟩ : lru.entry ByteView) ≤ g.mainCache.lru.maxBytes) := by
        rw [hmax]
        exact hfit
      obtain ⟨c', hadd, -, hhit⟩ :=
        lru.Add_keeps_new_key sched g.mainCache.lru key ⟨bytes⟩ hw hmiss hfit' hlen
      exact ⟨_, hret c' hadd, rfl, hhit⟩
    · intro hr hcap hpol hlen
      obtain ⟨hw, hmax⟩ := hr.sound
      have hlen' : g.mainCache.lru.view.length + 1 ≤ sched.length := by
        rw [lru.Length_eq_view] at hlen
        exact_mod_cast hlen
      have hex : ∃ c' : lru.Cache ByteView, g.mainCache.lru.Add sched key ⟨bytes⟩ = some c' := by
        cases hp : g.mainCache.lru.evictionType with
        | LRU =>
          exact lru.Add_LRU_returns sched _ key ⟨bytes⟩ hw hp (by rw [hmax]; exact hcap) hlen'
        | LFU =>
          rcases hpol with h1 | ⟨h1, h2⟩
          · rw [hp] at h1
            cases h1
          · exact lru.Add_LFU_returns sched _ key ⟨bytes⟩ hw hp (by rw [hmax]; exact hcap) hk
              h1 h2 hlen'
      obtain ⟨c', hadd⟩ := hex
      exact ⟨_, hret c' hadd, rfl⟩
  · intro e he
    have h2 : (g.withCalls [Call.pickPeer key, Call.peerGet g.name key]).getter.Get
        (g.withCalls [Call.pickPeer key, Call.peerGet g.name key]).calls key = .error e := he
    rw [hload, getLocally_error sched _ h2]
    simp [Group.withCalls]

theorem C10_peer_failure_falls_back_to_getter_witness :
    (∃ g1 : Group,
      ({ sampleGroup lru.EvictionPolicy.LRU 64 with peers := some samplePicker } : Group).Get []
          "Tom" = some (g1, (⟨[54, 51, 48]⟩, none)) ∧
        g1.calls = [Call.pickPeer "Tom", Call.peerGet "scores" "Tom", Call.getter "Tom"] ∧
        (g1.mainCache.get "Tom").2 = some ⟨[54, 51, 48]⟩) ∧
    (({ sampleGroup lru.EvictionPolicy.LRU 64 with peers := some samplePicker } : Group).Get []
        "Jack").map Prod.snd = some (⟨[]⟩, some "not exist") := by
  have h := C10_peer_failure_falls_back_to_getter []
    ({ sampleGroup lru.EvictionPolicy.LRU 64 with peers := some samplePicker } : Group)
  constructor
  · exact ((h "Tom" samplePicker failingPeer "peer down" (by decide) (by decide) rfl rfl rfl).2.1
      [54, 51, 48] rfl).2.1
      ⟨[], lru.EvictionPolicy.LRU, "scores", 64, sampleGetter, _,
        sampleGroup lru.EvictionPolicy.LRU 64, [GroupOp.registerPeers (some samplePicker)],
        rfl, rfl⟩
      (Or.inr (Or.inl (by decide))) (by decide)
  · rw [(h "Jack" samplePicker failingPeer "peer down" (by decide) (by decide) rfl rfl rfl).2.2
      "not exist" rfl]
    rfl

end geecache
